import Mathlib

/-!
# Hierarchical task store (`czertbytes/tasks`)

A shallow embedding of `storage.go`, `service.go`, the data model and the
validators of `task.go`, the URL path parsing of `http.go` and the handlers of
`handler.go`, followed by theorems about path resolution, structural
mutation, identifier allocation, validation, parsing, the status codes and
the wire format.

## Modelling choices

* `TaskID` is Go `int`, taken to be 64 bits wide.  Identifiers are carried as
  `Int`; the only arithmetic the program performs on them is the increment in
  `NextTaskID`, which wraps around in two's complement (`wrapInt`), as Go
  defines signed overflow.
* A Go `map[TaskID]*Task` is a list of `(key, task)` entries, the list order
  standing for the (unspecified) order in which `range` visits the entries.
  A `nil` map is `none`, a non-nil map is `some entries`.  `mapGet`, `mapSet`
  and `mapErase` are `m[k]`, `m[k] = v` and `delete(m, k)`.  The theorems
  quantify over every store, hence over every order of its entries; an entry
  that a call writes takes the place of the entry it replaces, or is visited
  last when the key is new.
* The store is a tree value: every `*Task` is reachable along exactly one
  path.  A mutation through the pointer returned by `search` is therefore the
  rebuilding of the tree along the route `search` took (`modifyAt`).
* A Go result `(Task, error)` is a pair `Task × Option TaskError`, the zero
  `Task{}` being `Task.zero`; a result `(*Task, error)` is an `Except`.
* A Go `string` holding text is a `String`; Go's `len` of it is the number
  of bytes of its UTF-8 encoding (`goLen`).  The URL path is parsed as its
  list of characters: the slash, the signs and the digits are ASCII, so bytes
  and characters give the same segments and the same numbers.
* The library functions `strings.Split` and `strconv.Atoi` are not part of
  the repository; `splitSlash` and `Atoi` follow their documentation.
* The handlers of `handler.go` are functions from the state of the service
  and the request to the state afterwards and the response.  The request is
  the method, the URL path and the outcome of `parseBody`; the response is the
  status code, the `Location` header and the value that is encoded.  The
  service is the interface `TaskService`, instantiated by the storage service.
* `sort.Sort` and `json.Marshal` are library functions; `sortByTaskID` and
  `marshalTask` follow their documentation and the struct tags of `task.go`.
* Copies and references are told apart in a second translation of the storage
  and the service over an explicit memory (namespace `Heap`), used for the
  statements about what a returned `Task` shares with the tree.
* The `fmt.Println` and `log.Printf` debug output is not modelled.
-/

namespace Tasks

/-! ## Data model (`task.go`) -/

/-- Go `type TaskID int`. -/
abbrev TaskID := Int

/-- The package-level error values of `task.go`. -/
inductive TaskError where
  | ErrTaskNotFound
  | ErrTaskPathNotValid
  | ErrTaskLabelIsRequired
  | ErrTaskLabelIsNotValid
  | ErrTaskLabelOrCompletedRequired
  deriving DecidableEq

/-- Go `struct Task`; `Children` is the `SubTasks` map (`none` when nil). -/
inductive Task where
  | mk (ID : TaskID) (Label : String) (Completed : Bool)
      (Children : Option (List (TaskID × Task)))

/-- Go `type SubTasks map[TaskID]*Task`. -/
abbrev SubTasks := Option (List (TaskID × Task))

namespace Task

/-- Field `ID`. -/
def ID : Task → TaskID
  | mk i _ _ _ => i

/-- Field `Label`. -/
def Label : Task → String
  | mk _ l _ _ => l

/-- Field `Completed`. -/
def Completed : Task → Bool
  | mk _ _ c _ => c

/-- Field `Children`. -/
def Children : Task → SubTasks
  | mk _ _ _ cs => cs

/-- The zero value `Task{}`. -/
def zero : Task := mk 0 "" false none

/-- Assignment to the field `Children`. -/
def setChildren : Task → SubTasks → Task
  | mk i l c _, cs => mk i l c cs

/-- Assignment to the field `Label`. -/
def setLabel : Task → String → Task
  | mk i _ c cs, l => mk i l c cs

/-- Assignment to the field `Completed`. -/
def setCompleted : Task → Bool → Task
  | mk i l _ cs, c => mk i l c cs

end Task

/-- The entries a `range` over the map visits: none for a nil map. -/
def SubTasks.entries : SubTasks → List (TaskID × Task)
  | none => []
  | some cs => cs

/-- Map read `m[k]` (with the `found` flag as `Option`). -/
def mapGet (k : TaskID) : List (TaskID × Task) → Option Task
  | [] => none
  | (k', t) :: r => if k' = k then some t else mapGet k r

/-- Map removal `delete(m, k)`; a no-op when `k` is not a key. -/
def mapErase (k : TaskID) : List (TaskID × Task) → List (TaskID × Task)
  | [] => []
  | (k', t) :: r => if k' = k then mapErase k r else (k', t) :: mapErase k r

/-- Map write `m[k] = v`: the entry under `k` is replaced, or a new entry is
added.  A map holds one entry per key, so nothing under `k` is kept behind
the replaced entry. -/
def mapSet (k : TaskID) (v : Task) : List (TaskID × Task) → List (TaskID × Task)
  | [] => [(k, v)]
  | (k', t) :: r => if k' = k then (k, v) :: mapErase k r else (k', t) :: mapSet k v r

/-- Mutation through the pointer `m[k]`: the task stored under `k` becomes
`g` of itself. -/
def mapModify (k : TaskID) (g : Task → Task) : List (TaskID × Task) → List (TaskID × Task)
  | [] => []
  | (k', t) :: r => if k' = k then (k', g t) :: r else (k', t) :: mapModify k g r

/-- The keys of a map. -/
def mapKeys (m : List (TaskID × Task)) : List TaskID := m.map Prod.fst

/-! ## Storage (`storage.go`) -/

/-- Go `struct TaskMemoryStorage` (the mutex is not state). -/
structure TaskMemoryStorage where
  storage : List (TaskID × Task)
  lastTaskID : TaskID

/-- Two's-complement wrap-around of a 64-bit Go `int`. -/
def wrapInt (x : Int) : Int := (x + 2 ^ 63) % 2 ^ 64 - 2 ^ 63

/-- The largest Go `int`. -/
def maxInt : Int := 2 ^ 63 - 1

/-- The smallest Go `int`. -/
def minInt : Int := -(2 ^ 63)

/-- Constructor `NewTaskMemoryStorage`: an empty root map and counter 0. -/
def NewTaskMemoryStorage : TaskMemoryStorage := ⟨[], 0⟩

/-- The inner loop of `search`: every child is visited in iteration order and
each one whose `ID` equals `id` is assigned to `task` (`acc`), so the last
such child remains; `none` is `found == false`. -/
def scanChildren (id : TaskID) : List (TaskID × Task) → Option Task → Option Task
  | [], acc => acc
  | (_, c) :: r, acc =>
    if c.ID = id then scanChildren id r (some c) else scanChildren id r acc

/-- The outer loop of `search`, from the current `task` over the remaining
path elements. -/
def searchFrom : Task → List TaskID → Except TaskError Task
  | task, [] => .ok task
  | task, id :: rest =>
    match scanChildren id task.Children.entries none with
    | none => .error .ErrTaskNotFound
    | some c => searchFrom c rest

/-- Method `TaskMemoryStorage.search`: the task at the given path. -/
def TaskMemoryStorage.search (s : TaskMemoryStorage) : List TaskID → Except TaskError Task
  | [] => .error .ErrTaskPathNotValid
  | a :: rest =>
    match mapGet a s.storage with
    | none => .error .ErrTaskNotFound
    | some task => searchFrom task rest

/-- Mutation through the pointer the inner loop of `search` ends with: the
last child whose `ID` equals `id` becomes `g` of itself. -/
def modifyScanned (id : TaskID) (g : Task → Task) : List (TaskID × Task) → List (TaskID × Task)
  | [] => []
  | (k, c) :: r =>
    if (scanChildren id r none).isSome then (k, c) :: modifyScanned id g r
    else if c.ID = id then (k, g c) :: r
    else (k, c) :: r

/-- Mutation through the pointer `searchFrom task path` returns. -/
def modifyFrom (g : Task → Task) : List TaskID → Task → Task
  | [], task => g task
  | id :: rest, task =>
    match task.Children with
    | none => task
    | some cs => task.setChildren (some (modifyScanned id (modifyFrom g rest) cs))

/-- Mutation through the pointer `search path` returns. -/
def modifyAt (g : Task → Task) : List TaskID → List (TaskID × Task) → List (TaskID × Task)
  | [], m => m
  | a :: rest, m => mapModify a (modifyFrom g rest) m

/-- The two statements `if p.Children == nil { p.Children = map{} }` and
`p.Children[task.ID] = task`. -/
def addChild (task : Task) (p : Task) : Task :=
  p.setChildren (some (mapSet task.ID task p.Children.entries))

/-- The statement `delete(p.Children, taskID)`; a nil map stays nil. -/
def removeChild (taskID : TaskID) (p : Task) : Task :=
  p.setChildren (p.Children.map (mapErase taskID))

namespace TaskMemoryStorage

/-- Method `TaskMemoryStorage.Insert`: the store afterwards and the returned error.
The cases of the path are `len(path) == 0` and its negation. -/
def Insert (s : TaskMemoryStorage) (path : List TaskID) (task : Task) :
    TaskMemoryStorage × Option TaskError :=
  match path with
  | [] => ({ s with storage := mapSet task.ID task s.storage }, none)
  | a :: rest =>
    match s.search (a :: rest) with
    | .error err => (s, some err)
    | .ok _ => ({ s with storage := modifyAt (addChild task) (a :: rest) s.storage }, none)

/-- Method `TaskMemoryStorage.Find`: a copy of the task at the path. -/
def Find (s : TaskMemoryStorage) (path : List TaskID) : Task × Option TaskError :=
  match path with
  | [] => (Task.zero, some .ErrTaskPathNotValid)
  | a :: rest =>
    match s.search (a :: rest) with
    | .error err => (Task.zero, some err)
    | .ok lastPathTask => (lastPathTask, none)

/-- Method `TaskMemoryStorage.FindAll`: the root tasks in iteration order. -/
def FindAll (s : TaskMemoryStorage) : List Task × Option TaskError :=
  (s.storage.map Prod.snd, none)

/-- Method `TaskMemoryStorage.Update`; the cases of the path are `len(path) == 0`,
`len(path) == 1` and the rest, where `dropLast` is `path[:len(path)-1]`. -/
def Update (s : TaskMemoryStorage) (path : List TaskID) (task : Task) :
    TaskMemoryStorage × Option TaskError :=
  match path with
  | [] => (s, some .ErrTaskPathNotValid)
  | [_] =>
    match mapGet task.ID s.storage with
    | none => (s, some .ErrTaskNotFound)
    | some _ => ({ s with storage := mapSet task.ID task s.storage }, none)
  | a :: b :: rest =>
    match s.search (a :: b :: rest).dropLast with
    | .error err => (s, some err)
    | .ok _ =>
      ({ s with storage := modifyAt (addChild task) (a :: b :: rest).dropLast s.storage }, none)

/-- Method `TaskMemoryStorage.Delete`; `taskID` is `path[len(path)-1]`. -/
def Delete (s : TaskMemoryStorage) (path : List TaskID) :
    TaskMemoryStorage × Option TaskError :=
  match path with
  | [] => (s, some .ErrTaskPathNotValid)
  | [a] =>
    match mapGet a s.storage with
    | none => (s, some .ErrTaskNotFound)
    | some _ => ({ s with storage := mapErase a s.storage }, none)
  | a :: b :: rest =>
    let taskID := (b :: rest).getLast (List.cons_ne_nil b rest)
    match s.search (a :: b :: rest).dropLast with
    | .error err => (s, some err)
    | .ok _ =>
      ({ s with storage := modifyAt (removeChild taskID) (a :: b :: rest).dropLast s.storage },
        none)

/-- Method `TaskMemoryStorage.NextTaskID`: the store afterwards and the returned
identifier. -/
def NextTaskID (s : TaskMemoryStorage) : TaskMemoryStorage × TaskID :=
  let next := wrapInt (s.lastTaskID + 1)
  ({ s with lastTaskID := next }, next)

end TaskMemoryStorage

/-! ## Service (`service.go`) -/

/-- Go `struct CreateFields`. -/
structure CreateFields where
  Label : String

/-- Go `struct UpdateFields`; a nil pointer is `none`. -/
structure UpdateFields where
  Label : Option String
  Completed : Option Bool

namespace TaskStorageService

/-- Method `TaskStorageService.Create` over a `TaskMemoryStorage`. -/
def Create (s : TaskMemoryStorage) (path : List TaskID) (fields : CreateFields) :
    TaskMemoryStorage × Task × Option TaskError :=
  let (s1, id) := s.NextTaskID
  let newTask := Task.mk id fields.Label false (some [])
  match s1.Insert path newTask with
  | (s2, some err) => (s2, Task.zero, some err)
  | (s2, none) => (s2, newTask, none)

/-- Method `TaskStorageService.Find`. -/
def Find (s : TaskMemoryStorage) (path : List TaskID) : Task × Option TaskError :=
  s.Find path

/-- Method `TaskStorageService.FindAll`. -/
def FindAll (s : TaskMemoryStorage) : List Task × Option TaskError :=
  s.FindAll

/-- The two conditional field assignments of `TaskStorageService.Update`. -/
def mergeFields (oldVersionTask : Task) (fields : UpdateFields) : Task :=
  let t1 := match fields.Label with
    | some l => oldVersionTask.setLabel l
    | none => oldVersionTask
  match fields.Completed with
  | some c => t1.setCompleted c
  | none => t1

/-- Method `TaskStorageService.Update`: fetch, merge, write back. -/
def Update (s : TaskMemoryStorage) (path : List TaskID) (fields : UpdateFields) :
    TaskMemoryStorage × Task × Option TaskError :=
  match s.Find path with
  | (_, some err) => (s, Task.zero, some err)
  | (oldVersionTask, none) =>
    let newVersionTask := mergeFields oldVersionTask fields
    match s.Update path newVersionTask with
    | (s1, some err) => (s1, oldVersionTask, some err)
    | (s1, none) => (s1, newVersionTask, none)

/-- Method `TaskStorageService.Delete`: fetch, then delete. -/
def Delete (s : TaskMemoryStorage) (path : List TaskID) :
    TaskMemoryStorage × Task × Option TaskError :=
  match s.Find path with
  | (_, some err) => (s, Task.zero, some err)
  | (task, none) =>
    match s.Delete path with
    | (s1, some err) => (s1, Task.zero, some err)
    | (s1, none) => (s1, task, none)

end TaskStorageService

/-! ## Predicates used in the statements -/

mutual
/-- Every descendant of the task is stored under a key equal to its `ID`. -/
def Task.keyed : Task → Bool
  | .mk _ _ _ none => true
  | .mk _ _ _ (some cs) => keyedEntries cs
/-- Every task of the map, and every descendant, is stored under a key equal
to its `ID`. -/
def keyedEntries : List (TaskID × Task) → Bool
  | [] => true
  | (k, t) :: r => decide (t.ID = k) && t.keyed && keyedEntries r
end

/-- Each task of the store, at every depth, is stored under its own
identifier. -/
def TaskMemoryStorage.KeyedByID (s : TaskMemoryStorage) : Prop :=
  keyedEntries s.storage = true

instance (s : TaskMemoryStorage) : Decidable s.KeyedByID :=
  inferInstanceAs (Decidable (keyedEntries s.storage = true))

mutual
/-- The identifiers occurring in a task: its own and those of all its
descendants. -/
def Task.ids : Task → List TaskID
  | .mk i _ _ none => [i]
  | .mk i _ _ (some cs) => i :: forestIDs cs
/-- The identifiers occurring anywhere in a map of tasks, descendants at every
depth included, one list element per task. -/
def forestIDs : List (TaskID × Task) → List TaskID
  | [] => []
  | (_, t) :: r => t.ids ++ forestIDs r
end

/-- The condition every state the service reaches satisfies: each task is
stored under its own identifier, no identifier occurs twice in the forest,
and none exceeds the counter, which is not negative. -/
def TaskMemoryStorage.Sound (s : TaskMemoryStorage) : Prop :=
  keyedEntries s.storage = true ∧ (forestIDs s.storage).Nodup ∧
    (∀ id ∈ forestIDs s.storage, id ≤ s.lastTaskID) ∧ 0 ≤ s.lastTaskID

/-- A state-changing call of the service. -/
inductive ServiceCall where
  | create (path : List TaskID) (fields : CreateFields)
  | update (path : List TaskID) (fields : UpdateFields)
  | delete (path : List TaskID)

/-- The store after one call of the service, successful or not. -/
def ServiceCall.run : ServiceCall → TaskMemoryStorage → TaskMemoryStorage
  | .create path fields, s => (TaskStorageService.Create s path fields).1
  | .update path fields, s => (TaskStorageService.Update s path fields).1
  | .delete path, s => (TaskStorageService.Delete s path).1

/-- The store after a sequence of calls, first call first. -/
def runCalls : List ServiceCall → TaskMemoryStorage → TaskMemoryStorage
  | [], s => s
  | c :: cs, s => runCalls cs (c.run s)

/-- The number of `Create` calls in a sequence. -/
def countCreates : List ServiceCall → Nat
  | [] => 0
  | .create _ _ :: cs => countCreates cs + 1
  | _ :: cs => countCreates cs

/-- Resolution of a path in the words of the specification: the first
identifier is looked up among the root tasks, every later one among the
children of the node reached so far, by the identifier of the child. -/
inductive Resolves (s : TaskMemoryStorage) : List TaskID → Task → Prop where
  | root {a : TaskID} {t : Task} : mapGet a s.storage = some t → Resolves s [a] t
  | child {p : List TaskID} {t c : Task} {k : TaskID} :
      Resolves s p t → (k, c) ∈ t.Children.entries → Resolves s (p ++ [c.ID]) c

/-- The identifiers returned by `n` successive calls of `NextTaskID`, first
call first. -/
def issuedIDs : Nat → TaskMemoryStorage → List TaskID
  | 0, _ => []
  | n + 1, s => (s.NextTaskID).2 :: issuedIDs n (s.NextTaskID).1

/-! ## Validation (`task.go`) -/

/-- Go `struct JSONTask`; a nil pointer is `none`. -/
structure JSONTask where
  Label : Option String
  Completed : Option Bool

/-- Go `len` of a string: the number of bytes of its UTF-8 encoding. -/
def goLen (s : String) : Nat := s.utf8ByteSize

/-- Method `CreateValidator.Validate`; `none` is the nil error. -/
def CreateValidator.Validate (t : JSONTask) : Option TaskError :=
  match t.Label with
  | none => some .ErrTaskLabelIsRequired
  | some label =>
    if goLen label < 1 ∨ goLen label > 100 then some .ErrTaskLabelIsNotValid
    else none

/-- Method `UpdateValidator.Validate`; `none` is the nil error. -/
def UpdateValidator.Validate (t : JSONTask) : Option TaskError :=
  if t.Label.isNone ∧ t.Completed.isNone then some .ErrTaskLabelOrCompletedRequired
  else
    match t.Label with
    | some label =>
      if goLen label < 1 ∨ goLen label > 100 then some .ErrTaskLabelIsNotValid
      else none
    | none => none

/-! ## URL path parsing (`http.go`) -/

/-- The package-level error values of `handler.go` and `http.go`. -/
inductive HTTPError where
  | ErrHandlerURLNotValid
  | ErrBadMediaType
  deriving DecidableEq

/-- Modelled from the spec: `strings.Split(s, "/")` of the Go standard
library, which is not part of the repository.  The pieces of `s` between the
slashes, in order, one more than there are slashes; the slash is ASCII, so
splitting the bytes and splitting the characters give the same pieces. -/
def splitSlash : List Char → List (List Char)
  | [] => [[]]
  | c :: rest =>
    if c = '/' then [] :: splitSlash rest
    else
      match splitSlash rest with
      | [] => [[c]]
      | piece :: pieces => (c :: piece) :: pieces

/-- The test for an ASCII digit, `'0'` to `'9'`. -/
def isASCIIDigit (c : Char) : Bool := decide (48 ≤ c.toNat ∧ c.toNat ≤ 57)

/-- The value of an ASCII digit: the test `ch - '0' > 9` of the library fails
for every other byte, so for every other character. -/
def digitVal (c : Char) : Option Nat :=
  if isASCIIDigit c then some (c.toNat - 48) else none

/-- The digit loop of `strconv.Atoi`: `n = n*10 + digit` from the left. -/
def parseDigits : List Char → Nat → Option Nat
  | [], acc => some acc
  | c :: rest, acc =>
    match digitVal c with
    | none => none
    | some d => parseDigits rest (acc * 10 + d)

/-- Modelled from the spec: `strconv.Atoi` of the Go standard library, which
is not part of the repository.  As the library documents it: an optional `+`
or `-`, then one or more decimal digits and nothing else; the call fails on
any other text (syntax error) and when the number does not fit in `int`
(range error).  `none` stands for either error. -/
def Atoi (s : List Char) : Option Int :=
  match s with
  | [] => none
  | c :: rest =>
    let digits := if c = '-' ∨ c = '+' then rest else c :: rest
    match digits with
    | [] => none
    | d :: ds =>
      match parseDigits (d :: ds) 0 with
      | none => none
      | some n =>
        let val : Int := if c = '-' then -(n : Int) else (n : Int)
        if minInt ≤ val ∧ val ≤ maxInt then some val else none

/-- The second loop of `parseTaskIDPath`, over `parts[1:]`, with `taskIDs` as
accumulator. -/
def parseLoop : List (List Char) → List TaskID → Except HTTPError (List TaskID)
  | [], taskIDs => .ok taskIDs
  | value :: rest, taskIDs =>
    if value.length > 0 then
      match Atoi value with
      | none => .error .ErrHandlerURLNotValid
      | some val => parseLoop rest (taskIDs ++ [val])
    else parseLoop rest taskIDs

/-- Function `parseTaskIDPath`, applied to `r.URL.Path`. -/
def parseTaskIDPath (urlPath : String) : Except HTTPError (List TaskID) :=
  let parts := (splitSlash urlPath.toList).filter (fun part => part.length > 0)
  if parts.length < 1 then .error .ErrHandlerURLNotValid
  else parseLoop (parts.drop 1) []

/-- The ASCII digit for a number below ten. -/
def digitChar (d : Nat) : Char := Char.ofNat (d + 48)

/-- The decimal digits of `n`, most significant first, computed with at most
`fuel` divisions by ten. -/
def decimalFuel : Nat → Nat → List Char
  | 0, _ => []
  | fuel + 1, n =>
    if n < 10 then [digitChar n] else decimalFuel fuel (n / 10) ++ [digitChar (n % 10)]

/-- The decimal rendering of a natural number, without leading zeros. -/
def decimalNat (n : Nat) : List Char := decimalFuel (n + 1) n

/-- The decimal rendering of an integer, as the verb `%d` prints it. -/
def decimal (v : Int) : List Char :=
  if 0 ≤ v then decimalNat v.toNat else '-' :: decimalNat (-v).toNat

/-- The URL path `/tasks` followed by `/` and the decimal rendering of each
identifier in turn. -/
def tasksURL (ids : List TaskID) : String :=
  String.mk ("/tasks".toList ++ ids.flatMap (fun id => '/' :: decimal id))

/-- The non-empty segments of a URL path. -/
def segments (urlPath : String) : List (List Char) :=
  (splitSlash urlPath.toList).filter (fun part => part.length > 0)

/-- The text after an optional sign. -/
def unsignedPart : List Char → List Char
  | [] => []
  | c :: rest => if c = '-' ∨ c = '+' then rest else c :: rest

/-- The integer a signed decimal numeral denotes. -/
def decimalValue (s : List Char) : Int :=
  let n : Nat := (unsignedPart s).foldl (fun acc c => acc * 10 + (c.toNat - 48)) 0
  if s.head? = some '-' then -(n : Int) else (n : Int)

/-- A decimal integer that fits in `int`: an optional sign, then one or more
ASCII digits, the number denoted lying between the smallest and the largest
`int`. -/
def isDecimalInt (s : List Char) : Bool :=
  !(unsignedPart s).isEmpty && (unsignedPart s).all isASCIIDigit &&
    decide (minInt ≤ decimalValue s) && decide (decimalValue s ≤ maxInt)

/-! ## Maps as lists: one entry per key -/

mutual
/-- Every children map below the task holds each key once, as a Go map does. -/
def Task.distinctKeys : Task → Bool
  | .mk _ _ _ none => true
  | .mk _ _ _ (some cs) => decide ((mapKeys cs).Nodup) && distinctKeysEntries cs
/-- Every task of the entries satisfies `Task.distinctKeys`. -/
def distinctKeysEntries : List (TaskID × Task) → Bool
  | [] => true
  | (_, t) :: rest => t.distinctKeys && distinctKeysEntries rest
end

/-- The lists of the store are maps: no map of the store, the root map included,
holds a key twice.  Every Go map has this property; the list model states it. -/
def TaskMemoryStorage.DistinctKeys (s : TaskMemoryStorage) : Prop :=
  (mapKeys s.storage).Nodup ∧ distinctKeysEntries s.storage = true

instance (s : TaskMemoryStorage) : Decidable s.DistinctKeys := by
  unfold TaskMemoryStorage.DistinctKeys; exact inferInstance

/-! ## Reference resolution by key

The resolution the specification describes: each element of the path is looked
up as a key, first in the root map and then in the children map of the node
reached so far.  It is written from the specification and compared with
`search`, which scans the children for a matching `ID`. -/

/-- Key lookup of the remaining path below a node. -/
def lookupFrom : Task → List TaskID → Except TaskError Task
  | task, [] => .ok task
  | task, k :: rest =>
    match mapGet k task.Children.entries with
    | none => .error .ErrTaskNotFound
    | some child => lookupFrom child rest

/-- Reference resolution of a path: key lookup at every level. -/
def TaskMemoryStorage.lookupPath (s : TaskMemoryStorage) : List TaskID → Except TaskError Task
  | [] => .error .ErrTaskPathNotValid
  | k :: rest =>
    match mapGet k s.storage with
    | none => .error .ErrTaskNotFound
    | some task => lookupFrom task rest

/-! ## The HTTP handlers (`handler.go`, `http.go`)

A request is reduced to what the handlers read: the method, the URL path and
the outcome of `parseBody` (which rests on `mime` and `encoding/json` and is
taken as given).  A response is the status code, the `Location` header and the
value handed to `ResponseAsJSON`; `json.Marshal` does not fail on the values the
handlers pass, so the branch of `ResponseAsJSON` that answers 500 is not taken.
The service is the interface `TaskService` over a state of its own, so that the
handlers run over the storage service as well as over the mock of the tests. -/

/-- The message of a task error (`task.go`). -/
def TaskError.Error : TaskError → String
  | .ErrTaskNotFound => "Task not found"
  | .ErrTaskPathNotValid => "Task path is not valid"
  | .ErrTaskLabelIsRequired => "Task field Label is required"
  | .ErrTaskLabelIsNotValid => "Task field Label is not valid"
  | .ErrTaskLabelOrCompletedRequired => "Task field Label or Completed is required"

/-- The message of a transport error (`handler.go`, `http.go`). -/
def HTTPError.Error : HTTPError → String
  | .ErrHandlerURLNotValid => "URL parameters are not valid number(s)"
  | .ErrBadMediaType => "Bad media type"

/-- A value of the Go interface `error` as the handlers meet it: one of the
package errors, or any other error (a JSON decoding error, an error of another
service implementation) with its message. -/
inductive GoError where
  | task (e : TaskError)
  | http (e : HTTPError)
  | other (msg : String)
  deriving DecidableEq

/-- Method `Error()` of an error value. -/
def GoError.Error : GoError → String
  | .task e => e.Error
  | .http e => e.Error
  | .other msg => msg

/-- The part of `*http.Request` the handlers read.  `Body` is the outcome of
`parseBody(r, &jsonTask)`: the decoded `JSONTask`, or the error it returns. -/
structure Request where
  Method : String
  URLPath : String
  Body : Except GoError JSONTask

/-- The value handed to `ResponseAsJSON`, or nothing when no body is written. -/
inductive Payload where
  | empty
  | task (t : Task)
  | tasks (ts : List Task)
  | error (msg : String)

/-- What a handler writes: status code, `Location` header and payload. -/
structure Response where
  Status : Nat
  Location : Option String
  Body : Payload

/-- Interface `TaskService` (`service.go`) over a state `σ`. -/
structure TaskService (σ : Type) where
  Create : σ → List TaskID → CreateFields → σ × Task × Option GoError
  Find : σ → List TaskID → σ × Task × Option GoError
  FindAll : σ → σ × List Task × Option GoError
  Update : σ → List TaskID → UpdateFields → σ × Task × Option GoError
  Delete : σ → List TaskID → σ × Task × Option GoError

/-- The storage service as a `TaskService`: the state is the storage. -/
def storageService : TaskService TaskMemoryStorage where
  Create s path fields :=
    let r := TaskStorageService.Create s path fields
    (r.1, r.2.1, r.2.2.map GoError.task)
  Find s path :=
    let r := TaskStorageService.Find s path
    (s, r.1, r.2.map GoError.task)
  FindAll s :=
    let r := TaskStorageService.FindAll s
    (s, r.1, r.2.map GoError.task)
  Update s path fields :=
    let r := TaskStorageService.Update s path fields
    (r.1, r.2.1, r.2.2.map GoError.task)
  Delete s path :=
    let r := TaskStorageService.Delete s path
    (r.1, r.2.1, r.2.2.map GoError.task)

/-- Function `methodNotAllowed` (`http.go`). -/
def methodNotAllowed : Response :=
  ⟨405, none, .error "method not allowed"⟩

/-- Function `options` (`http.go`): only headers are added, no status is
written, so the answer carries the implicit status 200 and no body. -/
def options : Response :=
  ⟨200, none, .empty⟩

/-- Function `ErrorAsJSON` (`http.go`). -/
def ErrorAsJSON (statusCode : Nat) (err : GoError) : Response :=
  ⟨statusCode, none, .error err.Error⟩

/-- Function `ResponseOK` (`http.go`). -/
def ResponseOK (v : Payload) : Response :=
  ⟨200, none, v⟩

/-- Function `ResponseCreated` (`http.go`). -/
def ResponseCreated (url : String) (v : Payload) : Response :=
  ⟨201, some url, v⟩

/-- The `switch err` of the handlers after a failed service call. -/
def serviceError (err : GoError) : Response :=
  if err = .task .ErrTaskNotFound then ErrorAsJSON 404 err else ErrorAsJSON 500 err

/-- The call `fmt.Sprintf("%s/%d", r.URL.Path, newTask.ID)`. -/
def locationURL (path : String) (id : TaskID) : String :=
  path ++ "/" ++ String.mk (decimal id)

/-- Modelled from the spec: `sort.Sort(ByTaskID(tasks))` of the Go standard
library with `Less` of `ByTaskID` (`task.go`), which compares the `ID`s.
`sort.Sort` is not stable; among tasks of equal `ID` the model keeps one of the
orders the library may produce. -/
def sortByTaskID (tasks : List Task) : List Task :=
  tasks.insertionSort (fun a b => a.ID ≤ b.ID)

/-- The order `Less` of `ByTaskID` is total. -/
instance : IsTotal Task (fun a b => a.ID ≤ b.ID) := ⟨fun a b => le_total a.ID b.ID⟩

/-- The order `Less` of `ByTaskID` is transitive. -/
instance : IsTrans Task (fun a b => a.ID ≤ b.ID) := ⟨fun _ _ _ h1 h2 => le_trans h1 h2⟩

namespace TaskHandler

/-- Method `(*TaskHandler).get`. -/
def get {σ : Type} (svc : TaskService σ) (st : σ) (r : Request) : σ × Response :=
  match parseTaskIDPath r.URLPath with
  | .error _ => (st, ErrorAsJSON 400 (.http .ErrHandlerURLNotValid))
  | .ok taskIDPath =>
    match svc.Find st taskIDPath with
    | (st1, _, some err) => (st1, serviceError err)
    | (st1, task, none) => (st1, ResponseOK (.task task))

/-- Method `(*TaskHandler).put`. -/
def put {σ : Type} (svc : TaskService σ) (st : σ) (r : Request) : σ × Response :=
  match parseTaskIDPath r.URLPath with
  | .error _ => (st, ErrorAsJSON 400 (.http .ErrHandlerURLNotValid))
  | .ok taskIDPath =>
    match r.Body with
    | .error err => (st, ErrorAsJSON 400 err)
    | .ok jsonTask =>
      match UpdateValidator.Validate jsonTask with
      | some err => (st, ErrorAsJSON 400 (.task err))
      | none =>
        let updateFields : UpdateFields := ⟨jsonTask.Label, jsonTask.Completed⟩
        match svc.Update st taskIDPath updateFields with
        | (st1, _, some err) => (st1, serviceError err)
        | (st1, updatedTask, none) => (st1, ResponseOK (.task updatedTask))

/-- Method `(*TaskHandler).post`.  `*jsonTask.Label` is read after the
validator has excluded the nil label. -/
def post {σ : Type} (svc : TaskService σ) (st : σ) (r : Request) : σ × Response :=
  match parseTaskIDPath r.URLPath with
  | .error _ => (st, ErrorAsJSON 400 (.http .ErrHandlerURLNotValid))
  | .ok taskIDPath =>
    match r.Body with
    | .error err => (st, ErrorAsJSON 400 err)
    | .ok jsonTask =>
      match CreateValidator.Validate jsonTask with
      | some err => (st, ErrorAsJSON 400 (.task err))
      | none =>
        let createFields : CreateFields := ⟨jsonTask.Label.getD ""⟩
        match svc.Create st taskIDPath createFields with
        | (st1, _, some err) => (st1, serviceError err)
        | (st1, newTask, none) =>
          (st1, ResponseCreated (locationURL r.URLPath newTask.ID) (.task newTask))

/-- Method `(*TaskHandler).remove`. -/
def remove {σ : Type} (svc : TaskService σ) (st : σ) (r : Request) : σ × Response :=
  match parseTaskIDPath r.URLPath with
  | .error _ => (st, ErrorAsJSON 400 (.http .ErrHandlerURLNotValid))
  | .ok taskIDPath =>
    match svc.Delete st taskIDPath with
    | (st1, _, some err) => (st1, serviceError err)
    | (st1, task, none) => (st1, ResponseOK (.task task))

/-- Method `(*TaskHandler).ServeHTTP`. -/
def ServeHTTP {σ : Type} (svc : TaskService σ) (st : σ) (r : Request) : σ × Response :=
  if r.Method = "GET" then get svc st r
  else if r.Method = "POST" then post svc st r
  else if r.Method = "PUT" then put svc st r
  else if r.Method = "DELETE" then remove svc st r
  else if r.Method = "OPTIONS" then (st, options)
  else (st, methodNotAllowed)

end TaskHandler

namespace TasksHandler

/-- Method `(*TasksHandler).get`. -/
def get {σ : Type} (svc : TaskService σ) (st : σ) (_r : Request) : σ × Response :=
  match svc.FindAll st with
  | (st1, _, some err) => (st1, serviceError err)
  | (st1, tasks, none) => (st1, ResponseOK (.tasks (sortByTaskID tasks)))

/-- Method `(*TasksHandler).post`: every error of the service answers 500. -/
def post {σ : Type} (svc : TaskService σ) (st : σ) (r : Request) : σ × Response :=
  match r.Body with
  | .error err => (st, ErrorAsJSON 400 err)
  | .ok jsonTask =>
    match CreateValidator.Validate jsonTask with
    | some err => (st, ErrorAsJSON 400 (.task err))
    | none =>
      let createFields : CreateFields := ⟨jsonTask.Label.getD ""⟩
      match svc.Create st [] createFields with
      | (st1, _, some err) => (st1, ErrorAsJSON 500 err)
      | (st1, newTask, none) =>
        (st1, ResponseCreated (locationURL r.URLPath newTask.ID) (.task newTask))

/-- Method `(*TasksHandler).ServeHTTP`. -/
def ServeHTTP {σ : Type} (svc : TaskService σ) (st : σ) (r : Request) : σ × Response :=
  if r.Method = "GET" then get svc st r
  else if r.Method = "POST" then post svc st r
  else if r.Method = "OPTIONS" then (st, options)
  else (st, methodNotAllowed)

end TasksHandler

/-! ## The conditions of the status mapping -/

/-- The result is an error. -/
def isError {ε α : Type} : Except ε α → Bool
  | .error _ => true
  | .ok _ => false

/-- The body of the request does not parse, or the decoded `JSONTask` is
refused by the validator `validate`. -/
def bodyRefused (validate : JSONTask → Option TaskError) (r : Request) : Bool :=
  match r.Body with
  | .error _ => true
  | .ok j => (validate j).isSome

/-- The request is refused before the service is reached: the URL path does
not parse, or a body that is read (`readsBody`) does not parse or is refused
by the validator. -/
def refused (readsBody : Bool) (validate : JSONTask → Option TaskError) (r : Request) : Bool :=
  isError (parseTaskIDPath r.URLPath) || (readsBody && bodyRefused validate r)

/-- The condition `refused` for a request to the item handler: POST and PUT
read the body, POST with the create validator and PUT with the update
validator. -/
def itemRefused (r : Request) : Bool :=
  if r.Method = "POST" then refused true CreateValidator.Validate r
  else if r.Method = "PUT" then refused true UpdateValidator.Validate r
  else refused false UpdateValidator.Validate r

/-- The error of the one service call an item request leads to, when the
request is not refused: `Find` for GET, `Create` for POST, `Update` for PUT
and `Delete` for DELETE, on the parsed path and the fields of the body. -/
def serviceOutcome {σ : Type} (svc : TaskService σ) (st : σ) (r : Request) : Option GoError :=
  match parseTaskIDPath r.URLPath with
  | .error _ => none
  | .ok path =>
    if r.Method = "GET" then (svc.Find st path).2.2
    else if r.Method = "DELETE" then (svc.Delete st path).2.2
    else
      match r.Body with
      | .error _ => none
      | .ok j =>
        if r.Method = "POST" then (svc.Create st path ⟨j.Label.getD ""⟩).2.2
        else (svc.Update st path ⟨j.Label, j.Completed⟩).2.2

/-! ## The wire format (`task.go`, `encoding/json`) -/

mutual
/-- Modelled from the spec: `json.Marshal` of a `Task`, driven by the struct
tags of `task.go`: `id` as a string of the decimal numeral, `label`,
`completed`, and `sub_tasks` left out when the map has no entry (`omitempty`);
a map with entries is encoded by `SubTasks.MarshalJSON`.  The encoding of a Go
string as a JSON string is the parameter `quote`. -/
def marshalTask (quote : String → String) : Task → String
  | .mk id label completed children =>
    "\x7b\"id\":\"" ++ String.mk (decimal id) ++ "\",\"label\":" ++ quote label ++
      ",\"completed\":" ++ (if completed then "true" else "false") ++
      (match children with
        | none => ""
        | some [] => ""
        | some (e :: es) =>
          ",\"sub_tasks\":[" ++ marshalLoop quote (e :: es) (e :: es).length ++ "]") ++
      "\x7d"
/-- The loop of `SubTasks.MarshalJSON` over the entries still to be written,
with the counter `l` of the source: the text it appends to the buffer. -/
def marshalLoop (quote : String → String) : List (TaskID × Task) → Int → String
  | [], _ => ""
  | (_, task) :: rest, l =>
    marshalTask quote task ++ (if l - 1 > 0 then "," else "") ++ marshalLoop quote rest (l - 1)
end

/-- Method `SubTasks.MarshalJSON` on the entries of the map (none for nil). -/
def SubTasks.MarshalJSON (quote : String → String) (sb : SubTasks) : String :=
  "[" ++ marshalLoop quote sb.entries sb.entries.length ++ "]"

/-- The JSON string of a text that needs no escaping. -/
def plainQuote (s : String) : String :=
  "\"" ++ s ++ "\""

/-! ## The same store in another iteration order -/

mutual
/-- The two tasks are the same when their children, at every depth, are
compared as maps: the same keys, and under each key the same task in this
sense, whatever the order of the entries. -/
def Task.sameMaps : Task → Task → Bool
  | .mk i l c none, t =>
    decide (t.ID = i) && decide (t.Label = l) && decide (t.Completed = c) && t.Children.isNone
  | .mk i l c (some cs), t =>
    decide (t.ID = i) && decide (t.Label = l) && decide (t.Completed = c) &&
      match t.Children with
      | none => false
      | some cs' => (mapKeys cs).isPerm (mapKeys cs') && entriesSameMaps cs cs'
/-- Every entry of the first list has, under its key in the second list, the
same task in the sense of `Task.sameMaps`. -/
def entriesSameMaps : List (TaskID × Task) → List (TaskID × Task) → Bool
  | [], _ => true
  | (k, t) :: rest, cs' =>
    (match mapGet k cs' with
      | none => false
      | some t' => t.sameMaps t') && entriesSameMaps rest cs'
end

/-- The two stores are the same maps, at every depth, in two iteration orders. -/
def TaskMemoryStorage.sameMaps (s s' : TaskMemoryStorage) : Bool :=
  (mapKeys s.storage).isPerm (mapKeys s'.storage) && entriesSameMaps s.storage s'.storage

/-- The two results of a resolution agree: the same error, or the same node up
to the iteration order of its descendants. -/
def sameResult : Except TaskError Task → Except TaskError Task → Bool
  | .ok t, .ok t' => t.sameMaps t'
  | .error e, .error e' => decide (e = e')
  | _, _ => false

/-! ## The storage with its references (`storage.go`, `service.go`)

The tree model above holds tasks by value and cannot tell a copy from a
reference.  For the statements about sharing, the methods are translated once
more over an explicit memory: a `*Task` is the address of a task object, a
`map[TaskID]*Task` is the address of a map object (nil is `none`), and a `Task`
value is a record whose field `Children` holds such an address. -/

namespace Heap

/-- An address of a task object or of a map object. -/
abbrev Addr := Nat

/-- Go `struct Task` as a value: `Children` is a map, that is a reference. -/
structure Task where
  ID : TaskID
  Label : String
  Completed : Bool
  Children : Option Addr
  deriving DecidableEq

/-- The zero value `Task{}`. -/
def Task.zero : Task := ⟨0, "", false, none⟩

/-- The memory: the task objects, the map objects with their entries in
iteration order, and the next address to hand out. -/
structure Memory where
  tasks : List (Addr × Task)
  maps : List (Addr × List (TaskID × Addr))
  next : Addr
  deriving DecidableEq

/-- Map read `m[k]` on the entries of a map object. -/
def entryGet (k : TaskID) : List (TaskID × Addr) → Option Addr
  | [] => none
  | (k', p) :: r => if k' = k then some p else entryGet k r

/-- Map removal `delete(m, k)` on the entries of a map object. -/
def entryErase (k : TaskID) : List (TaskID × Addr) → List (TaskID × Addr)
  | [] => []
  | (k', p) :: r => if k' = k then entryErase k r else (k', p) :: entryErase k r

/-- Map write `m[k] = p` on the entries of a map object. -/
def entrySet (k : TaskID) (p : Addr) : List (TaskID × Addr) → List (TaskID × Addr)
  | [] => [(k, p)]
  | (k', q) :: r => if k' = k then (k, p) :: entryErase k r else (k', q) :: entrySet k p r

namespace Memory

/-- The dereference `*p` of a `*Task`. -/
def task (m : Memory) (p : Addr) : Task :=
  (m.tasks.lookup p).getD Task.zero

/-- The entries of a map, none for the nil map. -/
def entries (m : Memory) : Option Addr → List (TaskID × Addr)
  | none => []
  | some a => (m.maps.lookup a).getD []

/-- The write `*p = t` to a task object. -/
def setTask (m : Memory) (p : Addr) (t : Task) : Memory :=
  { m with tasks := m.tasks.map (fun e => if e.1 = p then (p, t) else e) }

/-- The replacement of the entries of the map object at `a`. -/
def setEntries (m : Memory) (a : Addr) (es : List (TaskID × Addr)) : Memory :=
  { m with maps := m.maps.map (fun e => if e.1 = a then (a, es) else e) }

/-- The allocation `&Task{...}` of a task object. -/
def newTask (m : Memory) (t : Task) : Memory × Addr :=
  ({ m with tasks := (m.next, t) :: m.tasks, next := m.next + 1 }, m.next)

/-- The allocation `map[TaskID]*Task{}` of an empty map object. -/
def newMap (m : Memory) : Memory × Addr :=
  ({ m with maps := (m.next, []) :: m.maps, next := m.next + 1 }, m.next)

/-- The pointers held in the map objects. -/
def pointers (m : Memory) : List Addr :=
  m.maps.flatMap (fun e => e.2.map Prod.snd)

/-- Every pointer held in a map object is an address handed out before. -/
def Valid (m : Memory) : Prop :=
  ∀ q ∈ m.pointers, q < m.next

instance (m : Memory) : Decidable m.Valid := by
  unfold Valid; exact inferInstance

/-- The statement `children[k] = p` on a map; a write to the nil map panics
in Go and changes nothing here. -/
def assign (m : Memory) (children : Option Addr) (k : TaskID) (p : Addr) : Memory :=
  match children with
  | none => m
  | some a => m.setEntries a (entrySet k p (m.entries (some a)))

/-- The statement `delete(children, k)` on a map; a no-op on the nil map. -/
def remove (m : Memory) (children : Option Addr) (k : TaskID) : Memory :=
  match children with
  | none => m
  | some a => m.setEntries a (entryErase k (m.entries (some a)))

end Memory

/-- Go `struct TaskMemoryStorage` with its memory: `storage` is the address of
the root map. -/
structure TaskMemoryStorage where
  mem : Memory
  storage : Addr
  lastTaskID : TaskID
  deriving DecidableEq

/-- Function `NewTaskMemoryStorage`. -/
def NewTaskMemoryStorage : TaskMemoryStorage :=
  ⟨⟨[], [(0, [])], 1⟩, 0, 0⟩

/-- The inner loop of `search` over the children of the current task. -/
def scanChildren (m : Memory) (id : TaskID) : List (TaskID × Addr) → Option Addr → Option Addr
  | [], acc => acc
  | (_, c) :: r, acc =>
    if (m.task c).ID = id then scanChildren m id r (some c) else scanChildren m id r acc

/-- The outer loop of `search`. -/
def searchFrom (m : Memory) : Addr → List TaskID → Except TaskError Addr
  | task, [] => .ok task
  | task, id :: rest =>
    match scanChildren m id (m.entries (m.task task).Children) none with
    | none => .error .ErrTaskNotFound
    | some c => searchFrom m c rest

/-- The statements `if p.Children == nil { p.Children = map[TaskID]*Task{} }`
and `p.Children[task.ID] = task`. -/
def addChild (m : Memory) (p task : Addr) : Memory :=
  match (m.task p).Children with
  | some a => m.assign (some a) (m.task task).ID task
  | none =>
    let m1 := m.newMap
    (m1.1.setTask p { m.task p with Children := some m1.2 }).assign (some m1.2)
      (m.task task).ID task

namespace TaskMemoryStorage

/-- Method `TaskMemoryStorage.search`: the pointer to the task at the path. -/
def search (s : TaskMemoryStorage) : List TaskID → Except TaskError Addr
  | [] => .error .ErrTaskPathNotValid
  | a :: rest =>
    match entryGet a (s.mem.entries (some s.storage)) with
    | none => .error .ErrTaskNotFound
    | some task => searchFrom s.mem task rest

/-- Method `TaskMemoryStorage.Insert`. -/
def Insert (s : TaskMemoryStorage) (path : List TaskID) (task : Addr) :
    TaskMemoryStorage × Option TaskError :=
  match path with
  | [] => ({ s with mem := s.mem.assign (some s.storage) (s.mem.task task).ID task }, none)
  | a :: rest =>
    match s.search (a :: rest) with
    | .error err => (s, some err)
    | .ok lastPathTask => ({ s with mem := addChild s.mem lastPathTask task }, none)

/-- Method `TaskMemoryStorage.Find`: the value `*lastPathTask`. -/
def Find (s : TaskMemoryStorage) (path : List TaskID) : Task × Option TaskError :=
  match path with
  | [] => (Task.zero, some .ErrTaskPathNotValid)
  | a :: rest =>
    match s.search (a :: rest) with
    | .error err => (Task.zero, some err)
    | .ok lastPathTask => (s.mem.task lastPathTask, none)

/-- Method `TaskMemoryStorage.FindAll`: the values `*task` of the roots. -/
def FindAll (s : TaskMemoryStorage) : List Task × Option TaskError :=
  ((s.mem.entries (some s.storage)).map (fun e => s.mem.task e.2), none)

/-- Method `TaskMemoryStorage.Update`. -/
def Update (s : TaskMemoryStorage) (path : List TaskID) (task : Addr) :
    TaskMemoryStorage × Option TaskError :=
  match path with
  | [] => (s, some .ErrTaskPathNotValid)
  | [_] =>
    match entryGet (s.mem.task task).ID (s.mem.entries (some s.storage)) with
    | none => (s, some .ErrTaskNotFound)
    | some _ =>
      ({ s with mem := s.mem.assign (some s.storage) (s.mem.task task).ID task }, none)
  | a :: b :: rest =>
    match s.search (a :: b :: rest).dropLast with
    | .error err => (s, some err)
    | .ok lastPathTask => ({ s with mem := addChild s.mem lastPathTask task }, none)

/-- Method `TaskMemoryStorage.Delete`. -/
def Delete (s : TaskMemoryStorage) (path : List TaskID) :
    TaskMemoryStorage × Option TaskError :=
  match path with
  | [] => (s, some .ErrTaskPathNotValid)
  | [a] =>
    match entryGet a (s.mem.entries (some s.storage)) with
    | none => (s, some .ErrTaskNotFound)
    | some _ => ({ s with mem := s.mem.remove (some s.storage) a }, none)
  | a :: b :: rest =>
    let taskID := (b :: rest).getLast (List.cons_ne_nil b rest)
    match s.search (a :: b :: rest).dropLast with
    | .error err => (s, some err)
    | .ok lastPathTask =>
      ({ s with mem := s.mem.remove (s.mem.task lastPathTask).Children taskID }, none)

/-- Method `TaskMemoryStorage.NextTaskID`. -/
def NextTaskID (s : TaskMemoryStorage) : TaskMemoryStorage × TaskID :=
  let next := wrapInt (s.lastTaskID + 1)
  ({ s with lastTaskID := next }, next)

end TaskMemoryStorage

namespace TaskStorageService

/-- Method `TaskStorageService.Create`: `newTask` is the address of the new
task object, and the returned value is `*newTask`. -/
def Create (s : TaskMemoryStorage) (path : List TaskID) (fields : CreateFields) :
    TaskMemoryStorage × Task × Option TaskError :=
  let s1 := s.NextTaskID
  let m1 := s1.1.mem.newMap
  let m2 := m1.1.newTask ⟨s1.2, fields.Label, false, some m1.2⟩
  match TaskMemoryStorage.Insert { s1.1 with mem := m2.1 } path m2.2 with
  | (s2, some err) => (s2, Task.zero, some err)
  | (s2, none) => (s2, s2.mem.task m2.2, none)

/-- Method `TaskStorageService.Find`. -/
def Find (s : TaskMemoryStorage) (path : List TaskID) : Task × Option TaskError :=
  s.Find path

/-- Method `TaskStorageService.FindAll`. -/
def FindAll (s : TaskMemoryStorage) : List Task × Option TaskError :=
  s.FindAll

/-- The two conditional field assignments of `TaskStorageService.Update`. -/
def mergeFields (oldVersionTask : Task) (fields : UpdateFields) : Task :=
  let t1 := match fields.Label with
    | some l => { oldVersionTask with Label := l }
    | none => oldVersionTask
  match fields.Completed with
  | some c => { t1 with Completed := c }
  | none => t1

/-- Method `TaskStorageService.Update`: the variable `newVersionTask`, whose
address is handed to the storage, is a task object of the memory. -/
def Update (s : TaskMemoryStorage) (path : List TaskID) (fields : UpdateFields) :
    TaskMemoryStorage × Task × Option TaskError :=
  match s.Find path with
  | (_, some err) => (s, Task.zero, some err)
  | (oldVersionTask, none) =>
    let m1 := s.mem.newTask (mergeFields oldVersionTask fields)
    match TaskMemoryStorage.Update { s with mem := m1.1 } path m1.2 with
    | (s1, some err) => (s1, oldVersionTask, some err)
    | (s1, none) => (s1, s1.mem.task m1.2, none)

/-- Method `TaskStorageService.Delete`. -/
def Delete (s : TaskMemoryStorage) (path : List TaskID) :
    TaskMemoryStorage × Task × Option TaskError :=
  match s.Find path with
  | (_, some err) => (s, Task.zero, some err)
  | (task, none) =>
    match s.Delete path with
    | (s1, some err) => (s1, Task.zero, some err)
    | (s1, none) => (s1, task, none)

end TaskStorageService

end Heap

namespace Heap

namespace Memory

/-- The addresses of the task objects. -/
def taskAddrs (m : Memory) : List Addr := m.tasks.map Prod.fst

/-- The addresses of the map objects. -/
def mapAddrs (m : Memory) : List Addr := m.maps.map Prod.fst

/-- The memory is well formed: every pointer held in a map is the address of
a task object, the children of every task object are a map object of the
memory, and every address in use was handed out before. -/
def WellFormed (m : Memory) : Prop :=
  (∀ q ∈ m.pointers, q ∈ m.taskAddrs) ∧
    (∀ e ∈ m.tasks, ∀ a ∈ e.2.Children, a ∈ m.mapAddrs) ∧
    (∀ a ∈ m.taskAddrs, a < m.next) ∧ (∀ a ∈ m.mapAddrs, a < m.next)

instance (m : Memory) : Decidable m.WellFormed := by
  unfold WellFormed; exact inferInstance

/-- Every task of a map object is stored under a key equal to its `ID`. -/
def Keyed (m : Memory) : Prop :=
  ∀ e ∈ m.maps, ∀ x ∈ e.2, (m.task x.2).ID = x.1

instance (m : Memory) : Decidable m.Keyed := by
  unfold Keyed; exact inferInstance

end Memory

/-- The map objects whose entries `searchFrom` reads along the path. -/
def mapsReadFrom (m : Memory) : Addr → List TaskID → List Addr
  | _, [] => []
  | task, id :: rest =>
    (m.task task).Children.toList ++
      match scanChildren m id (m.entries (m.task task).Children) none with
      | none => []
      | some c => mapsReadFrom m c rest

namespace TaskMemoryStorage

/-- The map objects whose entries `search` reads along the path. -/
def mapsRead (s : TaskMemoryStorage) : List TaskID → List Addr
  | [] => []
  | a :: rest =>
    s.storage ::
      match entryGet a (s.mem.entries (some s.storage)) with
      | none => []
      | some task => mapsReadFrom s.mem task rest

/-- The storage is well formed: its memory is, and the root map is a map
object of the memory. -/
def WellFormed (s : TaskMemoryStorage) : Prop :=
  s.mem.WellFormed ∧ s.storage ∈ s.mem.mapAddrs

instance (s : TaskMemoryStorage) : Decidable s.WellFormed := by
  unfold WellFormed; exact inferInstance

end TaskMemoryStorage

end Heap

/-! ## Stores of the test suite -/

namespace Fixture

/-- Task `t1` of `storage_test.go`. -/
def t1 : Task := .mk 1 "foo" true none

/-- Task `t2` of `storage_test.go`. -/
def t2 : Task := .mk 2 "bar" false none

/-- Task `t3` of `storage_test.go`: `t2` is its only child. -/
def t3 : Task := .mk 3 "baz" true (some [(2, t2)])

/-- The store `{3: t3}` of the tests. -/
def store3 : TaskMemoryStorage := ⟨[(3, t3)], 0⟩

/-- The store `{1: t1}` of the tests. -/
def store1 : TaskMemoryStorage := ⟨[(1, t1)], 0⟩

/-- The store `{2: t2}` of the tests. -/
def store2 : TaskMemoryStorage := ⟨[(2, t2)], 0⟩

/-- A store whose counter stands at the largest `int`. -/
def storeFull : TaskMemoryStorage := ⟨[], 9223372036854775807⟩

/-- One successful `Create` at the root followed by `2^63 - 1` `Create` calls
under the missing root 0. -/
def callsWrap : List ServiceCall :=
  .create [] ⟨"foo"⟩ :: List.replicate (2 ^ 63 - 1) (.create [0] ⟨"foo"⟩)

/-- One successful `Create` at the root, `2^64 - 1` `Create` calls under the
missing root 0, and a `Create` under the root 1. -/
def callsRepeat : List ServiceCall :=
  .create [] ⟨"foo"⟩ ::
    (List.replicate (2 ^ 64 - 1) (.create [0] ⟨"foo"⟩) ++ [.create [1] ⟨"baz"⟩])

/-- A label of 51 characters in 102 bytes. -/
def label51 : String := String.mk (List.replicate 51 'é')

/-- A label of 34 characters in 102 bytes. -/
def label34 : String := String.mk (List.replicate 34 '日')

/-- A root task with the children `t1` and `t2`, visited in this order. -/
def t4 : Task := .mk 4 "qux" false (some [(1, t1), (2, t2)])

/-- The task `t4` with its children visited in the other order. -/
def t4r : Task := .mk 4 "qux" false (some [(2, t2), (1, t1)])

/-- The store `{3: t3, 4: t4}`. -/
def store34 : TaskMemoryStorage := ⟨[(3, t3), (4, t4)], 4⟩

/-- The store `store34` in another iteration order, at the root and below. -/
def store34r : TaskMemoryStorage := ⟨[(4, t4r), (3, t3)], 4⟩

/-- The storage with references after `Create([], {Label: "foo"})` on a new
storage: the root task 1 with an empty children map. -/
def shared1 : Heap.TaskMemoryStorage :=
  (Heap.TaskStorageService.Create Heap.NewTaskMemoryStorage [] ⟨"foo"⟩).1

/-- The task a caller makes to put it into a map. -/
def callerTask : Heap.Task := ⟨9, "mine", false, none⟩

/-- The value `Find([1])` returns on `shared1`. -/
def returned : Heap.Task := (shared1.Find [1]).1

/-- The storage `shared1` after a caller has run `t.Children[9] = &callerTask`
on the returned value `t`. -/
def touched : Heap.TaskMemoryStorage :=
  { shared1 with
    mem := (shared1.mem.newTask callerTask).1.assign returned.Children 9
      (shared1.mem.newTask callerTask).2 }

/-- The storage `shared1` after the caller has made its own task object. -/
def allocated : Heap.TaskMemoryStorage :=
  { shared1 with mem := (shared1.mem.newTask callerTask).1 }

end Fixture

end Tasks

namespace Tasks

/-! ## Map lemmas -/

theorem mapGet_mapErase_self (k : TaskID) (m : List (TaskID × Task)) :
    mapGet k (mapErase k m) = none := by
  induction m with
  | nil => rfl
  | cons e r ih =>
    obtain ⟨k', t⟩ := e
    by_cases h : k' = k <;> simp [mapErase, mapGet, h, ih]

theorem mapGet_mapErase_ne {k x : TaskID} (h : k ≠ x) (m : List (TaskID × Task)) :
    mapGet k (mapErase x m) = mapGet k m := by
  induction m with
  | nil => rfl
  | cons e r ih =>
    obtain ⟨k', t⟩ := e
    by_cases h1 : k' = x
    · have h2 : ¬ x = k := fun h2 => h h2.symm
      subst h1
      simp [mapErase, mapGet, h2, ih]
    · by_cases h2 : k' = k
      · subst h2; simp [mapErase, mapGet, h1]
      · simp [mapErase, mapGet, h1, h2, ih]

theorem mapErase_of_mapGet_none {k : TaskID} {m : List (TaskID × Task)}
    (h : mapGet k m = none) : mapErase k m = m := by
  induction m with
  | nil => rfl
  | cons e r ih =>
    obtain ⟨k', t⟩ := e
    by_cases h1 : k' = k
    · simp [mapGet, h1] at h
    · simp [mapGet, h1] at h
      simp [mapErase, h1, ih h]

theorem mapGet_mapSet_self (k : TaskID) (v : Task) (m : List (TaskID × Task)) :
    mapGet k (mapSet k v m) = some v := by
  induction m with
  | nil => simp [mapSet, mapGet]
  | cons e r ih =>
    obtain ⟨k', t⟩ := e
    by_cases h : k' = k <;> simp [mapSet, mapGet, h, ih]

theorem mapGet_mapSet_ne {k x : TaskID} (h : k ≠ x) (v : Task) (m : List (TaskID × Task)) :
    mapGet k (mapSet x v m) = mapGet k m := by
  induction m with
  | nil => simp [mapSet, mapGet]; intro h1; exact absurd h1.symm h
  | cons e r ih =>
    obtain ⟨k', t⟩ := e
    by_cases h1 : k' = x
    · have h2 : ¬ x = k := fun h2 => h h2.symm
      subst h1
      simp [mapSet, mapGet, h2, mapGet_mapErase_ne h]
    · by_cases h2 : k' = k
      · subst h2; simp [mapSet, mapGet, h1]
      · simp [mapSet, mapGet, h1, h2, ih]

theorem mapGet_mapModify (k x : TaskID) (g : Task → Task) (m : List (TaskID × Task)) :
    mapGet k (mapModify x g m) = if k = x then (mapGet k m).map g else mapGet k m := by
  induction m with
  | nil => simp [mapModify, mapGet]
  | cons e r ih =>
    obtain ⟨k', t⟩ := e
    by_cases h1 : k' = x
    · subst h1
      by_cases h2 : k' = k
      · subst h2; simp [mapModify, mapGet]
      · have h3 : ¬ k = k' := fun h3 => h2 h3.symm
        simp [mapModify, mapGet, h2, h3]
    · by_cases h2 : k' = k
      · subst h2; simp [mapModify, mapGet, h1]
      · simp [mapModify, mapGet, h1, h2, ih]

theorem mapModify_id_of_fix (k : TaskID) (g : Task → Task) (m : List (TaskID × Task))
    (h : ∀ t, mapGet k m = some t → g t = t) : mapModify k g m = m := by
  induction m with
  | nil => rfl
  | cons e r ih =>
    obtain ⟨k', t⟩ := e
    by_cases h1 : k' = k
    · simp [mapModify, h1]
      exact h t (by simp [mapGet, h1])
    · simp [mapModify, h1]
      exact ih (fun t ht => h t (by simpa [mapGet, h1] using ht))

end Tasks

namespace Tasks

/-! ## The inner loop of `search` -/

theorem Task.setChildren_ID (t : Task) (cs : SubTasks) : (t.setChildren cs).ID = t.ID := by
  cases t; rfl

theorem Task.setChildren_Children (t : Task) (cs : SubTasks) :
    (t.setChildren cs).Children = cs := by
  cases t; rfl

theorem Task.setChildren_self (t : Task) : t.setChildren t.Children = t := by
  cases t; rfl

theorem scanChildren_acc (id : TaskID) (cs : List (TaskID × Task)) (acc : Option Task) :
    scanChildren id cs acc =
      match scanChildren id cs none with
      | some c => some c
      | none => acc := by
  induction cs generalizing acc with
  | nil => rfl
  | cons e r ih =>
    obtain ⟨k, c⟩ := e
    by_cases h : c.ID = id
    · simp only [scanChildren, h, if_true]
      rw [ih (some c)]
      cases scanChildren id r none <;> rfl
    · simp only [scanChildren, h, if_false]
      exact ih acc

theorem scanChildren_cons (id k : TaskID) (c : Task) (r : List (TaskID × Task)) :
    scanChildren id ((k, c) :: r) none =
      match scanChildren id r none with
      | some d => some d
      | none => if c.ID = id then some c else none := by
  by_cases h : c.ID = id
  · simp only [scanChildren, h, if_true]
    rw [scanChildren_acc]
  · simp only [scanChildren, h, if_false]
    cases scanChildren id r none <;> rfl

theorem scanChildren_eq_none {id : TaskID} {cs : List (TaskID × Task)} :
    scanChildren id cs none = none ↔ ∀ e ∈ cs, e.2.ID ≠ id := by
  induction cs with
  | nil => simp [scanChildren]
  | cons e r ih =>
    obtain ⟨k, c⟩ := e
    rw [scanChildren_cons]
    cases hs : scanChildren id r none with
    | some d =>
      rw [hs] at ih
      simp only [false_iff, reduceCtorEq] at ih ⊢
      intro hall
      exact ih (fun e he => hall e (List.mem_cons_of_mem _ he))
    | none =>
      rw [hs] at ih
      have ih' := ih.mp rfl
      by_cases h : c.ID = id
      · simp [h]
      · simp only [h, if_false, true_iff]
        intro e he
        rcases List.mem_cons.mp he with rfl | he
        · exact h
        · exact ih' e he

theorem scanChildren_some {id : TaskID} {cs : List (TaskID × Task)} {c : Task}
    (h : scanChildren id cs none = some c) : c.ID = id ∧ ∃ k, (k, c) ∈ cs := by
  induction cs with
  | nil => simp [scanChildren] at h
  | cons e r ih =>
    obtain ⟨k, d⟩ := e
    rw [scanChildren_cons] at h
    cases hs : scanChildren id r none with
    | some d' =>
      rw [hs] at h ih
      simp only [Option.some.injEq] at h
      subst h
      obtain ⟨h1, k', h2⟩ := ih rfl
      exact ⟨h1, k', List.mem_cons_of_mem _ h2⟩
    | none =>
      rw [hs] at h
      by_cases hd : d.ID = id
      · simp only [hd, if_true, Option.some.injEq] at h
        subst h
        exact ⟨hd, k, List.mem_cons_self _ _⟩
      · simp [hd] at h

theorem scanChildren_modifyScanned (id : TaskID) (g : Task → Task)
    (hg : ∀ c, (g c).ID = c.ID) (cs : List (TaskID × Task)) :
    scanChildren id (modifyScanned id g cs) none = (scanChildren id cs none).map g := by
  induction cs with
  | nil => rfl
  | cons e r ih =>
    obtain ⟨k, c⟩ := e
    cases hs : scanChildren id r none with
    | some d =>
      simp only [modifyScanned, hs, Option.isSome_some, if_true]
      rw [scanChildren_cons, scanChildren_cons, ih, hs]
      rfl
    | none =>
      simp only [modifyScanned, hs, Option.isSome_none, Bool.false_eq_true, if_false]
      by_cases hc : c.ID = id
      · simp only [hc, if_true]
        rw [scanChildren_cons, scanChildren_cons, hs]
        simp [hg, hc]
      · simp only [hc, if_false]
        rw [scanChildren_cons, hs]
        simp [hc]

theorem modifyScanned_of_fix (id : TaskID) (g : Task → Task) (cs : List (TaskID × Task))
    (h : ∀ c, scanChildren id cs none = some c → g c = c) : modifyScanned id g cs = cs := by
  induction cs with
  | nil => rfl
  | cons e r ih =>
    obtain ⟨k, c⟩ := e
    cases hs : scanChildren id r none with
    | some d =>
      simp only [modifyScanned, hs, Option.isSome_some, if_true]
      rw [ih]
      intro c' hc'
      apply h
      rw [scanChildren_cons, hs]
      rw [hs] at hc'
      exact hc'
    | none =>
      simp only [modifyScanned, hs, Option.isSome_none, Bool.false_eq_true, if_false]
      by_cases hc : c.ID = id
      · simp only [hc, if_true]
        rw [h c]
        rw [scanChildren_cons, hs]; simp [hc]
      · simp only [hc, if_false]

/-! ## Resolution and mutation along a path -/

theorem modifyFrom_ID (g : Task → Task) (hg : ∀ c, (g c).ID = c.ID) (path : List TaskID)
    (t : Task) : (modifyFrom g path t).ID = t.ID := by
  cases path with
  | nil => exact hg t
  | cons id rest =>
    simp only [modifyFrom]
    cases ht : t.Children with
    | none => rfl
    | some cs => exact Task.setChildren_ID _ _

theorem searchFrom_modifyFrom (g : Task → Task) (hg : ∀ c, (g c).ID = c.ID)
    (path : List TaskID) (t p : Task) (h : searchFrom t path = .ok p) :
    searchFrom (modifyFrom g path t) path = .ok (g p) := by
  induction path generalizing t with
  | nil =>
    simp only [searchFrom, Except.ok.injEq] at h
    subst h; rfl
  | cons id rest ih =>
    simp only [searchFrom] at h
    cases hs : scanChildren id t.Children.entries none with
    | none => rw [hs] at h; cases h
    | some c =>
      rw [hs] at h
      simp only at h
      cases hc : t.Children with
      | none => rw [hc] at hs; simp [SubTasks.entries, scanChildren] at hs
      | some cs =>
        rw [hc] at hs
        simp only [SubTasks.entries] at hs
        simp only [modifyFrom, hc, searchFrom, Task.setChildren_Children, SubTasks.entries]
        rw [scanChildren_modifyScanned id _ (modifyFrom_ID g hg rest), hs]
        exact ih c h

theorem modifyFrom_of_fix (g : Task → Task) (path : List TaskID) (t : Task)
    (h : ∀ p, searchFrom t path = .ok p → g p = p) : modifyFrom g path t = t := by
  induction path generalizing t with
  | nil => exact h t rfl
  | cons id rest ih =>
    simp only [modifyFrom]
    cases hc : t.Children with
    | none => rfl
    | some cs =>
      simp only
      rw [modifyScanned_of_fix]
      · rw [← hc]; exact Task.setChildren_self t
      · intro c hcs
        apply ih
        intro p hp
        apply h
        simp only [searchFrom, hc, SubTasks.entries, hcs]
        exact hp

theorem searchFrom_append (t : Task) (p q : List TaskID) :
    searchFrom t (p ++ q) =
      match searchFrom t p with
      | .ok x => searchFrom x q
      | .error e => .error e := by
  induction p generalizing t with
  | nil => rfl
  | cons id rest ih =>
    simp only [List.cons_append, searchFrom]
    cases scanChildren id t.Children.entries none with
    | none => rfl
    | some c => exact ih c

theorem search_append (s : TaskMemoryStorage) (a : TaskID) (p q : List TaskID) :
    s.search (a :: p ++ q) =
      match s.search (a :: p) with
      | .ok x => searchFrom x q
      | .error e => .error e := by
  simp only [List.cons_append, TaskMemoryStorage.search]
  cases mapGet a s.storage with
  | none => rfl
  | some t => exact searchFrom_append t p q

theorem search_modifyAt (g : Task → Task) (hg : ∀ c, (g c).ID = c.ID)
    (s : TaskMemoryStorage) (path : List TaskID) (p : Task) (h : s.search path = .ok p) :
    TaskMemoryStorage.search { s with storage := modifyAt g path s.storage } path = .ok (g p) := by
  cases path with
  | nil => simp [TaskMemoryStorage.search] at h
  | cons a rest =>
    simp only [TaskMemoryStorage.search] at h ⊢
    cases hm : mapGet a s.storage with
    | none => rw [hm] at h; cases h
    | some t =>
      rw [hm] at h
      simp only [modifyAt, mapGet_mapModify, hm, if_true, Option.map_some']
      exact searchFrom_modifyFrom g hg rest t p h

theorem modifyAt_of_fix (g : Task → Task) (s : TaskMemoryStorage) (path : List TaskID)
    (h : ∀ p, s.search path = .ok p → g p = p) : modifyAt g path s.storage = s.storage := by
  cases path with
  | nil => rfl
  | cons a rest =>
    simp only [modifyAt]
    apply mapModify_id_of_fix
    intro t ht
    apply modifyFrom_of_fix
    intro p hp
    apply h
    simp only [TaskMemoryStorage.search, ht]
    exact hp

theorem search_error (s : TaskMemoryStorage) (path : List TaskID) (e : TaskError)
    (h : s.search path = .error e) :
    (path = [] ∧ e = .ErrTaskPathNotValid) ∨ (path ≠ [] ∧ e = .ErrTaskNotFound) := by
  cases path with
  | nil => simp only [TaskMemoryStorage.search, Except.error.injEq] at h; exact Or.inl ⟨rfl, h.symm⟩
  | cons a rest =>
    right
    refine ⟨List.cons_ne_nil _ _, ?_⟩
    simp only [TaskMemoryStorage.search] at h
    cases hm : mapGet a s.storage with
    | none => rw [hm] at h; simp only [Except.error.injEq] at h; exact h.symm
    | some t =>
      rw [hm] at h
      simp only at h
      clear hm
      induction rest generalizing t with
      | nil => simp [searchFrom] at h
      | cons id r ih =>
        simp only [searchFrom] at h
        cases hs : scanChildren id t.Children.entries none with
        | none => rw [hs] at h; simp only [Except.error.injEq] at h; exact h.symm
        | some c => rw [hs] at h; exact ih c h

end Tasks

namespace Tasks

/-! ## The key-equals-identifier condition -/

theorem keyedEntries_cons (k : TaskID) (t : Task) (r : List (TaskID × Task)) :
    keyedEntries ((k, t) :: r) = true ↔ t.ID = k ∧ t.keyed = true ∧ keyedEntries r = true := by
  simp [keyedEntries, and_assoc]

theorem Task.keyed_iff (t : Task) : t.keyed = true ↔ keyedEntries t.Children.entries = true := by
  obtain ⟨i, l, c, cs⟩ := t
  cases cs with
  | none => simp [Task.keyed, Task.Children, SubTasks.entries, keyedEntries]
  | some cs => simp [Task.keyed, Task.Children, SubTasks.entries]

theorem keyedEntries_mem {cs : List (TaskID × Task)} (h : keyedEntries cs = true)
    {k : TaskID} {t : Task} (hm : (k, t) ∈ cs) : t.ID = k ∧ t.keyed = true := by
  induction cs with
  | nil => cases hm
  | cons e r ih =>
    obtain ⟨k', t'⟩ := e
    rw [keyedEntries_cons] at h
    rcases List.mem_cons.mp hm with heq | hm
    · cases heq; exact ⟨h.1, h.2.1⟩
    · exact ih h.2.2 hm

theorem mapGet_mem {k : TaskID} {m : List (TaskID × Task)} {t : Task}
    (h : mapGet k m = some t) : (k, t) ∈ m := by
  induction m with
  | nil => cases h
  | cons e r ih =>
    obtain ⟨k', t'⟩ := e
    by_cases h1 : k' = k
    · simp only [mapGet, h1, if_true, Option.some.injEq] at h
      subst h; subst h1; exact List.mem_cons_self _ _
    · simp only [mapGet, h1, if_false] at h
      exact List.mem_cons_of_mem _ (ih h)

theorem searchFrom_keyed {t p : Task} {path : List TaskID} (ht : t.keyed = true)
    (h : searchFrom t path = .ok p) : p.keyed = true := by
  induction path generalizing t with
  | nil => simp only [searchFrom, Except.ok.injEq] at h; subst h; exact ht
  | cons id rest ih =>
    simp only [searchFrom] at h
    cases hs : scanChildren id t.Children.entries none with
    | none => rw [hs] at h; cases h
    | some c =>
      rw [hs] at h
      obtain ⟨_, k, hk⟩ := scanChildren_some hs
      exact ih (keyedEntries_mem ((Task.keyed_iff t).mp ht) hk).2 h

theorem search_keyed {s : TaskMemoryStorage} (hs : s.KeyedByID) {path : List TaskID} {p : Task}
    (h : s.search path = .ok p) : p.keyed = true := by
  cases path with
  | nil => cases h
  | cons a rest =>
    simp only [TaskMemoryStorage.search] at h
    cases hm : mapGet a s.storage with
    | none => rw [hm] at h; cases h
    | some t =>
      rw [hm] at h
      exact searchFrom_keyed (keyedEntries_mem hs (mapGet_mem hm)).2 h

theorem mem_mapErase {k : TaskID} {m : List (TaskID × Task)} {e : TaskID × Task}
    (h : e ∈ mapErase k m) : e ∈ m ∧ e.1 ≠ k := by
  induction m with
  | nil => cases h
  | cons e' r ih =>
    obtain ⟨k', t'⟩ := e'
    by_cases h1 : k' = k
    · simp only [mapErase, h1, if_true] at h
      exact ⟨List.mem_cons_of_mem _ (ih h).1, (ih h).2⟩
    · simp only [mapErase, h1, if_false] at h
      rcases List.mem_cons.mp h with rfl | h
      · exact ⟨List.mem_cons_self _ _, h1⟩
      · exact ⟨List.mem_cons_of_mem _ (ih h).1, (ih h).2⟩

theorem scanChildren_mapErase_keyed {id : TaskID} {cs : List (TaskID × Task)}
    (h : keyedEntries cs = true) : scanChildren id (mapErase id cs) none = none := by
  rw [scanChildren_eq_none]
  intro e he
  obtain ⟨hm, hk⟩ := mem_mapErase he
  have := (keyedEntries_mem h (k := e.1) (t := e.2) hm).1
  rw [this]; exact hk

theorem scanChildren_mapSet_keyed {cs : List (TaskID × Task)} (h : keyedEntries cs = true)
    (task : Task) : scanChildren task.ID (mapSet task.ID task cs) none = some task := by
  induction cs with
  | nil => simp [mapSet, scanChildren]
  | cons e r ih =>
    obtain ⟨k, c⟩ := e
    rw [keyedEntries_cons] at h
    by_cases h1 : k = task.ID
    · simp only [mapSet, h1, if_true]
      rw [scanChildren_cons, scanChildren_mapErase_keyed h.2.2]
      simp
    · simp only [mapSet, h1, if_false]
      rw [scanChildren_cons, ih h.2.2]

theorem SubTasks.entries_some (cs : List (TaskID × Task)) :
    SubTasks.entries (some cs) = cs := rfl

theorem addChild_ID (task p : Task) : (addChild task p).ID = p.ID :=
  Task.setChildren_ID _ _

theorem removeChild_ID (x : TaskID) (p : Task) : (removeChild x p).ID = p.ID :=
  Task.setChildren_ID _ _

theorem Find_eq_search (s : TaskMemoryStorage) (path : List TaskID) :
    s.Find path =
      match s.search path with
      | .ok t => (t, none)
      | .error e => (Task.zero, some e) := by
  cases path with
  | nil => rfl
  | cons a rest =>
    simp only [TaskMemoryStorage.Find]
    cases s.search (a :: rest) <;> rfl

/-- Claim C1. Insert/Find round trip: in a store where each task is stored under
its own identifier, for a non-empty path `P` that resolves and any task `T`,
once `Insert(P, T)` has returned nil, `Find(P ++ [T.ID])` returns `T` itself
and no error. -/
theorem insert_find_roundtrip (s s' : TaskMemoryStorage) (P : List TaskID) (T : Task)
    (hkey : s.KeyedByID) (hne : P ≠ []) (hres : ∃ p, s.search P = .ok p)
    (hins : s.Insert P T = (s', none)) :
    s'.Find (P ++ [T.ID]) = (T, none) := by
  obtain ⟨p, hp⟩ := hres
  cases P with
  | nil => exact absurd rfl hne
  | cons a rest =>
    simp only [TaskMemoryStorage.Insert, hp, Prod.mk.injEq, and_true] at hins
    subst hins
    rw [Find_eq_search, search_append,
      search_modifyAt (addChild T) (addChild_ID T) s (a :: rest) p hp]
    simp only [searchFrom, addChild, Task.setChildren_Children, SubTasks.entries_some]
    rw [scanChildren_mapSet_keyed ((Task.keyed_iff p).mp (search_keyed hkey hp))]

end Tasks

namespace Tasks
open TaskError

theorem storage_eta (s : TaskMemoryStorage) : ({ s with storage := s.storage } : TaskMemoryStorage) = s := by
  cases s; rfl

theorem Delete_snoc (s : TaskMemoryStorage) (P : List TaskID) (x : TaskID) (hP : P ≠ []) :
    s.Delete (P ++ [x]) =
      match s.search P with
      | .error err => (s, some err)
      | .ok _ => ({ s with storage := modifyAt (removeChild x) P s.storage }, none) := by
  cases P with
  | nil => exact absurd rfl hP
  | cons a r =>
    cases r with
    | nil => rfl
    | cons b r' =>
      have h2 : (a :: b :: (r' ++ [x])).dropLast = a :: b :: r' := by
        rw [← List.cons_append, ← List.cons_append, List.dropLast_concat]
      have h3 : (b :: (r' ++ [x])).getLast (List.cons_ne_nil _ _) = x := by
        simp
      simp only [List.cons_append, TaskMemoryStorage.Delete, h2, h3]

theorem Update_snoc (s : TaskMemoryStorage) (P : List TaskID) (x : TaskID) (task : Task)
    (hP : P ≠ []) :
    s.Update (P ++ [x]) task =
      match s.search P with
      | .error err => (s, some err)
      | .ok _ => ({ s with storage := modifyAt (addChild task) P s.storage }, none) := by
  cases P with
  | nil => exact absurd rfl hP
  | cons a r =>
    cases r with
    | nil => rfl
    | cons b r' =>
      have h2 : (a :: b :: (r' ++ [x])).dropLast = a :: b :: r' := by
        rw [← List.cons_append, ← List.cons_append, List.dropLast_concat]
      simp only [List.cons_append, TaskMemoryStorage.Update, h2]

theorem removeChild_of_absent {x : TaskID} {p : Task}
    (h : mapGet x p.Children.entries = none) : removeChild x p = p := by
  obtain ⟨i, l, c, cs⟩ := p
  cases cs with
  | none => rfl
  | some cs =>
    simp only [Task.Children, SubTasks.entries] at h
    simp [removeChild, Task.setChildren, Task.Children, mapErase_of_mapGet_none h]

theorem searchFrom_error_split {t : Task} {path : List TaskID} {e : TaskError}
    (h : searchFrom t path = .error e) :
    ∃ pre x post u, path = pre ++ x :: post ∧ searchFrom t pre = .ok u ∧
      ∀ c ∈ u.Children.entries, c.2.ID ≠ x := by
  induction path generalizing t with
  | nil => cases h
  | cons id rest ih =>
    simp only [searchFrom] at h
    cases hs : scanChildren id t.Children.entries none with
    | none => exact ⟨[], id, rest, t, rfl, rfl, scanChildren_eq_none.mp hs⟩
    | some c =>
      rw [hs] at h
      obtain ⟨pre, x, post, u, h1, h2, h3⟩ := ih h
      refine ⟨id :: pre, x, post, u, by rw [h1]; rfl, ?_, h3⟩
      simp only [searchFrom, hs]
      exact h2

theorem resolves_searchFrom {s : TaskMemoryStorage} {p q : List TaskID} {t u : Task}
    (hr : Resolves s p t) (h : searchFrom t q = .ok u) : Resolves s (p ++ q) u := by
  induction q generalizing p t with
  | nil =>
    simp only [searchFrom, Except.ok.injEq] at h
    subst h; simpa using hr
  | cons id rest ih =>
    simp only [searchFrom] at h
    cases hs : scanChildren id t.Children.entries none with
    | none => rw [hs] at h; cases h
    | some c =>
      rw [hs] at h
      obtain ⟨hid, k, hk⟩ := scanChildren_some hs
      have := ih (Resolves.child hr hk) h
      rw [hid] at this
      simpa using this

/-- Claim C2. Path resolution of `Find`: it fails with `ErrTaskPathNotValid`
exactly on the empty path; on a non-empty path `a :: rest` it fails with
`ErrTaskNotFound` exactly when `a` is not a root key or some later identifier
`x` is not the `ID` of any child of the node the path before `x` resolves to;
these are its only errors, and otherwise it returns a node that the path
resolves to.  On an empty store every non-empty path gives
`ErrTaskNotFound`. -/
theorem find_resolution (s : TaskMemoryStorage) (path : List TaskID) :
    ((s.Find path).2 = some ErrTaskPathNotValid ↔ path = []) ∧
    (∀ a rest, path = a :: rest →
      ((s.Find path).2 = some ErrTaskNotFound ↔
        (mapGet a s.storage = none ∨
          ∃ pre x post u, rest = pre ++ x :: post ∧ s.search (a :: pre) = .ok u ∧
            ∀ c ∈ u.Children.entries, c.2.ID ≠ x))) ∧
    (∀ e, (s.Find path).2 = some e → e = ErrTaskPathNotValid ∨ e = ErrTaskNotFound) ∧
    ((s.Find path).2 = none → Resolves s path (s.Find path).1) ∧
    (s.storage = [] → path ≠ [] → s.Find path = (Task.zero, some ErrTaskNotFound)) := by
  refine ⟨?_, ?_, ?_, ?_, ?_⟩
  · rw [Find_eq_search]
    cases hs : s.search path with
    | ok t => simp; rintro rfl; cases hs
    | error e =>
      rcases search_error s path e hs with ⟨h1, h2⟩ | ⟨h1, h2⟩
      · simp [h1, h2]
      · simp [h1, h2]
  · rintro a rest rfl
    rw [Find_eq_search]
    simp only [TaskMemoryStorage.search]
    cases hm : mapGet a s.storage with
    | none => simp
    | some t =>
      simp only [reduceCtorEq, false_or]
      cases hs : searchFrom t rest with
      | error e =>
        have he := search_error s (a :: rest) e (by simp [TaskMemoryStorage.search, hm, hs])
        simp only [List.cons_ne_nil, not_false_eq_true, true_and, false_and, false_or,
          reduceCtorEq] at he
        have he2 := he.2
        subst he2
        simp only [true_iff]
        exact searchFrom_error_split hs
      | ok u =>
        simp only [reduceCtorEq, false_iff]
        rintro ⟨pre, x, post, v, h1, h2, h3⟩
        subst h1
        rw [searchFrom_append, h2] at hs
        simp only [searchFrom] at hs
        rw [scanChildren_eq_none.mpr h3] at hs
        cases hs
  · intro e
    rw [Find_eq_search]
    cases hs : s.search path with
    | ok t => simp
    | error e' =>
      simp only [Option.some.injEq]
      rintro rfl
      rcases search_error s path e' hs with ⟨_, h2⟩ | ⟨_, h2⟩
      · exact Or.inl h2
      · exact Or.inr h2
  · rw [Find_eq_search]
    cases hs : s.search path with
    | error e => simp
    | ok t =>
      intro _
      cases path with
      | nil => cases hs
      | cons a rest =>
        simp only [TaskMemoryStorage.search] at hs
        cases hm : mapGet a s.storage with
        | none => rw [hm] at hs; cases hs
        | some t0 =>
          rw [hm] at hs
          exact resolves_searchFrom (Resolves.root hm) hs
  · intro hs hp
    cases path with
    | nil => exact absurd rfl hp
    | cons a rest => simp [TaskMemoryStorage.Find, TaskMemoryStorage.search, hs, mapGet]

/-- Claim C7. Delete asymmetry: deleting a missing root fails with
`ErrTaskNotFound` and changes nothing; deleting, under a resolving non-empty
parent path, a key the parent does not hold returns nil and changes nothing;
a multi-element delete fails exactly when the parent path does not resolve,
with `ErrTaskNotFound` and an unchanged store. -/
theorem delete_asymmetry (s : TaskMemoryStorage) :
    (∀ a, mapGet a s.storage = none → s.Delete [a] = (s, some ErrTaskNotFound)) ∧
    (∀ P x p, P ≠ [] → s.search P = .ok p → mapGet x p.Children.entries = none →
      s.Delete (P ++ [x]) = (s, none)) ∧
    (∀ P x, P ≠ [] →
      (((s.Delete (P ++ [x])).2 ≠ none ↔ ∃ e, s.search P = .error e) ∧
        ((s.Delete (P ++ [x])).2 ≠ none → s.Delete (P ++ [x]) = (s, some ErrTaskNotFound)))) := by
  refine ⟨?_, ?_, ?_⟩
  · intro a h
    simp [TaskMemoryStorage.Delete, h]
  · intro P x p hP hs hx
    rw [Delete_snoc s P x hP, hs]
    simp only
    rw [modifyAt_of_fix (removeChild x) s P, storage_eta]
    intro p' hp'
    rw [hs] at hp'
    cases hp'
    exact removeChild_of_absent hx
  · intro P x hP
    rw [Delete_snoc s P x hP]
    cases hs : s.search P with
    | ok p => simp
    | error e =>
      rcases search_error s P e hs with ⟨h1, _⟩ | ⟨_, h2⟩
      · exact absurd h1 hP
      · simp [h2]

/-- Claim C9. Insert: with the empty path it never fails and stores `T` as the
root entry under `T.ID`, whatever was stored there, the other roots staying as
they were; with a non-empty path it fails exactly when the path does not
resolve, then with `ErrTaskNotFound` and an unchanged store; when the path
resolves the call returns nil and the parent holds `T` under `T.ID`, whether or
not it held a child under that key before. -/
theorem insert_lenient (s : TaskMemoryStorage) (T : Task) :
    ((s.Insert [] T).2 = none ∧ mapGet T.ID (s.Insert [] T).1.storage = some T ∧
      (∀ k, k ≠ T.ID → mapGet k (s.Insert [] T).1.storage = mapGet k s.storage) ∧
      (s.Insert [] T).1.lastTaskID = s.lastTaskID) ∧
    (∀ P, P ≠ [] →
      (((s.Insert P T).2 ≠ none ↔ ∃ e, s.search P = .error e) ∧
        ((s.Insert P T).2 ≠ none → s.Insert P T = (s, some ErrTaskNotFound)))) ∧
    (∀ P p, P ≠ [] → s.search P = .ok p →
      (s.Insert P T).2 = none ∧
        (s.Insert P T).1.search P = .ok (addChild T p) ∧
        mapGet T.ID (addChild T p).Children.entries = some T ∧
        (∀ k, k ≠ T.ID →
          mapGet k (addChild T p).Children.entries = mapGet k p.Children.entries)) := by
  refine ⟨⟨rfl, ?_, ?_, rfl⟩, ?_, ?_⟩
  · exact mapGet_mapSet_self _ _ _
  · intro k hk
    exact mapGet_mapSet_ne hk _ _
  · intro P hP
    cases P with
    | nil => exact absurd rfl hP
    | cons a rest =>
      simp only [TaskMemoryStorage.Insert]
      cases hs : s.search (a :: rest) with
      | ok p => simp
      | error e =>
        rcases search_error s _ e hs with ⟨h1, _⟩ | ⟨_, h2⟩
        · cases h1
        · simp [h2]
  · intro P p hP hs
    cases P with
    | nil => exact absurd rfl hP
    | cons a rest =>
      simp only [TaskMemoryStorage.Insert, hs, true_and]
      refine ⟨search_modifyAt (addChild T) (addChild_ID T) s _ p hs, ?_, ?_⟩
      · simp only [addChild, Task.setChildren_Children, SubTasks.entries_some]
        exact mapGet_mapSet_self _ _ _
      · intro k hk
        simp only [addChild, Task.setChildren_Children, SubTasks.entries_some]
        exact mapGet_mapSet_ne hk _ _

/-- Claim C10. The empty path is rejected without any effect by the storage's
`Update` and `Delete` and by the service's `Update` and `Delete`: each returns
`ErrTaskPathNotValid` and the store, counter included, is as before. -/
theorem empty_path_rejected (s : TaskMemoryStorage) (T : Task) (fields : UpdateFields) :
    s.Update [] T = (s, some ErrTaskPathNotValid) ∧
    s.Delete [] = (s, some ErrTaskPathNotValid) ∧
    TaskStorageService.Update s [] fields = (s, Task.zero, some ErrTaskPathNotValid) ∧
    TaskStorageService.Delete s [] = (s, Task.zero, some ErrTaskPathNotValid) :=
  ⟨rfl, rfl, rfl, rfl⟩

end Tasks

namespace Tasks
open TaskError

theorem removeChild_entries (x : TaskID) (p : Task) :
    (removeChild x p).Children.entries = mapErase x p.Children.entries := by
  obtain ⟨i, l, c, cs⟩ := p
  cases cs <;> rfl

/-- Claim C8. Delete destroys the whole subtree: in a store where each task is
stored under its own identifier, once `Delete(P)` has returned nil for a
resolving path `P`, `Find(P ++ Q)` fails with `ErrTaskNotFound` for every `Q`,
the empty one included, and the map the node was removed from keeps every
other entry: the root map when `P` is `[a]`, the children of the parent when
`P` is `P' ++ [x]`. -/
theorem delete_subtree (s s' : TaskMemoryStorage) (P : List TaskID)
    (hkey : s.KeyedByID) (hres : ∃ t, s.search P = .ok t) (hdel : s.Delete P = (s', none)) :
    (∀ Q, s'.Find (P ++ Q) = (Task.zero, some ErrTaskNotFound)) ∧
    (∀ a, P = [a] → ∀ k, k ≠ a → mapGet k s'.storage = mapGet k s.storage) ∧
    (∀ P' x p, P' ≠ [] → P = P' ++ [x] → s.search P' = .ok p →
      s'.search P' = .ok (removeChild x p) ∧
        ∀ k, k ≠ x → mapGet k (removeChild x p).Children.entries =
          mapGet k p.Children.entries) := by
  obtain ⟨t, ht⟩ := hres
  rcases List.eq_nil_or_concat P with rfl | ⟨P', x, rfl⟩
  · cases ht
  · rw [List.concat_eq_append] at ht hdel ⊢
    cases P' with
    | nil =>
      simp only [List.nil_append, TaskMemoryStorage.Delete] at hdel
      cases hm : mapGet x s.storage with
      | none => rw [hm] at hdel; cases hdel
      | some t0 =>
        rw [hm] at hdel
        simp only [Prod.mk.injEq, and_true] at hdel
        subst hdel
        refine ⟨?_, ?_, ?_⟩
        · intro Q
          simp [TaskMemoryStorage.Find, TaskMemoryStorage.search, mapGet_mapErase_self]
        · intro a ha k hk
          simp only [List.nil_append, List.cons.injEq, and_true] at ha
          subst ha
          exact mapGet_mapErase_ne hk _
        · intro P'' x' p hP'' heq
          exfalso
          cases P'' with
          | nil => exact hP'' rfl
          | cons b r => cases r <;> simp at heq
    | cons a r =>
      have hne : a :: r ≠ [] := List.cons_ne_nil _ _
      rw [Delete_snoc s (a :: r) x hne] at hdel
      cases hp : s.search (a :: r) with
      | error e => rw [hp] at hdel; cases hdel
      | ok p =>
        rw [hp] at hdel
        simp only [Prod.mk.injEq, and_true] at hdel
        subst hdel
        have hs' := search_modifyAt (removeChild x) (removeChild_ID x) s (a :: r) p hp
        refine ⟨?_, ?_, ?_⟩
        · intro Q
          rw [List.append_assoc, Find_eq_search, search_append, hs']
          simp only [List.singleton_append, searchFrom, removeChild_entries]
          rw [scanChildren_mapErase_keyed ((Task.keyed_iff p).mp (search_keyed hkey hp))]
        · intro b hb
          cases r <;> simp at hb
        · intro P'' x' p' _ heq hp'
          obtain ⟨h1, h2⟩ := List.append_inj' heq rfl
          simp only [List.cons.injEq, and_true] at h2
          subst h1; subst h2
          rw [hp] at hp'
          cases hp'
          refine ⟨hs', ?_⟩
          intro k hk
          rw [removeChild_entries]
          exact mapGet_mapErase_ne hk _

/-- Claim C6. Multi-level `Update` is an upsert keyed by the task's own
identifier: for a non-empty `P`, `Update(P ++ [x], T)` fails with
`ErrTaskNotFound` exactly when `P` does not resolve, the store then being
unchanged; when `P` resolves it returns nil whatever `x` is, the parent then
holds `T` under `T.ID`, and for `x` different from `T.ID` what the parent
holds under `x` is as before. -/
theorem update_upsert (s : TaskMemoryStorage) (P : List TaskID) (x : TaskID) (T : Task)
    (hP : P ≠ []) :
    ((s.Update (P ++ [x]) T).2 = some ErrTaskNotFound ↔ ∃ e, s.search P = .error e) ∧
    ((s.Update (P ++ [x]) T).2 ≠ none → s.Update (P ++ [x]) T = (s, some ErrTaskNotFound)) ∧
    (∀ p, s.search P = .ok p →
      (s.Update (P ++ [x]) T).2 = none ∧
        (s.Update (P ++ [x]) T).1.search P = .ok (addChild T p) ∧
        mapGet T.ID (addChild T p).Children.entries = some T ∧
        (x ≠ T.ID → mapGet x (addChild T p).Children.entries = mapGet x p.Children.entries)) := by
  rw [Update_snoc s P x T hP]
  cases hs : s.search P with
  | error e =>
    rcases search_error s P e hs with ⟨h1, _⟩ | ⟨_, h2⟩
    · exact absurd h1 hP
    · simp [h2]
  | ok p =>
    refine ⟨by simp, by simp, ?_⟩
    intro p' hp'
    cases hp'
    refine ⟨rfl, search_modifyAt (addChild T) (addChild_ID T) s P p hs, ?_, ?_⟩
    · simp only [addChild, Task.setChildren_Children, SubTasks.entries_some]
      exact mapGet_mapSet_self _ _ _
    · intro hx
      simp only [addChild, Task.setChildren_Children, SubTasks.entries_some]
      exact mapGet_mapSet_ne hx _ _

/-- Claim C5 as stated is refuted. In the store `{1: t1}`, `Update([1], t2)`
fails with `ErrTaskNotFound` although a root task is stored under 1; in the
store `{2: t2}`, `Update([1], t2)` returns nil although no root task is stored
under 1. -/
theorem root_update_ignores_path :
    ¬ ((Fixture.store1.Update [1] Fixture.t2).2 = some ErrTaskNotFound ↔
        mapGet 1 Fixture.store1.storage = none) ∧
    ¬ ((Fixture.store2.Update [1] Fixture.t2).2 = some ErrTaskNotFound ↔
        mapGet 1 Fixture.store2.storage = none) := by
  constructor
  · intro h
    have h1 : (Fixture.store1.Update [1] Fixture.t2).2 = some ErrTaskNotFound := rfl
    have h2 := h.mp h1
    simp [Fixture.store1, mapGet] at h2
  · intro h
    have h1 : mapGet 1 Fixture.store2.storage = none := rfl
    have h2 := h.mpr h1
    simp [Fixture.store2, Fixture.t2, TaskMemoryStorage.Update, mapGet, Task.ID] at h2

/-- Claim C5, amended. Root-level `Update` is keyed by the task's own
identifier: `Update([a], T)` fails with `ErrTaskNotFound` exactly when no root
task is stored under `T.ID`, the store then being unchanged; otherwise it
returns nil, the root entry under `T.ID` is `T` and every other root entry is
as before.  The path element `a` plays no part. -/
theorem root_update_by_task_id (s : TaskMemoryStorage) (a : TaskID) (T : Task) :
    ((s.Update [a] T).2 = some ErrTaskNotFound ↔ mapGet T.ID s.storage = none) ∧
    (mapGet T.ID s.storage = none → s.Update [a] T = (s, some ErrTaskNotFound)) ∧
    (∀ old, mapGet T.ID s.storage = some old →
      (s.Update [a] T).2 = none ∧
        mapGet T.ID (s.Update [a] T).1.storage = some T ∧
        (∀ k, k ≠ T.ID → mapGet k (s.Update [a] T).1.storage = mapGet k s.storage) ∧
        (s.Update [a] T).1.lastTaskID = s.lastTaskID) := by
  simp only [TaskMemoryStorage.Update]
  cases hm : mapGet T.ID s.storage with
  | none => simp
  | some old =>
    refine ⟨by simp, by simp, ?_⟩
    intro old' _
    refine ⟨rfl, mapGet_mapSet_self _ _ _, ?_, rfl⟩
    intro k hk
    exact mapGet_mapSet_ne hk _ _

/-! ## Identifier allocation -/

theorem minInt_eq : minInt = -9223372036854775808 := by
  norm_num [minInt]

theorem maxInt_eq : maxInt = 9223372036854775807 := by
  norm_num [maxInt]

theorem wrapInt_of_range {x : Int} (h1 : minInt ≤ x) (h2 : x ≤ maxInt) : wrapInt x = x := by
  unfold wrapInt
  unfold minInt at h1
  unfold maxInt at h2
  rw [Int.emod_eq_of_lt (by omega) (by omega)]
  omega

theorem wrapInt_range (x : Int) : minInt ≤ wrapInt x ∧ wrapInt x ≤ maxInt := by
  unfold wrapInt minInt maxInt
  omega

theorem NextTaskID_of_lt (s : TaskMemoryStorage) (h1 : minInt ≤ s.lastTaskID)
    (h2 : s.lastTaskID < maxInt) :
    s.NextTaskID = ({ s with lastTaskID := s.lastTaskID + 1 }, s.lastTaskID + 1) := by
  unfold TaskMemoryStorage.NextTaskID
  have h3 : minInt ≤ s.lastTaskID + 1 := by unfold TaskID at *; omega
  have h4 : s.lastTaskID + 1 ≤ maxInt := by unfold TaskID at *; omega
  simp only [wrapInt_of_range h3 h4]

theorem issuedIDs_of_le (n : Nat) (s : TaskMemoryStorage) (h1 : minInt ≤ s.lastTaskID)
    (h2 : s.lastTaskID + n ≤ maxInt) :
    issuedIDs n s = (List.range n).map (fun (i : Nat) => s.lastTaskID + 1 + (i : Int)) := by
  induction n generalizing s with
  | zero => rfl
  | succ n ih =>
    have hlt : s.lastTaskID < maxInt := by
      unfold TaskID at *; push_cast at h2; omega
    rw [issuedIDs, NextTaskID_of_lt s h1 hlt, List.range_succ_eq_map]
    simp only [List.map_cons, List.map_map, Nat.cast_zero, add_zero]
    rw [ih]
    · congr 1
      apply List.map_congr_left
      intro i _
      simp only [Function.comp, Nat.cast_succ]
      ring
    · show minInt ≤ s.lastTaskID + 1
      unfold TaskID at *; omega
    · show s.lastTaskID + 1 + (n : Int) ≤ maxInt
      unfold TaskID at *; push_cast at h2; omega

/-- Claim C4 as stated is refuted. With the counter at the largest `int` the
call returns the smallest `int`, which is neither the previous value plus one
nor above it. -/
theorem nextTaskID_wraps :
    (Fixture.storeFull.NextTaskID).2 = -9223372036854775808 ∧
    (Fixture.storeFull.NextTaskID).2 ≠ Fixture.storeFull.lastTaskID + 1 ∧
    ¬ (Fixture.storeFull.lastTaskID < (Fixture.storeFull.NextTaskID).2) := by
  refine ⟨?_, ?_, ?_⟩ <;>
    simp [Fixture.storeFull, TaskMemoryStorage.NextTaskID, wrapInt]

/-- Claim C4, amended. While the counter, an `int`, is below the largest
`int`, `NextTaskID` returns exactly the counter plus one, stores it as the new
counter and leaves the root map as it was; on a new storage the `k`-th call
returns `k` for every `k` up to `2^63 - 1`, so these identifiers are strictly
increasing and pairwise distinct. -/
theorem nextTaskID_sequential (s : TaskMemoryStorage) (h1 : minInt ≤ s.lastTaskID)
    (h2 : s.lastTaskID < maxInt) :
    (s.NextTaskID).2 = s.lastTaskID + 1 ∧
    (s.NextTaskID).1.lastTaskID = s.lastTaskID + 1 ∧
    (s.NextTaskID).1.storage = s.storage ∧
    (∀ n : Nat, (n : Int) ≤ maxInt →
      issuedIDs n NewTaskMemoryStorage = (List.range n).map (fun (i : Nat) => (i : Int) + 1) ∧
        (∀ k, k < n → (issuedIDs n NewTaskMemoryStorage)[k]? = some ((k : Int) + 1)) ∧
        (issuedIDs n NewTaskMemoryStorage).Pairwise (· < ·) ∧
        (issuedIDs n NewTaskMemoryStorage).Nodup) := by
  rw [NextTaskID_of_lt s h1 h2]
  refine ⟨rfl, rfl, rfl, ?_⟩
  intro n hn
  have heq : issuedIDs n NewTaskMemoryStorage =
      (List.range n).map (fun (i : Nat) => (i : Int) + 1) := by
    rw [issuedIDs_of_le n NewTaskMemoryStorage (by decide) (by simpa [NewTaskMemoryStorage] using hn)]
    apply List.map_congr_left
    intro i _
    simp [NewTaskMemoryStorage, add_comm]
  have hpw : (issuedIDs n NewTaskMemoryStorage).Pairwise (· < ·) := by
    rw [heq, List.pairwise_map]
    exact (List.pairwise_lt_range n).imp
      (fun {a b} h => Int.add_lt_add_right (Int.ofNat_lt.mpr h) 1)
  refine ⟨heq, ?_, hpw, hpw.imp (fun h => ne_of_lt h)⟩
  intro k hk
  rw [heq]
  simp [hk]

end Tasks

namespace Tasks
open TaskError

/-! ## Identifiers of the forest -/

theorem Task.ids_eq (t : Task) : t.ids = t.ID :: forestIDs t.Children.entries := by
  obtain ⟨i, l, c, cs⟩ := t
  cases cs <;> simp [Task.ids, Task.ID, Task.Children, SubTasks.entries, forestIDs]

theorem forestIDs_cons (k : TaskID) (t : Task) (r : List (TaskID × Task)) :
    forestIDs ((k, t) :: r) = t.ids ++ forestIDs r := by
  simp [forestIDs]

theorem forestIDs_nil : forestIDs [] = [] := by
  simp [forestIDs]

theorem forestIDs_mapErase (k : TaskID) (m : List (TaskID × Task)) :
    (forestIDs (mapErase k m)).Sublist (forestIDs m) := by
  induction m with
  | nil => exact List.Sublist.refl _
  | cons e r ih =>
    obtain ⟨k', t⟩ := e
    by_cases h : k' = k
    · simp only [mapErase, h, if_true, forestIDs_cons]
      exact ih.trans (List.sublist_append_right _ _)
    · simp only [mapErase, h, if_false, forestIDs_cons]
      exact List.Sublist.append_left ih _

theorem forestIDs_mapSet (k : TaskID) (v : Task) (m : List (TaskID × Task)) :
    (forestIDs (mapSet k v m)).Subperm (v.ids ++ forestIDs m) := by
  induction m with
  | nil =>
    simp only [mapSet, forestIDs_cons, forestIDs_nil]
    exact List.Subperm.refl _
  | cons e r ih =>
    obtain ⟨k', t⟩ := e
    by_cases h : k' = k
    · simp only [mapSet, h, if_true, forestIDs_cons]
      apply List.Sublist.subperm
      apply List.Sublist.append_left
      exact (forestIDs_mapErase k r).trans (List.sublist_append_right _ _)
    · simp only [mapSet, h, if_false, forestIDs_cons]
      have h1 : (t.ids ++ forestIDs (mapSet k v r)).Subperm (t.ids ++ (v.ids ++ forestIDs r)) :=
        (List.subperm_append_left _).mpr ih
      refine h1.trans (List.Perm.subperm ?_)
      rw [← List.append_assoc, ← List.append_assoc]
      exact List.Perm.append_right _ List.perm_append_comm

theorem forestIDs_mapSet_replace {k : TaskID} {v old : Task} {m : List (TaskID × Task)}
    (hm : mapGet k m = some old) (hv : v.ids = old.ids) :
    (forestIDs (mapSet k v m)).Sublist (forestIDs m) := by
  induction m with
  | nil => cases hm
  | cons e r ih =>
    obtain ⟨k', t⟩ := e
    by_cases h : k' = k
    · simp only [mapGet, h, if_true, Option.some.injEq] at hm
      subst hm
      simp only [mapSet, h, if_true, forestIDs_cons, hv]
      exact List.Sublist.append_left (forestIDs_mapErase k r) _
    · simp only [mapGet, h, if_false] at hm
      simp only [mapSet, h, if_false, forestIDs_cons]
      exact List.Sublist.append_left (ih hm) _

theorem ids_sublist_of_mem {cs : List (TaskID × Task)} {k : TaskID} {t : Task}
    (h : (k, t) ∈ cs) : t.ids.Sublist (forestIDs cs) := by
  induction cs with
  | nil => cases h
  | cons e r ih =>
    obtain ⟨k', t'⟩ := e
    rw [forestIDs_cons]
    rcases List.mem_cons.mp h with heq | h
    · cases heq; exact List.sublist_append_left _ _
    · exact (ih h).trans (List.sublist_append_right _ _)

theorem searchFrom_ids_sublist {t p : Task} {path : List TaskID}
    (h : searchFrom t path = .ok p) : p.ids.Sublist t.ids := by
  induction path generalizing t with
  | nil => simp only [searchFrom, Except.ok.injEq] at h; subst h; exact List.Sublist.refl _
  | cons id rest ih =>
    simp only [searchFrom] at h
    cases hs : scanChildren id t.Children.entries none with
    | none => rw [hs] at h; cases h
    | some c =>
      rw [hs] at h
      obtain ⟨_, k, hk⟩ := scanChildren_some hs
      rw [Task.ids_eq t]
      exact ((ih h).trans (ids_sublist_of_mem hk)).trans (List.sublist_cons_self _ _)

theorem search_ids_sublist {s : TaskMemoryStorage} {p : Task} {path : List TaskID}
    (h : s.search path = .ok p) : p.ids.Sublist (forestIDs s.storage) := by
  cases path with
  | nil => cases h
  | cons a rest =>
    simp only [TaskMemoryStorage.search] at h
    cases hm : mapGet a s.storage with
    | none => rw [hm] at h; cases h
    | some t =>
      rw [hm] at h
      exact (searchFrom_ids_sublist h).trans (ids_sublist_of_mem (mapGet_mem hm))

theorem subperm_append_mid {X a b : List TaskID} (pre post : List TaskID)
    (h : a.Subperm (X ++ b)) : (pre ++ a ++ post).Subperm (X ++ (pre ++ b ++ post)) := by
  have h1 : (pre ++ a ++ post).Subperm (pre ++ (X ++ b) ++ post) :=
    (List.subperm_append_right _).mpr ((List.subperm_append_left _).mpr h)
  refine h1.trans (List.Perm.subperm ?_)
  rw [← List.append_assoc pre X b, ← List.append_assoc X, ← List.append_assoc X]
  exact List.Perm.append_right _ (List.Perm.append_right _ List.perm_append_comm)

theorem forestIDs_modifyScanned (X : List TaskID) (id : TaskID) (g : Task → Task)
    (cs : List (TaskID × Task))
    (hg : ∀ c, scanChildren id cs none = some c → (g c).ids.Subperm (X ++ c.ids)) :
    (forestIDs (modifyScanned id g cs)).Subperm (X ++ forestIDs cs) := by
  induction cs with
  | nil => exact (List.sublist_append_right _ _).subperm
  | cons e r ih =>
    obtain ⟨k, c⟩ := e
    cases hs : scanChildren id r none with
    | some d =>
      simp only [modifyScanned, hs, Option.isSome_some, if_true, forestIDs_cons]
      have := ih (fun c' hc' => hg c' (by rw [scanChildren_cons, hs]; rw [hs] at hc'; exact hc'))
      simpa using subperm_append_mid c.ids [] this
    | none =>
      simp only [modifyScanned, hs, Option.isSome_none, Bool.false_eq_true, if_false]
      by_cases hc : c.ID = id
      · simp only [hc, if_true, forestIDs_cons]
        have := hg c (by rw [scanChildren_cons, hs]; simp [hc])
        simpa using subperm_append_mid [] (forestIDs r) this
      · simp only [hc, if_false]
        exact (List.sublist_append_right _ _).subperm

theorem ids_modifyFrom (X : List TaskID) (g : Task → Task) (path : List TaskID) (t : Task)
    (hg : ∀ p, searchFrom t path = .ok p → (g p).ids.Subperm (X ++ p.ids)) :
    (modifyFrom g path t).ids.Subperm (X ++ t.ids) := by
  induction path generalizing t with
  | nil => exact hg t rfl
  | cons id rest ih =>
    simp only [modifyFrom]
    cases hc : t.Children with
    | none => exact (List.sublist_append_right _ _).subperm
    | some cs =>
      simp only
      rw [Task.ids_eq, Task.ids_eq t, Task.setChildren_ID, Task.setChildren_Children, hc,
        SubTasks.entries_some, SubTasks.entries_some]
      have h1 := forestIDs_modifyScanned X id (modifyFrom g rest) cs (by
        intro c hcs
        apply ih
        intro p hp
        apply hg
        simp only [searchFrom, hc, SubTasks.entries_some, hcs]
        exact hp)
      simpa using subperm_append_mid [t.ID] [] h1

theorem forestIDs_mapModify (X : List TaskID) (a : TaskID) (g : Task → Task)
    (m : List (TaskID × Task))
    (hg : ∀ t, mapGet a m = some t → (g t).ids.Subperm (X ++ t.ids)) :
    (forestIDs (mapModify a g m)).Subperm (X ++ forestIDs m) := by
  induction m with
  | nil => exact (List.sublist_append_right _ _).subperm
  | cons e r ih =>
    obtain ⟨k, t⟩ := e
    by_cases h : k = a
    · simp only [mapModify, h, if_true, forestIDs_cons]
      have := hg t (by simp [mapGet, h])
      simpa using subperm_append_mid [] (forestIDs r) this
    · simp only [mapModify, h, if_false, forestIDs_cons]
      have := ih (fun t' ht' => hg t' (by simpa [mapGet, h] using ht'))
      simpa using subperm_append_mid t.ids [] this

theorem forestIDs_modifyAt (X : List TaskID) (g : Task → Task) (s : TaskMemoryStorage)
    (path : List TaskID)
    (hg : ∀ p, s.search path = .ok p → (g p).ids.Subperm (X ++ p.ids)) :
    (forestIDs (modifyAt g path s.storage)).Subperm (X ++ forestIDs s.storage) := by
  cases path with
  | nil => exact (List.sublist_append_right _ _).subperm
  | cons a rest =>
    simp only [modifyAt]
    apply forestIDs_mapModify
    intro t ht
    apply ids_modifyFrom
    intro p hp
    apply hg
    simp only [TaskMemoryStorage.search, ht]
    exact hp

/-! ## Preservation of the key-equals-identifier condition -/

theorem keyedEntries_mapErase {m : List (TaskID × Task)} (h : keyedEntries m = true)
    (k : TaskID) : keyedEntries (mapErase k m) = true := by
  induction m with
  | nil => rfl
  | cons e r ih =>
    obtain ⟨k', t⟩ := e
    rw [keyedEntries_cons] at h
    by_cases h1 : k' = k
    · simp only [mapErase, h1, if_true]; exact ih h.2.2
    · simp only [mapErase, h1, if_false, keyedEntries_cons]
      exact ⟨h.1, h.2.1, ih h.2.2⟩

theorem keyedEntries_mapSet {m : List (TaskID × Task)} (h : keyedEntries m = true)
    {v : Task} (hv : v.keyed = true) : keyedEntries (mapSet v.ID v m) = true := by
  induction m with
  | nil => simp [mapSet, keyedEntries_cons, hv, keyedEntries]
  | cons e r ih =>
    obtain ⟨k', t⟩ := e
    rw [keyedEntries_cons] at h
    by_cases h1 : k' = v.ID
    · simp only [mapSet, h1, if_true, keyedEntries_cons]
      exact ⟨trivial, hv, keyedEntries_mapErase h.2.2 _⟩
    · simp only [mapSet, h1, if_false, keyedEntries_cons]
      exact ⟨h.1, h.2.1, ih h.2.2⟩

theorem keyedEntries_modifyScanned (id : TaskID) (g : Task → Task)
    (hID : ∀ c, (g c).ID = c.ID) {cs : List (TaskID × Task)}
    (hk : ∀ k c, (k, c) ∈ cs → c.keyed = true → (g c).keyed = true)
    (h : keyedEntries cs = true) : keyedEntries (modifyScanned id g cs) = true := by
  induction cs with
  | nil => rfl
  | cons e r ih =>
    obtain ⟨k, c⟩ := e
    rw [keyedEntries_cons] at h
    have ihr := ih (fun k' c' hm => hk k' c' (List.mem_cons_of_mem _ hm)) h.2.2
    simp only [modifyScanned]
    split_ifs
    · rw [keyedEntries_cons]; exact ⟨h.1, h.2.1, ihr⟩
    · rw [keyedEntries_cons]
      exact ⟨(hID c).trans h.1, hk k c (List.mem_cons_self _ _) h.2.1, h.2.2⟩
    · rw [keyedEntries_cons]; exact h

theorem keyed_modifyFrom (g : Task → Task) (hID : ∀ c, (g c).ID = c.ID)
    (hk : ∀ c, c.keyed = true → (g c).keyed = true) (path : List TaskID) (t : Task)
    (h : t.keyed = true) : (modifyFrom g path t).keyed = true := by
  induction path generalizing t with
  | nil => exact hk t h
  | cons id rest ih =>
    simp only [modifyFrom]
    cases hc : t.Children with
    | none => exact h
    | some cs =>
      simp only
      rw [Task.keyed_iff, Task.setChildren_Children, SubTasks.entries_some]
      rw [Task.keyed_iff, hc, SubTasks.entries_some] at h
      exact keyedEntries_modifyScanned id _ (modifyFrom_ID g hID rest)
        (fun _ c _ hck => ih c hck) h

theorem keyedEntries_mapModify (a : TaskID) (g : Task → Task) (hID : ∀ c, (g c).ID = c.ID)
    (hk : ∀ c, c.keyed = true → (g c).keyed = true) {m : List (TaskID × Task)}
    (h : keyedEntries m = true) : keyedEntries (mapModify a g m) = true := by
  induction m with
  | nil => rfl
  | cons e r ih =>
    obtain ⟨k, t⟩ := e
    rw [keyedEntries_cons] at h
    simp only [mapModify]
    split_ifs
    · rw [keyedEntries_cons]; exact ⟨(hID t).trans h.1, hk t h.2.1, h.2.2⟩
    · rw [keyedEntries_cons]; exact ⟨h.1, h.2.1, ih h.2.2⟩

theorem keyedEntries_modifyAt (g : Task → Task) (hID : ∀ c, (g c).ID = c.ID)
    (hk : ∀ c, c.keyed = true → (g c).keyed = true) (path : List TaskID)
    {m : List (TaskID × Task)} (h : keyedEntries m = true) :
    keyedEntries (modifyAt g path m) = true := by
  cases path with
  | nil => exact h
  | cons a rest =>
    exact keyedEntries_mapModify a _ (modifyFrom_ID g hID rest)
      (fun c hc => keyed_modifyFrom g hID hk rest c hc) h

theorem addChild_keyed {T : Task} (hT : T.keyed = true) (p : Task) (hp : p.keyed = true) :
    (addChild T p).keyed = true := by
  rw [Task.keyed_iff] at hp ⊢
  simp only [addChild, Task.setChildren_Children, SubTasks.entries_some]
  exact keyedEntries_mapSet hp hT

theorem removeChild_keyed (x : TaskID) (p : Task) (hp : p.keyed = true) :
    (removeChild x p).keyed = true := by
  rw [Task.keyed_iff] at hp ⊢
  rw [removeChild_entries]
  exact keyedEntries_mapErase hp x

end Tasks

namespace Tasks
open TaskError

/-! ## Key lookup and identifier scan agree -/

theorem mapKeys_sublist_forestIDs {cs : List (TaskID × Task)} (h : keyedEntries cs = true) :
    (mapKeys cs).Sublist (forestIDs cs) := by
  induction cs with
  | nil => exact List.Sublist.refl _
  | cons e r ih =>
    obtain ⟨k, t⟩ := e
    rw [keyedEntries_cons] at h
    rw [forestIDs_cons, Task.ids_eq, h.1]
    simp only [mapKeys, List.map_cons, List.cons_append]
    exact List.Sublist.cons₂ _ ((ih h.2.2).trans (List.sublist_append_right _ _))

theorem scanChildren_eq_mapGet {cs : List (TaskID × Task)} (h : keyedEntries cs = true)
    (hn : (mapKeys cs).Nodup) (id : TaskID) : scanChildren id cs none = mapGet id cs := by
  induction cs with
  | nil => rfl
  | cons e r ih =>
    obtain ⟨k, c⟩ := e
    rw [keyedEntries_cons] at h
    simp only [mapKeys, List.map_cons, List.nodup_cons] at hn
    rw [scanChildren_cons, ih h.2.2 hn.2]
    by_cases hk : k = id
    · subst hk
      have : mapGet k r = none := by
        cases hg : mapGet k r with
        | none => rfl
        | some t => exact absurd (List.mem_map_of_mem Prod.fst (mapGet_mem hg)) hn.1
      simp [mapGet, this, h.1]
    · have hc : ¬ c.ID = id := by rw [h.1]; exact hk
      simp only [mapGet, hk, hc, if_false]
      cases mapGet id r <;> rfl

/-! ## The service keeps the store sound -/

theorem search_congr (s s' : TaskMemoryStorage) (h : s.storage = s'.storage)
    (path : List TaskID) : s.search path = s'.search path := by
  cases path with
  | nil => rfl
  | cons a rest => simp only [TaskMemoryStorage.search, h]

theorem sound_step {s : TaskMemoryStorage} (h : s.Sound) {m' : List (TaskID × Task)}
    {last' : TaskID} (hk : keyedEntries m' = true) (X : List TaskID)
    (hsub : (forestIDs m').Subperm (X ++ forestIDs s.storage)) (hX : X.Nodup)
    (hnew : ∀ x ∈ X, s.lastTaskID < x ∧ x ≤ last') (hle : s.lastTaskID ≤ last') :
    TaskMemoryStorage.Sound ⟨m', last'⟩ := by
  obtain ⟨_, hnd, hb, h0⟩ := h
  have hdis : (X ++ forestIDs s.storage).Nodup := by
    rw [List.nodup_append]
    refine ⟨hX, hnd, ?_⟩
    intro x hx1 hx2
    exact absurd (hb x hx2) (not_le.mpr (hnew x hx1).1)
  obtain ⟨l, hperm, hsl⟩ := hsub
  refine ⟨hk, hperm.nodup_iff.mp (hdis.sublist hsl), ?_, le_trans h0 hle⟩
  intro id hid
  have hmem : id ∈ X ++ forestIDs s.storage := hsl.subset (hperm.symm.subset hid)
  rcases List.mem_append.mp hmem with h1 | h1
  · exact (hnew id h1).2
  · exact le_trans (hb id h1) hle

theorem sound_same {s : TaskMemoryStorage} (h : s.Sound) {m' : List (TaskID × Task)}
    (hk : keyedEntries m' = true) (hsub : (forestIDs m').Subperm (forestIDs s.storage)) :
    TaskMemoryStorage.Sound ⟨m', s.lastTaskID⟩ :=
  sound_step h hk [] (by simpa using hsub) List.nodup_nil (by simp) le_rfl

theorem addChild_ids (T p : Task) : (addChild T p).ids.Subperm (T.ids ++ p.ids) := by
  rw [Task.ids_eq (addChild T p), Task.ids_eq p, addChild_ID]
  simp only [addChild, Task.setChildren_Children, SubTasks.entries_some]
  have h1 := forestIDs_mapSet T.ID T p.Children.entries
  simpa using subperm_append_mid [p.ID] [] h1

theorem removeChild_ids (x : TaskID) (p : Task) : (removeChild x p).ids.Sublist p.ids := by
  rw [Task.ids_eq (removeChild x p), Task.ids_eq p, removeChild_ID, removeChild_entries]
  exact List.Sublist.cons₂ _ (forestIDs_mapErase x _)

theorem Create_fst (s : TaskMemoryStorage) (path : List TaskID) (fields : CreateFields) :
    (TaskStorageService.Create s path fields).1 =
      ((s.NextTaskID).1.Insert path (Task.mk (s.NextTaskID).2 fields.Label false (some []))).1 := by
  simp only [TaskStorageService.Create]
  rcases ((s.NextTaskID).1.Insert path (Task.mk (s.NextTaskID).2 fields.Label false (some [])))
    with ⟨s2, _ | e⟩ <;> rfl

theorem Create_sound (s : TaskMemoryStorage) (path : List TaskID) (fields : CreateFields)
    (h : s.Sound) (hlt : s.lastTaskID < maxInt) :
    (TaskStorageService.Create s path fields).1.Sound ∧
      (TaskStorageService.Create s path fields).1.lastTaskID = s.lastTaskID + 1 := by
  have hmin : minInt ≤ s.lastTaskID := by
    have := h.2.2.2
    rw [minInt_eq]; unfold TaskID at *; omega
  rw [Create_fst, NextTaskID_of_lt s hmin hlt]
  simp only
  have hTk : (Task.mk (s.lastTaskID + 1) fields.Label false (some [])).keyed = true := by
    simp [Task.keyed, keyedEntries]
  have hTids : (Task.mk (s.lastTaskID + 1) fields.Label false (some [])).ids
      = [s.lastTaskID + 1] := by
    simp [Task.ids, forestIDs]
  have hnew : ∀ x ∈ [s.lastTaskID + 1], s.lastTaskID < x ∧ x ≤ s.lastTaskID + 1 := by
    intro x hx
    simp only [List.mem_singleton] at hx
    subst hx
    unfold TaskID at *; omega
  have hle : s.lastTaskID ≤ s.lastTaskID + 1 := by unfold TaskID at *; omega
  cases path with
  | nil =>
    simp only [TaskMemoryStorage.Insert, and_true]
    refine sound_step h (keyedEntries_mapSet h.1 hTk) [s.lastTaskID + 1] ?_
      (List.nodup_singleton _) hnew hle
    have := forestIDs_mapSet (s.lastTaskID + 1)
      (Task.mk (s.lastTaskID + 1) fields.Label false (some [])) s.storage
    rw [hTids] at this
    exact this
  | cons a rest =>
    simp only [TaskMemoryStorage.Insert]
    rw [search_congr ⟨s.storage, s.lastTaskID + 1⟩ s rfl]
    cases hs : s.search (a :: rest) with
    | error e =>
      refine ⟨sound_step h h.1 [] (by simp; exact List.Subperm.refl _) List.nodup_nil
        (by simp) hle, rfl⟩
    | ok p =>
      refine ⟨sound_step h ?_ [s.lastTaskID + 1] ?_ (List.nodup_singleton _) hnew hle, rfl⟩
      · exact keyedEntries_modifyAt _ (addChild_ID _) (addChild_keyed hTk) _ h.1
      · rw [← hTids]
        apply forestIDs_modifyAt
        intro p' _
        exact addChild_ids _ _

theorem mergeFields_ID (t : Task) (fields : UpdateFields) :
    (TaskStorageService.mergeFields t fields).ID = t.ID := by
  obtain ⟨i, l, c, cs⟩ := t
  obtain ⟨fl, fc⟩ := fields
  cases fl <;> cases fc <;> rfl

theorem mergeFields_Children (t : Task) (fields : UpdateFields) :
    (TaskStorageService.mergeFields t fields).Children = t.Children := by
  obtain ⟨i, l, c, cs⟩ := t
  obtain ⟨fl, fc⟩ := fields
  cases fl <;> cases fc <;> rfl

theorem mergeFields_ids (t : Task) (fields : UpdateFields) :
    (TaskStorageService.mergeFields t fields).ids = t.ids := by
  rw [Task.ids_eq, Task.ids_eq t, mergeFields_ID, mergeFields_Children]

theorem mergeFields_keyed (t : Task) (fields : UpdateFields) :
    (TaskStorageService.mergeFields t fields).keyed = t.keyed := by
  rw [Bool.eq_iff_iff, Task.keyed_iff, Task.keyed_iff t, mergeFields_Children]

theorem storage_Update_sound (s : TaskMemoryStorage) (path : List TaskID) (old new : Task)
    (h : s.Sound) (hold : s.search path = .ok old) (hID : new.ID = old.ID)
    (hids : new.ids = old.ids) (hk : new.keyed = true) :
    (s.Update path new).1.Sound := by
  have hs : s = ⟨s.storage, s.lastTaskID⟩ := rfl
  rcases List.eq_nil_or_concat path with rfl | ⟨P, x, rfl⟩
  · cases hold
  · rw [List.concat_eq_append] at hold ⊢
    cases P with
    | nil =>
      simp only [List.nil_append, TaskMemoryStorage.search] at hold
      cases hm : mapGet x s.storage with
      | none => rw [hm] at hold; cases hold
      | some t =>
        rw [hm] at hold
        simp only [searchFrom, Except.ok.injEq] at hold
        subst hold
        have hx : new.ID = x := hID.trans (keyedEntries_mem h.1 (mapGet_mem hm)).1
        simp only [List.nil_append, TaskMemoryStorage.Update, hx, hm]
        refine sound_same h ?_ (forestIDs_mapSet_replace hm hids).subperm
        rw [← hx]
        exact keyedEntries_mapSet h.1 hk
    | cons a r =>
      have hne : a :: r ≠ [] := List.cons_ne_nil _ _
      rw [Update_snoc s (a :: r) x new hne]
      rw [search_append] at hold
      cases hp : s.search (a :: r) with
      | error e => simpa using h
      | ok p =>
        rw [hp] at hold
        simp only [searchFrom] at hold
        cases hsc : scanChildren x p.Children.entries none with
        | none => rw [hsc] at hold; cases hold
        | some c =>
          rw [hsc] at hold
          simp only [Except.ok.injEq] at hold
          subst hold
          have hpk := (Task.keyed_iff p).mp (search_keyed h.1 hp)
          have hnd : (forestIDs p.Children.entries).Nodup := by
            have h1 := search_ids_sublist hp
            rw [Task.ids_eq] at h1
            exact (h.2.1.sublist h1).of_cons
          have hkeys := hnd.sublist (mapKeys_sublist_forestIDs hpk)
          rw [scanChildren_eq_mapGet hpk hkeys] at hsc
          have hx : new.ID = x := hID.trans (keyedEntries_mem hpk (mapGet_mem hsc)).1
          refine sound_same h ?_ ?_
          · exact keyedEntries_modifyAt _ (addChild_ID _) (addChild_keyed hk) _ h.1
          · have := forestIDs_modifyAt [] (addChild new) s (a :: r) (by
              intro p' hp'
              rw [hp] at hp'
              cases hp'
              rw [Task.ids_eq (addChild new p), Task.ids_eq p, addChild_ID]
              simp only [addChild, Task.setChildren_Children, SubTasks.entries_some,
                List.nil_append, hx]
              exact (List.Sublist.cons₂ _ (forestIDs_mapSet_replace hsc hids)).subperm)
            simpa using this

theorem Update_sound (s : TaskMemoryStorage) (path : List TaskID) (fields : UpdateFields)
    (h : s.Sound) :
    (TaskStorageService.Update s path fields).1.Sound ∧
      (TaskStorageService.Update s path fields).1.lastTaskID = s.lastTaskID := by
  simp only [TaskStorageService.Update]
  rw [Find_eq_search]
  cases hs : s.search path with
  | error e => exact ⟨h, rfl⟩
  | ok old =>
    simp only
    have hS := storage_Update_sound s path old (TaskStorageService.mergeFields old fields) h hs
      (mergeFields_ID _ _) (mergeFields_ids _ _)
      (by rw [mergeFields_keyed]; exact search_keyed h.1 hs)
    have hL : (s.Update path (TaskStorageService.mergeFields old fields)).1.lastTaskID
        = s.lastTaskID := by
      rcases path with _ | ⟨a, _ | ⟨b, r⟩⟩
      · rfl
      · simp only [TaskMemoryStorage.Update]
        cases mapGet (TaskStorageService.mergeFields old fields).ID s.storage <;> rfl
      · simp only [TaskMemoryStorage.Update]
        cases s.search (a :: b :: r).dropLast <;> rfl
    rcases hu : s.Update path (TaskStorageService.mergeFields old fields) with ⟨s1, _ | e⟩
    · rw [hu] at hS hL; exact ⟨hS, hL⟩
    · rw [hu] at hS hL; exact ⟨hS, hL⟩

theorem storage_Delete_sound (s : TaskMemoryStorage) (path : List TaskID) (h : s.Sound) :
    (s.Delete path).1.Sound ∧ (s.Delete path).1.lastTaskID = s.lastTaskID := by
  rcases List.eq_nil_or_concat path with rfl | ⟨P, x, rfl⟩
  · exact ⟨h, rfl⟩
  · rw [List.concat_eq_append]
    cases P with
    | nil =>
      simp only [List.nil_append, TaskMemoryStorage.Delete]
      cases hm : mapGet x s.storage with
      | none => exact ⟨h, rfl⟩
      | some t =>
        exact ⟨sound_same h (keyedEntries_mapErase h.1 x) (forestIDs_mapErase x _).subperm, rfl⟩
    | cons a r =>
      rw [Delete_snoc s (a :: r) x (List.cons_ne_nil _ _)]
      cases hp : s.search (a :: r) with
      | error e => exact ⟨h, rfl⟩
      | ok p =>
        refine ⟨sound_same h ?_ ?_, rfl⟩
        · exact keyedEntries_modifyAt _ (removeChild_ID x) (removeChild_keyed x) _ h.1
        · have := forestIDs_modifyAt [] (removeChild x) s (a :: r) (by
            intro p' _
            simpa using (removeChild_ids x p').subperm)
          simpa using this

theorem Delete_sound (s : TaskMemoryStorage) (path : List TaskID) (h : s.Sound) :
    (TaskStorageService.Delete s path).1.Sound ∧
      (TaskStorageService.Delete s path).1.lastTaskID = s.lastTaskID := by
  simp only [TaskStorageService.Delete]
  rcases s.Find path with ⟨t, _ | e⟩
  · have := storage_Delete_sound s path h
    rcases hd : s.Delete path with ⟨s1, _ | e⟩
    · rw [hd] at this; exact this
    · rw [hd] at this; exact this
  · exact ⟨h, rfl⟩

theorem runCalls_sound (calls : List ServiceCall) (s : TaskMemoryStorage) (h : s.Sound)
    (hc : s.lastTaskID + (countCreates calls : Int) ≤ maxInt) : (runCalls calls s).Sound := by
  induction calls generalizing s with
  | nil => exact h
  | cons c cs ih =>
    cases c with
    | create path fields =>
      simp only [countCreates, Nat.cast_succ] at hc
      have hlt : s.lastTaskID < maxInt := by unfold TaskID at *; omega
      obtain ⟨h1, h2⟩ := Create_sound s path fields h hlt
      simp only [runCalls, ServiceCall.run]
      apply ih _ h1
      rw [h2]
      unfold TaskID at *; omega
    | update path fields =>
      obtain ⟨h1, h2⟩ := Update_sound s path fields h
      simp only [runCalls, ServiceCall.run]
      apply ih _ h1
      rw [h2]
      simpa [countCreates] using hc
    | delete path =>
      obtain ⟨h1, h2⟩ := Delete_sound s path h
      simp only [runCalls, ServiceCall.run]
      apply ih _ h1
      rw [h2]
      simpa [countCreates] using hc

theorem NewTaskMemoryStorage_sound : NewTaskMemoryStorage.Sound := by
  refine ⟨rfl, ?_, ?_, le_rfl⟩
  · simp [NewTaskMemoryStorage, forestIDs]
  · simp [NewTaskMemoryStorage, forestIDs]

/-- Claim C3, amended. Forest-wide identifier uniqueness: in every state
reached from `NewTaskMemoryStorage()` by a sequence of `Create`, `Update` and
`Delete` calls of the service, successful or failing, of which at most
`2^63 - 1` are `Create` calls, the identifiers of all tasks of the forest,
roots and descendants at every depth, are pairwise distinct and none exceeds
`lastTaskID`. -/
theorem ids_unique_reachable (calls : List ServiceCall)
    (h : (countCreates calls : Int) ≤ maxInt) :
    (forestIDs (runCalls calls NewTaskMemoryStorage).storage).Nodup ∧
      ∀ id ∈ forestIDs (runCalls calls NewTaskMemoryStorage).storage,
        id ≤ (runCalls calls NewTaskMemoryStorage).lastTaskID := by
  have hS := runCalls_sound calls NewTaskMemoryStorage NewTaskMemoryStorage_sound
    (by simpa [NewTaskMemoryStorage] using h)
  exact ⟨hS.2.1, hS.2.2.1⟩

end Tasks

namespace Tasks
open TaskError

/-! ## The counter beyond the largest `int` -/

theorem wrapInt_add (y k : Int) : wrapInt (wrapInt y + k) = wrapInt (y + k) := by
  unfold wrapInt
  omega

theorem wrapInt_idem (y : Int) : wrapInt (wrapInt y) = wrapInt y := by
  unfold wrapInt
  omega

theorem Create_unresolved (s : TaskMemoryStorage) (a : TaskID) (rest : List TaskID)
    (fields : CreateFields) (h : mapGet a s.storage = none) :
    (TaskStorageService.Create s (a :: rest) fields).1 =
      ⟨s.storage, wrapInt (s.lastTaskID + 1)⟩ := by
  rw [Create_fst]
  simp [TaskMemoryStorage.Insert, TaskMemoryStorage.NextTaskID, TaskMemoryStorage.search, h]

theorem runCalls_cons (c : ServiceCall) (cs : List ServiceCall) (s : TaskMemoryStorage) :
    runCalls (c :: cs) s = runCalls cs (c.run s) := rfl

theorem runCalls_append (l1 l2 : List ServiceCall) (s : TaskMemoryStorage) :
    runCalls (l1 ++ l2) s = runCalls l2 (runCalls l1 s) := by
  induction l1 generalizing s with
  | nil => rfl
  | cons c cs ih => exact ih _

theorem runCalls_replicate_unresolved (n : Nat) (s : TaskMemoryStorage) (a : TaskID)
    (fields : CreateFields) (h : mapGet a s.storage = none)
    (hw : wrapInt s.lastTaskID = s.lastTaskID) :
    runCalls (List.replicate n (.create [a] fields)) s =
      ⟨s.storage, wrapInt (s.lastTaskID + (n : Int))⟩ := by
  induction n generalizing s with
  | zero => simp [runCalls, hw]
  | succ n ih =>
    simp only [List.replicate_succ, runCalls, ServiceCall.run]
    rw [Create_unresolved s a [] fields h]
    have h1 := ih ⟨s.storage, wrapInt (s.lastTaskID + 1)⟩ h (wrapInt_idem _)
    rw [h1]
    simp only [wrapInt_add, TaskMemoryStorage.mk.injEq, true_and]
    congr 1
    push_cast
    ring

/-- Claim C3 as stated is refuted. After one `Create` at the root and
`2^63 - 1` failing `Create` calls the counter has wrapped around to the
smallest `int`, below the identifier 1 stored in the forest; after
`2^64 - 1` failing calls it stands at 0 again and the next `Create`, under the
root 1, stores a second task with the identifier 1. -/
theorem ids_unique_fails_after_wrap :
    (¬ ∀ id ∈ forestIDs (runCalls Fixture.callsWrap NewTaskMemoryStorage).storage,
        id ≤ (runCalls Fixture.callsWrap NewTaskMemoryStorage).lastTaskID) ∧
    ¬ (forestIDs (runCalls Fixture.callsRepeat NewTaskMemoryStorage).storage).Nodup := by
  have h0 : (ServiceCall.create [] ⟨"foo"⟩).run NewTaskMemoryStorage =
      ⟨[(1, Task.mk 1 "foo" false (some []))], 1⟩ := by
    simp [ServiceCall.run, TaskStorageService.Create, TaskMemoryStorage.NextTaskID,
      TaskMemoryStorage.Insert, NewTaskMemoryStorage, wrapInt, mapSet, Task.ID]
  have hg : mapGet 0 [((1 : TaskID), Task.mk 1 "foo" false (some []))] = none := by
    simp [mapGet]
  have hw : wrapInt (1 : Int) = 1 := by
    simp [wrapInt]
  constructor
  · rw [Fixture.callsWrap, runCalls_cons, h0, runCalls_replicate_unresolved _ _ 0 _ hg hw]
    have h1 : wrapInt (1 + ((2 ^ 63 - 1 : Nat) : Int)) = -9223372036854775808 := by
      simp [wrapInt]
    simp only [h1]
    simp [forestIDs, Task.ids]
  · rw [Fixture.callsRepeat, runCalls_cons, h0, runCalls_append,
      runCalls_replicate_unresolved _ _ 0 _ hg hw]
    have h1 : wrapInt (1 + ((2 ^ 64 - 1 : Nat) : Int)) = 0 := by
      simp [wrapInt]
    simp only [h1, runCalls]
    simp [ServiceCall.run, TaskStorageService.Create, TaskMemoryStorage.NextTaskID,
      TaskMemoryStorage.Insert, TaskMemoryStorage.search, mapGet, searchFrom, modifyAt,
      mapModify, modifyFrom, addChild, Task.setChildren, Task.Children, SubTasks.entries,
      mapSet, Task.ID, wrapInt, forestIDs, Task.ids]

end Tasks

namespace Tasks
open TaskError

/-! ## The theorems at stores of the test suite -/

/-- Claim C1 at the store `{3: t3}`: after `Insert([3], t1)` has returned nil,
`Find([3, 1])` returns `t1`. -/
theorem insert_find_roundtrip_witness :
    (Fixture.store3.Insert [3] Fixture.t1).2 = none ∧
      (Fixture.store3.Insert [3] Fixture.t1).1.Find ([3] ++ [Fixture.t1.ID]) =
        (Fixture.t1, none) :=
  ⟨rfl, insert_find_roundtrip Fixture.store3 (Fixture.store3.Insert [3] Fixture.t1).1 [3]
    Fixture.t1 rfl (List.cons_ne_nil _ _) ⟨Fixture.t3, rfl⟩ rfl⟩

/-- Claim C2 at concrete stores: in `{3: t3}` the path `[3, 9]` fails with
`ErrTaskNotFound` because 9 is not the identifier of a child of the node `[3]`
resolves to, and `Find([999])` on a new store fails with `ErrTaskNotFound`. -/
theorem find_resolution_witness :
    (Fixture.store3.Find [3, 9]).2 = some ErrTaskNotFound ∧
      NewTaskMemoryStorage.Find [999] = (Task.zero, some ErrTaskNotFound) :=
  ⟨((find_resolution Fixture.store3 [3, 9]).2.1 3 [9] rfl).mpr
      (Or.inr ⟨[], 9, [], Fixture.t3, rfl, rfl, by
        simp [Fixture.t3, Fixture.t2, Task.Children, SubTasks.entries, Task.ID]⟩),
    (find_resolution NewTaskMemoryStorage [999]).2.2.2.2 rfl (List.cons_ne_nil _ _)⟩

/-- Claim C3, amended, at the calls `Create([], foo)`, `Create([1], baz)`,
`Create([7], bar)`, `Update([1, 2], completed)`, `Delete([1])`. -/
theorem ids_unique_reachable_witness :
    (forestIDs (runCalls
        [.create [] ⟨"foo"⟩, .create [1] ⟨"baz"⟩, .create [7] ⟨"bar"⟩,
          .update [1, 2] ⟨none, some true⟩, .delete [1]]
        NewTaskMemoryStorage).storage).Nodup ∧
      ∀ id ∈ forestIDs (runCalls
          [.create [] ⟨"foo"⟩, .create [1] ⟨"baz"⟩, .create [7] ⟨"bar"⟩,
            .update [1, 2] ⟨none, some true⟩, .delete [1]]
          NewTaskMemoryStorage).storage,
        id ≤ (runCalls
          [.create [] ⟨"foo"⟩, .create [1] ⟨"baz"⟩, .create [7] ⟨"bar"⟩,
            .update [1, 2] ⟨none, some true⟩, .delete [1]]
          NewTaskMemoryStorage).lastTaskID :=
  ids_unique_reachable _ (by simp [countCreates, maxInt])

/-- Claim C4, amended, at a new storage: the first call returns 1. -/
theorem nextTaskID_sequential_witness :
    (NewTaskMemoryStorage.NextTaskID).2 = NewTaskMemoryStorage.lastTaskID + 1 ∧
      (NewTaskMemoryStorage.NextTaskID).2 = 1 :=
  ⟨(nextTaskID_sequential NewTaskMemoryStorage (by simp [minInt, NewTaskMemoryStorage])
      (by simp [maxInt, NewTaskMemoryStorage])).1, by
    simp [TaskMemoryStorage.NextTaskID, NewTaskMemoryStorage, wrapInt]⟩

/-- Claim C5, amended, at the store `{1: t1}` and the task `t1` with another
label: `Update([5], ...)` replaces the root stored under 1. -/
theorem root_update_by_task_id_witness :
    (Fixture.store1.Update [5] (Fixture.t1.setLabel "bar")).2 = none ∧
      mapGet 1 (Fixture.store1.Update [5] (Fixture.t1.setLabel "bar")).1.storage =
        some (Fixture.t1.setLabel "bar") :=
  ⟨((root_update_by_task_id Fixture.store1 5 (Fixture.t1.setLabel "bar")).2.2
      Fixture.t1 rfl).1,
    ((root_update_by_task_id Fixture.store1 5 (Fixture.t1.setLabel "bar")).2.2
      Fixture.t1 rfl).2.1⟩

/-- Claim C6 at the store `{3: t3}`: `Update([3, 2], t1)` returns nil, the root
3 then holds `t1` under 1 and still holds under 2 what it held before. -/
theorem update_upsert_witness :
    (Fixture.store3.Update ([3] ++ [2]) Fixture.t1).2 = none ∧
      mapGet Fixture.t1.ID (addChild Fixture.t1 Fixture.t3).Children.entries =
        some Fixture.t1 ∧
      mapGet 2 (addChild Fixture.t1 Fixture.t3).Children.entries =
        mapGet 2 Fixture.t3.Children.entries :=
  ⟨((update_upsert Fixture.store3 [3] 2 Fixture.t1 (List.cons_ne_nil _ _)).2.2
      Fixture.t3 rfl).1,
    ((update_upsert Fixture.store3 [3] 2 Fixture.t1 (List.cons_ne_nil _ _)).2.2
      Fixture.t3 rfl).2.2.1,
    ((update_upsert Fixture.store3 [3] 2 Fixture.t1 (List.cons_ne_nil _ _)).2.2
      Fixture.t3 rfl).2.2.2 (by decide)⟩

/-- Claim C7 at the stores of the tests: `Delete([1])` on `{2: t2}` fails with
`ErrTaskNotFound`, `Delete([3, 7])` on `{3: t3}` returns nil, and neither
changes the store. -/
theorem delete_asymmetry_witness :
    Fixture.store2.Delete [1] = (Fixture.store2, some ErrTaskNotFound) ∧
      Fixture.store3.Delete ([3] ++ [7]) = (Fixture.store3, none) :=
  ⟨(delete_asymmetry Fixture.store2).1 1 rfl,
    (delete_asymmetry Fixture.store3).2.1 [3] 7 Fixture.t3 (List.cons_ne_nil _ _) rfl rfl⟩

/-- Claim C8 at the store `{3: t3}`: after `Delete([3, 2])`, `Find([3, 2])`
fails with `ErrTaskNotFound`. -/
theorem delete_subtree_witness :
    (Fixture.store3.Delete [3, 2]).2 = none ∧
      (Fixture.store3.Delete [3, 2]).1.Find ([3, 2] ++ []) =
        (Task.zero, some ErrTaskNotFound) :=
  ⟨rfl, (delete_subtree Fixture.store3 (Fixture.store3.Delete [3, 2]).1 [3, 2] rfl
    ⟨Fixture.t2, rfl⟩ rfl).1 []⟩

/-- Claim C9 at the store `{3: t3}`: `Insert([3], t2)` returns nil although the
root 3 already holds a child under 2, and `Insert([2], t1)` on an empty store
fails with `ErrTaskNotFound`. -/
theorem insert_lenient_witness :
    (Fixture.store3.Insert [3] Fixture.t2).2 = none ∧
      NewTaskMemoryStorage.Insert [2] Fixture.t1 =
        (NewTaskMemoryStorage, some ErrTaskNotFound) :=
  ⟨((insert_lenient Fixture.store3 Fixture.t2).2.2 [3] Fixture.t3
      (List.cons_ne_nil _ _) rfl).1,
    ((insert_lenient NewTaskMemoryStorage Fixture.t1).2.1 [2] (List.cons_ne_nil _ _)).2
      (by simp [TaskMemoryStorage.Insert, TaskMemoryStorage.search, NewTaskMemoryStorage,
        mapGet])⟩

/-- Claim C10 at the store `{1: t1}`. -/
theorem empty_path_rejected_witness :
    Fixture.store1.Update [] Fixture.t1 = (Fixture.store1, some ErrTaskPathNotValid) ∧
      TaskStorageService.Delete Fixture.store1 [] =
        (Fixture.store1, Task.zero, some ErrTaskPathNotValid) :=
  ⟨(empty_path_rejected Fixture.store1 Fixture.t1 ⟨none, none⟩).1,
    (empty_path_rejected Fixture.store1 Fixture.t1 ⟨none, none⟩).2.2.2⟩

end Tasks

namespace Tasks
open TaskError

/-! ## Listing the roots -/

/-- Claim C11. `FindAll` is total: it returns a nil error and a list with
exactly one element per root entry, the task of that entry with its whole
subtree, none twice and none left out; on a new store and on a store without
roots the list is empty. -/
theorem findAll_total (s : TaskMemoryStorage) :
    (s.FindAll).2 = none ∧
    (s.FindAll).1.length = s.storage.length ∧
    (∀ i (h : i < s.storage.length), (s.FindAll).1[i]? = some (s.storage.get ⟨i, h⟩).2) ∧
    (∀ k t, mapGet k s.storage = some t → t ∈ (s.FindAll).1) ∧
    (∀ t ∈ (s.FindAll).1, ∃ k, (k, t) ∈ s.storage) ∧
    (s.storage = [] → s.FindAll = ([], none)) ∧
    NewTaskMemoryStorage.FindAll = ([], none) := by
  refine ⟨rfl, by simp [TaskMemoryStorage.FindAll], ?_, ?_, ?_, ?_, rfl⟩
  · intro i h
    simp [TaskMemoryStorage.FindAll, List.getElem?_map, List.getElem?_eq_getElem h]
  · intro k t hk
    simp only [TaskMemoryStorage.FindAll, List.mem_map]
    exact ⟨(k, t), mapGet_mem hk, rfl⟩
  · intro t ht
    simp only [TaskMemoryStorage.FindAll, List.mem_map] at ht
    obtain ⟨⟨k, t'⟩, hm, rfl⟩ := ht
    exact ⟨k, hm⟩
  · intro h
    simp [TaskMemoryStorage.FindAll, h]

/-! ## Validation -/

theorem utf8Size_of_ascii {c : Char} (h : c.toNat < 128) : c.utf8Size = 1 := by
  have h1 : c.val ≤ 127 := by
    show c.val.toNat ≤ 127
    have : c.val.toNat = c.toNat := rfl
    omega
  simp only [Char.utf8Size]
  split_ifs with h2 <;> first | rfl | exact absurd h1 h2

theorem utf8ByteSize_go_of_ascii (cs : List Char) (h : ∀ c ∈ cs, c.toNat < 128) :
    String.utf8ByteSize.go cs = cs.length := by
  induction cs with
  | nil => rfl
  | cons c r ih =>
    simp only [String.utf8ByteSize.go, List.length_cons]
    rw [ih (fun c hc => h c (List.mem_cons_of_mem _ hc)),
      utf8Size_of_ascii (h c (List.mem_cons_self _ _))]

theorem goLen_of_ascii (l : String) (h : ∀ c ∈ l.toList, c.toNat < 128) :
    goLen l = l.length := by
  obtain ⟨cs⟩ := l
  exact utf8ByteSize_go_of_ascii cs h

/-- Claim C16 as stated is refuted. A label of 51 characters, each of two
bytes, is present and 1 to 100 characters long, yet `Validate` returns
`ErrTaskLabelIsNotValid`. -/
theorem create_validate_counts_bytes :
    ¬ (CreateValidator.Validate ⟨some Fixture.label51, none⟩ = none ↔
        ∃ l, (some Fixture.label51 : Option String) = some l ∧ 1 ≤ l.length ∧ l.length ≤ 100) := by
  intro h
  have h1 := h.mpr ⟨Fixture.label51, rfl, by decide, by decide⟩
  revert h1
  decide

/-- Claim C16, amended. `CreateValidator.Validate` returns nil exactly when
the label is present and 1 to 100 bytes long in UTF-8, which for a label of
ASCII characters is 1 to 100 characters; it returns `ErrTaskLabelIsRequired`
exactly when the label is absent and `ErrTaskLabelIsNotValid` exactly when the
label is present with fewer than 1 or more than 100 bytes; the completed field
never influences the result. -/
theorem create_validate_spec (t : JSONTask) :
    (CreateValidator.Validate t = none ↔
      ∃ l, t.Label = some l ∧ 1 ≤ goLen l ∧ goLen l ≤ 100) ∧
    (CreateValidator.Validate t = some ErrTaskLabelIsRequired ↔ t.Label = none) ∧
    (CreateValidator.Validate t = some ErrTaskLabelIsNotValid ↔
      ∃ l, t.Label = some l ∧ (goLen l < 1 ∨ 100 < goLen l)) ∧
    (∀ c, CreateValidator.Validate ⟨t.Label, c⟩ = CreateValidator.Validate t) ∧
    (∀ l, t.Label = some l → (∀ c ∈ l.toList, c.toNat < 128) →
      (CreateValidator.Validate t = none ↔ 1 ≤ l.length ∧ l.length ≤ 100)) := by
  obtain ⟨label, completed⟩ := t
  cases label with
  | none => simp [CreateValidator.Validate]
  | some l =>
    have key : (CreateValidator.Validate ⟨some l, completed⟩ = none ↔
        1 ≤ goLen l ∧ goLen l ≤ 100) := by
      simp only [CreateValidator.Validate]
      split_ifs with h
      · simp only [reduceCtorEq, false_iff]; omega
      · simp only [true_iff]; omega
    refine ⟨by simpa using key, by simp [CreateValidator.Validate], ?_, fun _ => rfl, ?_⟩
    · simp only [CreateValidator.Validate]
      split_ifs with h
      · simp only [true_iff]; exact ⟨l, rfl, by omega⟩
      · simp only [reduceCtorEq, Option.some.injEq, exists_eq_left', false_iff]; omega
    · intro l' hl' hascii
      simp only [Option.some.injEq] at hl'
      subst hl'
      rw [key, goLen_of_ascii l hascii]

/-- Claim C17 as stated is refuted. A label of 34 characters, each of three
bytes, is present with no fewer than 1 and no more than 100 characters, yet
`Validate` returns `ErrTaskLabelIsNotValid`. -/
theorem update_validate_counts_bytes :
    ¬ (UpdateValidator.Validate ⟨some Fixture.label34, some true⟩ = some ErrTaskLabelIsNotValid ↔
        ∃ l, (some Fixture.label34 : Option String) = some l ∧
          (l.length < 1 ∨ 100 < l.length)) := by
  intro h
  have h1 : UpdateValidator.Validate ⟨some Fixture.label34, some true⟩ =
      some ErrTaskLabelIsNotValid := by decide
  obtain ⟨l, hl, hlen⟩ := h.mp h1
  simp only [Option.some.injEq] at hl
  subst hl
  revert hlen
  decide

/-- Claim C17, amended. `UpdateValidator.Validate` returns
`ErrTaskLabelOrCompletedRequired` exactly when label and completed are both
absent; `ErrTaskLabelIsNotValid` exactly when the label is present with fewer
than 1 or more than 100 bytes in UTF-8, whether or not completed is present;
and nil in every other case, in particular when only completed is present.
For a label of ASCII characters the bytes are the characters. -/
theorem update_validate_spec (t : JSONTask) :
    (UpdateValidator.Validate t = some ErrTaskLabelOrCompletedRequired ↔
      t.Label = none ∧ t.Completed = none) ∧
    (UpdateValidator.Validate t = some ErrTaskLabelIsNotValid ↔
      ∃ l, t.Label = some l ∧ (goLen l < 1 ∨ 100 < goLen l)) ∧
    (UpdateValidator.Validate t = none ↔
      ¬ (t.Label = none ∧ t.Completed = none) ∧
        ¬ ∃ l, t.Label = some l ∧ (goLen l < 1 ∨ 100 < goLen l)) ∧
    (t.Label = none → t.Completed ≠ none → UpdateValidator.Validate t = none) ∧
    (∀ l, t.Label = some l → (∀ c ∈ l.toList, c.toNat < 128) →
      (UpdateValidator.Validate t = some ErrTaskLabelIsNotValid ↔
        (l.length < 1 ∨ 100 < l.length))) := by
  obtain ⟨label, completed⟩ := t
  cases label with
  | none =>
    cases completed <;> simp [UpdateValidator.Validate]
  | some l =>
    have key : (UpdateValidator.Validate ⟨some l, completed⟩ = some ErrTaskLabelIsNotValid ↔
        (goLen l < 1 ∨ 100 < goLen l)) := by
      simp only [UpdateValidator.Validate, Option.isNone_some, Bool.false_eq_true, false_and,
        if_false]
      split_ifs with h
      · simp only [true_iff]; omega
      · simp only [reduceCtorEq, false_iff]; omega
    refine ⟨by simp [UpdateValidator.Validate], by simpa using key, ?_,
      by simp, ?_⟩
    · simp only [UpdateValidator.Validate, Option.isNone_some, Bool.false_eq_true, false_and,
        if_false, reduceCtorEq, not_false_eq_true, true_and, Option.some.injEq,
        exists_eq_left']
      split_ifs with h
      · simp only [reduceCtorEq, false_iff, not_not]; omega
      · simp only [true_iff]; omega
    · intro l' hl' hascii
      simp only [Option.some.injEq] at hl'
      subst hl'
      rw [key, goLen_of_ascii l hascii]

end Tasks

namespace Tasks
open TaskError

/-! ## Reading back what a write stored -/

theorem Find_congr (s s' : TaskMemoryStorage) (h : s.storage = s'.storage)
    (path : List TaskID) : s.Find path = s'.Find path := by
  rw [Find_eq_search, Find_eq_search, search_congr s s' h]

theorem Find_root_mapSet (m : List (TaskID × Task)) (last : TaskID) (T : Task) :
    TaskMemoryStorage.Find ⟨mapSet T.ID T m, last⟩ [T.ID] = (T, none) := by
  simp [TaskMemoryStorage.Find, TaskMemoryStorage.search, mapGet_mapSet_self, searchFrom]

theorem Find_child_addChild (s : TaskMemoryStorage) (last : TaskID) (P : List TaskID)
    (T p : Task) (hkey : s.KeyedByID) (hp : s.search P = .ok p) :
    TaskMemoryStorage.Find ⟨modifyAt (addChild T) P s.storage, last⟩ (P ++ [T.ID]) =
      (T, none) := by
  cases P with
  | nil => cases hp
  | cons a rest =>
    have h1 := search_modifyAt (addChild T) (addChild_ID T) s (a :: rest) p hp
    rw [Find_eq_search, search_append,
      search_congr ⟨modifyAt (addChild T) (a :: rest) s.storage, last⟩
        ⟨modifyAt (addChild T) (a :: rest) s.storage, s.lastTaskID⟩ rfl, h1]
    simp only [searchFrom, addChild, Task.setChildren_Children, SubTasks.entries_some]
    rw [scanChildren_mapSet_keyed ((Task.keyed_iff p).mp (search_keyed hkey hp))]

theorem search_snoc_ok {s : TaskMemoryStorage} {P : List TaskID} {x : TaskID} {t : Task}
    (hP : P ≠ []) (h : s.search (P ++ [x]) = .ok t) :
    ∃ p, s.search P = .ok p ∧ scanChildren x p.Children.entries none = some t := by
  cases P with
  | nil => exact absurd rfl hP
  | cons a r =>
    rw [search_append] at h
    cases hp : s.search (a :: r) with
    | error e => rw [hp] at h; cases h
    | ok p =>
      rw [hp] at h
      simp only [searchFrom] at h
      cases hsc : scanChildren x p.Children.entries none with
      | none => rw [hsc] at h; cases h
      | some c =>
        rw [hsc] at h
        simp only [Except.ok.injEq] at h
        subst h
        exact ⟨p, rfl, hsc⟩

theorem storage_Update_after_search (s : TaskMemoryStorage) (P : List TaskID)
    (old new : Task) (hkey : s.KeyedByID) (hold : s.search P = .ok old)
    (hID : new.ID = old.ID) :
    (s.Update P new).2 = none ∧ (s.Update P new).1.Find P = (new, none) ∧
      (s.Update P new).1.lastTaskID = s.lastTaskID := by
  rcases List.eq_nil_or_concat P with rfl | ⟨P', x, rfl⟩
  · cases hold
  · rw [List.concat_eq_append] at hold ⊢
    cases P' with
    | nil =>
      simp only [List.nil_append, TaskMemoryStorage.search] at hold
      cases hm : mapGet x s.storage with
      | none => rw [hm] at hold; cases hold
      | some t =>
        rw [hm] at hold
        simp only [searchFrom, Except.ok.injEq] at hold
        subst hold
        have hx : new.ID = x := hID.trans (keyedEntries_mem hkey (mapGet_mem hm)).1
        simp only [List.nil_append, TaskMemoryStorage.Update, hx, hm, true_and, and_true]
        rw [← hx]
        exact Find_root_mapSet _ _ _
    | cons a r =>
      have hne : a :: r ≠ [] := List.cons_ne_nil _ _
      obtain ⟨p, hp, hsc⟩ := search_snoc_ok hne hold
      have hx : new.ID = x := hID.trans (scanChildren_some hsc).1
      rw [Update_snoc s (a :: r) x new hne, hp]
      simp only [true_and, and_true]
      rw [← hx]
      exact Find_child_addChild s _ (a :: r) new p hkey hp

theorem storage_Delete_after_search (s : TaskMemoryStorage) (P : List TaskID) (t : Task)
    (hkey : s.KeyedByID) (ht : s.search P = .ok t) :
    (s.Delete P).2 = none ∧ (s.Delete P).1.Find P = (Task.zero, some ErrTaskNotFound) ∧
      (s.Delete P).1.lastTaskID = s.lastTaskID := by
  rcases List.eq_nil_or_concat P with rfl | ⟨P', x, rfl⟩
  · cases ht
  · rw [List.concat_eq_append] at ht ⊢
    cases P' with
    | nil =>
      simp only [List.nil_append, TaskMemoryStorage.search] at ht
      cases hm : mapGet x s.storage with
      | none => rw [hm] at ht; cases ht
      | some t0 =>
        simp [TaskMemoryStorage.Delete, hm, TaskMemoryStorage.Find, TaskMemoryStorage.search,
          mapGet_mapErase_self]
    | cons a r =>
      have hne : a :: r ≠ [] := List.cons_ne_nil _ _
      obtain ⟨p, hp, _⟩ := search_snoc_ok hne ht
      rw [Delete_snoc s (a :: r) x hne, hp]
      simp only [true_and, and_true]
      have hs' := search_modifyAt (removeChild x) (removeChild_ID x) s (a :: r) p hp
      rw [Find_eq_search, search_append, hs']
      simp only [searchFrom, removeChild_entries]
      rw [scanChildren_mapErase_keyed ((Task.keyed_iff p).mp (search_keyed hkey hp))]

theorem search_not_ok {s : TaskMemoryStorage} {P : List TaskID} (hP : P ≠ [])
    (h : ∀ t, s.search P ≠ .ok t) : s.search P = .error ErrTaskNotFound := by
  cases hs : s.search P with
  | ok t => exact absurd hs (h t)
  | error e =>
    rcases search_error s P e hs with ⟨h1, _⟩ | ⟨_, h2⟩
    · exact absurd h1 hP
    · rw [h2]

theorem mergeFields_Label (t : Task) (fields : UpdateFields) :
    (TaskStorageService.mergeFields t fields).Label = fields.Label.getD t.Label := by
  obtain ⟨i, l, c, cs⟩ := t
  obtain ⟨fl, fc⟩ := fields
  cases fl <;> cases fc <;> rfl

theorem mergeFields_Completed (t : Task) (fields : UpdateFields) :
    (TaskStorageService.mergeFields t fields).Completed =
      fields.Completed.getD t.Completed := by
  obtain ⟨i, l, c, cs⟩ := t
  obtain ⟨fl, fc⟩ := fields
  cases fl <;> cases fc <;> rfl

theorem issuedIDs_wrap (n : Nat) (s : TaskMemoryStorage) :
    issuedIDs n s =
      (List.range n).map (fun (i : Nat) => wrapInt (s.lastTaskID + 1 + (i : Int))) := by
  induction n generalizing s with
  | zero => rfl
  | succ n ih =>
    rw [issuedIDs, ih, List.range_succ_eq_map]
    simp only [TaskMemoryStorage.NextTaskID, List.map_cons, List.map_map, Nat.cast_zero,
      add_zero, List.cons.injEq, true_and]
    apply List.map_congr_left
    intro i _
    simp only [Function.comp, Nat.cast_succ]
    rw [add_assoc (wrapInt (s.lastTaskID + 1)), wrapInt_add]
    congr 1
    ring

end Tasks

namespace Tasks
open TaskError

/-! ## The service calls -/

/-- Claim C12 as stated is refuted. With the counter at the largest `int`,
`Create([], foo)` on a store without tasks returns a task whose identifier is
the smallest `int`, not the previous `lastTaskID` plus one. -/
theorem create_id_wraps :
    Fixture.storeFull.KeyedByID ∧
    (TaskStorageService.Create Fixture.storeFull [] ⟨"foo"⟩).2.1.ID = -9223372036854775808 ∧
    (TaskStorageService.Create Fixture.storeFull [] ⟨"foo"⟩).2.1.ID ≠
      Fixture.storeFull.lastTaskID + 1 := by
  refine ⟨rfl, ?_, ?_⟩ <;>
    simp [TaskStorageService.Create, TaskMemoryStorage.NextTaskID, TaskMemoryStorage.Insert,
      Fixture.storeFull, wrapInt, Task.ID]

/-- Claim C12, amended. Service `Create` postcondition: in every store where
each task is stored under its own identifier, for a path `P` that is empty or
resolves and a label `L`, `Create(P, {L})` returns no error and the task with
`ID` the previous `lastTaskID` plus one in the arithmetic of `int`, label `L`,
not completed, an empty children map; the counter is then that `ID` and
`Find(P ++ [ID])` returns that task.  The `ID` is the integer
`lastTaskID + 1` while the counter is below the largest `int`, and the
smallest `int` when the counter is the largest.  On a new store
`Create([], foo)` returns `ID` 1 and a following `Create([1], baz)` returns
`ID` 2, found afterwards under `[1, 2]`. -/
theorem create_postcondition (s : TaskMemoryStorage) (P : List TaskID) (L : String)
    (hkey : s.KeyedByID) (hP : P = [] ∨ ∃ p, s.search P = .ok p) :
    (TaskStorageService.Create s P ⟨L⟩).2 =
      (Task.mk (wrapInt (s.lastTaskID + 1)) L false (some []), none) ∧
    (TaskStorageService.Create s P ⟨L⟩).1.lastTaskID = wrapInt (s.lastTaskID + 1) ∧
    (TaskStorageService.Create s P ⟨L⟩).1.Find (P ++ [wrapInt (s.lastTaskID + 1)]) =
      (Task.mk (wrapInt (s.lastTaskID + 1)) L false (some []), none) ∧
    (minInt ≤ s.lastTaskID → s.lastTaskID < maxInt →
      wrapInt (s.lastTaskID + 1) = s.lastTaskID + 1) ∧
    (s.lastTaskID = maxInt → wrapInt (s.lastTaskID + 1) = minInt) ∧
    (TaskStorageService.Create NewTaskMemoryStorage [] ⟨"foo"⟩).2 =
      (Task.mk 1 "foo" false (some []), none) ∧
    (TaskStorageService.Create
        (TaskStorageService.Create NewTaskMemoryStorage [] ⟨"foo"⟩).1 [1] ⟨"baz"⟩).2 =
      (Task.mk 2 "baz" false (some []), none) ∧
    (TaskStorageService.Create
        (TaskStorageService.Create NewTaskMemoryStorage [] ⟨"foo"⟩).1 [1] ⟨"baz"⟩).1.Find
        [1, 2] = (Task.mk 2 "baz" false (some []), none) := by
  refine ⟨?_, ?_, ?_, ?_, ?_, ?_, ?_, ?_⟩
  · simp only [TaskStorageService.Create, TaskMemoryStorage.NextTaskID]
    rcases hP with rfl | ⟨p, hp⟩
    · rfl
    · cases P with
      | nil => cases hp
      | cons a rest =>
        simp only [TaskMemoryStorage.Insert]
        rw [search_congr ⟨s.storage, wrapInt (s.lastTaskID + 1)⟩ s rfl, hp]
  · rw [Create_fst]
    simp only [TaskMemoryStorage.NextTaskID]
    cases P with
    | nil => rfl
    | cons a rest =>
      simp only [TaskMemoryStorage.Insert]
      cases TaskMemoryStorage.search ⟨s.storage, wrapInt (s.lastTaskID + 1)⟩ (a :: rest) <;> rfl
  · rw [Create_fst]
    simp only [TaskMemoryStorage.NextTaskID]
    rcases hP with rfl | ⟨p, hp⟩
    · exact Find_root_mapSet s.storage _ (Task.mk (wrapInt (s.lastTaskID + 1)) L false (some []))
    · cases P with
      | nil => cases hp
      | cons a rest =>
        simp only [TaskMemoryStorage.Insert]
        rw [search_congr ⟨s.storage, wrapInt (s.lastTaskID + 1)⟩ s rfl, hp]
        exact Find_child_addChild s _ (a :: rest)
          (Task.mk (wrapInt (s.lastTaskID + 1)) L false (some [])) p hkey hp
  · intro h1 h2
    apply wrapInt_of_range <;> unfold TaskID at * <;> omega
  · intro h
    rw [h]
    unfold wrapInt maxInt minInt
    norm_num
  · simp [TaskStorageService.Create, TaskMemoryStorage.NextTaskID, TaskMemoryStorage.Insert,
      NewTaskMemoryStorage, wrapInt]
  · simp [TaskStorageService.Create, TaskMemoryStorage.NextTaskID, TaskMemoryStorage.Insert,
      NewTaskMemoryStorage, wrapInt, TaskMemoryStorage.search, mapSet, mapGet, searchFrom,
      Task.ID]
  · simp [TaskStorageService.Create, TaskMemoryStorage.NextTaskID, TaskMemoryStorage.Insert,
      NewTaskMemoryStorage, wrapInt, TaskMemoryStorage.search, mapSet, mapGet, searchFrom,
      Task.ID, TaskMemoryStorage.Find, modifyAt, mapModify, modifyFrom, addChild,
      Task.setChildren, Task.Children, SubTasks.entries, scanChildren]

/-- Claim C13 as stated is refuted. With the counter at the largest `int` a
failed `Create` leaves it at the smallest `int`, not one further; and the
identifier 1, consumed by a failed `Create` on a new store, is returned again
by the last of the next `2^64` calls of `NextTaskID`. -/
theorem failed_create_wraps :
    (TaskStorageService.Create Fixture.storeFull [5] ⟨"foo"⟩).2.2 = some ErrTaskNotFound ∧
    (TaskStorageService.Create Fixture.storeFull [5] ⟨"foo"⟩).1.lastTaskID ≠
      Fixture.storeFull.lastTaskID + 1 ∧
    (TaskStorageService.Create NewTaskMemoryStorage [5] ⟨"foo"⟩).1.lastTaskID = 1 ∧
    (1 : TaskID) ∈
      issuedIDs (2 ^ 64) (TaskStorageService.Create NewTaskMemoryStorage [5] ⟨"foo"⟩).1 := by
  have hc : (TaskStorageService.Create NewTaskMemoryStorage [5] ⟨"foo"⟩).1 = ⟨[], 1⟩ := by
    rw [Create_unresolved NewTaskMemoryStorage 5 [] _ rfl]
    simp [NewTaskMemoryStorage, wrapInt]
  refine ⟨?_, ?_, ?_, ?_⟩
  · simp [TaskStorageService.Create, TaskMemoryStorage.NextTaskID, TaskMemoryStorage.Insert,
      Fixture.storeFull, TaskMemoryStorage.search, mapGet]
  · rw [Create_unresolved Fixture.storeFull 5 [] _ rfl]
    simp [Fixture.storeFull, wrapInt]
  · rw [hc]
  · rw [hc, issuedIDs_wrap, List.mem_map]
    refine ⟨2 ^ 64 - 1, List.mem_range.mpr (by norm_num), ?_⟩
    simp [wrapInt]

/-- Claim C13, amended. A failed `Create` is atomic on the tree and leaves an
identifier gap: for every store and every non-empty path `P` that does not
resolve, `Create(P, fields)` returns the zero `Task` with `ErrTaskNotFound`,
every `Find` and `FindAll` gives what it gave before, and `lastTaskID` has
advanced by one in the arithmetic of `int` (to the integer `lastTaskID + 1`
while the counter is below the largest `int`); the identifier so consumed is
below every identifier that later calls of `NextTaskID` return while the
counter stays within `int`, so it is not issued again before the counter
wraps around. -/
theorem failed_create_gap (s : TaskMemoryStorage) (P : List TaskID) (fields : CreateFields)
    (hP : P ≠ []) (hres : ∀ p, s.search P ≠ .ok p) :
    TaskStorageService.Create s P fields =
      (⟨s.storage, wrapInt (s.lastTaskID + 1)⟩, Task.zero, some ErrTaskNotFound) ∧
    (∀ Q, (TaskStorageService.Create s P fields).1.Find Q = s.Find Q) ∧
    (TaskStorageService.Create s P fields).1.FindAll = s.FindAll ∧
    (minInt ≤ s.lastTaskID → s.lastTaskID < maxInt →
      (TaskStorageService.Create s P fields).1.lastTaskID = s.lastTaskID + 1) ∧
    (∀ n : Nat, wrapInt (s.lastTaskID + 1) + (n : Int) ≤ maxInt →
      ∀ id ∈ issuedIDs n (TaskStorageService.Create s P fields).1,
        wrapInt (s.lastTaskID + 1) < id) := by
  have hc : TaskStorageService.Create s P fields =
      (⟨s.storage, wrapInt (s.lastTaskID + 1)⟩, Task.zero, some ErrTaskNotFound) := by
    cases P with
    | nil => exact absurd rfl hP
    | cons a rest =>
      simp only [TaskStorageService.Create, TaskMemoryStorage.NextTaskID,
        TaskMemoryStorage.Insert]
      rw [search_congr ⟨s.storage, wrapInt (s.lastTaskID + 1)⟩ s rfl, search_not_ok hP hres]
  rw [hc]
  refine ⟨rfl, fun Q => Find_congr _ _ rfl Q, rfl, ?_, ?_⟩
  · intro h1 h2
    show wrapInt (s.lastTaskID + 1) = s.lastTaskID + 1
    apply wrapInt_of_range <;> unfold TaskID at * <;> omega
  · intro n hn id hid
    rw [issuedIDs_of_le n ⟨s.storage, wrapInt (s.lastTaskID + 1)⟩ (wrapInt_range _).1 hn,
      List.mem_map] at hid
    obtain ⟨i, _, rfl⟩ := hid
    show wrapInt (s.lastTaskID + 1) < wrapInt (s.lastTaskID + 1) + 1 + (i : Int)
    omega

/-- Claim C14 as stated is refuted. The empty path does not resolve in the
store of one root, yet `Update([], fields)` fails with `ErrTaskPathNotValid`,
not with `ErrTaskNotFound`. -/
theorem update_empty_path_error :
    (∀ t, Fixture.store1.search [] ≠ .ok t) ∧
    (TaskStorageService.Update Fixture.store1 [] ⟨none, some true⟩).2.2 =
      some ErrTaskPathNotValid ∧
    (TaskStorageService.Update Fixture.store1 [] ⟨none, some true⟩).2.2 ≠
      some ErrTaskNotFound := by
  refine ⟨?_, rfl, ?_⟩
  · intro t h
    cases h
  · simp [TaskStorageService.Update, TaskMemoryStorage.Find]

/-- Claim C14, amended. Partial update merge: in a store where each task is
stored under its own identifier, when `P` resolves to `old`, `Update(P, f)`
returns no error and a task with the `ID` and the children of `old`, the label
of `f` if set, else that of `old`, the completed flag of `f` if set, else that
of `old`; afterwards `Find(P)` returns that task and the counter is as before.
When `P` is not empty and does not resolve the call fails with
`ErrTaskNotFound`, when `P` is empty with `ErrTaskPathNotValid`, and in both
cases the store is unchanged. -/
theorem partial_update_merge (s : TaskMemoryStorage) (P : List TaskID) (f : UpdateFields)
    (hkey : s.KeyedByID) :
    (∀ old, s.search P = .ok old →
      (TaskStorageService.Update s P f).2.2 = none ∧
        (TaskStorageService.Update s P f).2.1.ID = old.ID ∧
        (TaskStorageService.Update s P f).2.1.Children = old.Children ∧
        (TaskStorageService.Update s P f).2.1.Label = f.Label.getD old.Label ∧
        (TaskStorageService.Update s P f).2.1.Completed = f.Completed.getD old.Completed ∧
        (TaskStorageService.Update s P f).1.Find P =
          ((TaskStorageService.Update s P f).2.1, none) ∧
        (TaskStorageService.Update s P f).1.lastTaskID = s.lastTaskID) ∧
    (P ≠ [] → (∀ t, s.search P ≠ .ok t) →
      TaskStorageService.Update s P f = (s, Task.zero, some ErrTaskNotFound)) ∧
    (P = [] → TaskStorageService.Update s P f = (s, Task.zero, some ErrTaskPathNotValid)) := by
  refine ⟨?_, ?_, ?_⟩
  · intro old hold
    obtain ⟨h1, h2, h3⟩ := storage_Update_after_search s P old
      (TaskStorageService.mergeFields old f) hkey hold (mergeFields_ID old f)
    have hu : TaskStorageService.Update s P f =
        ((s.Update P (TaskStorageService.mergeFields old f)).1,
          TaskStorageService.mergeFields old f, none) := by
      simp only [TaskStorageService.Update, Find_eq_search, hold]
      rcases hr : s.Update P (TaskStorageService.mergeFields old f) with ⟨s1, _ | e⟩
      · rfl
      · rw [hr] at h1; cases h1
    rw [hu]
    exact ⟨rfl, mergeFields_ID old f, mergeFields_Children old f, mergeFields_Label old f,
      mergeFields_Completed old f, h2, h3⟩
  · intro hP hres
    simp only [TaskStorageService.Update, Find_eq_search, search_not_ok hP hres]
  · rintro rfl
    rfl

/-- Claim C15. Service `Delete` returns the snapshot taken before the deletion
and never succeeds silently: in a store where each task is stored under its
own identifier, for a non-empty path `P`, it fails with `ErrTaskNotFound` and
changes nothing whenever `P` does not resolve, also when only the last element
of `P` matches no child of the node before it; when `P` resolves to `t` it
returns `t` as it was, and afterwards `Find(P)` fails with
`ErrTaskNotFound`. -/
theorem service_delete_snapshot (s : TaskMemoryStorage) (P : List TaskID)
    (hkey : s.KeyedByID) (hP : P ≠ []) :
    ((∀ t, s.search P ≠ .ok t) →
      TaskStorageService.Delete s P = (s, Task.zero, some ErrTaskNotFound)) ∧
    (∀ P' x p, P = P' ++ [x] → s.search P' = .ok p →
      (∀ c ∈ p.Children.entries, c.2.ID ≠ x) →
      TaskStorageService.Delete s P = (s, Task.zero, some ErrTaskNotFound)) ∧
    (∀ t, s.search P = .ok t →
      (TaskStorageService.Delete s P).2 = (t, none) ∧
        (TaskStorageService.Delete s P).1.Find P = (Task.zero, some ErrTaskNotFound) ∧
        (TaskStorageService.Delete s P).1.lastTaskID = s.lastTaskID) := by
  have hfail : (∀ t, s.search P ≠ .ok t) →
      TaskStorageService.Delete s P = (s, Task.zero, some ErrTaskNotFound) := by
    intro hres
    simp only [TaskStorageService.Delete, Find_eq_search, search_not_ok hP hres]
  refine ⟨hfail, ?_, ?_⟩
  · rintro P' x p rfl hp hx
    apply hfail
    intro t ht
    cases P' with
    | nil => cases hp
    | cons a r =>
      rw [search_append, hp] at ht
      simp only [searchFrom, scanChildren_eq_none.mpr hx] at ht
      cases ht
  · intro t ht
    obtain ⟨h1, h2, h3⟩ := storage_Delete_after_search s P t hkey ht
    have hd : TaskStorageService.Delete s P = ((s.Delete P).1, t, none) := by
      simp only [TaskStorageService.Delete, Find_eq_search, ht]
      rcases hr : s.Delete P with ⟨s1, _ | e⟩
      · rfl
      · rw [hr] at h1; cases h1
    rw [hd]
    exact ⟨rfl, h2, h3⟩

end Tasks

namespace Tasks
open HTTPError

/-! ## Decimal digits -/

theorem digitChar_toNat {d : Nat} (h : d < 10) : (digitChar d).toNat = d + 48 := by
  interval_cases d <;> rfl

theorem isASCIIDigit_digitChar {d : Nat} (h : d < 10) : isASCIIDigit (digitChar d) = true := by
  simp only [isASCIIDigit, digitChar_toNat h, decide_eq_true_eq]
  omega

theorem isASCIIDigit_ne {c : Char} (h : isASCIIDigit c = true) :
    c ≠ '/' ∧ c ≠ '-' ∧ c ≠ '+' := by
  simp only [isASCIIDigit, decide_eq_true_eq] at h
  refine ⟨?_, ?_, ?_⟩ <;>
  · rintro rfl
    revert h
    decide

theorem decimalFuel_indep (f1 f2 n : Nat) (h1 : n < f1) (h2 : n < f2) :
    decimalFuel f1 n = decimalFuel f2 n := by
  induction f1 generalizing f2 n with
  | zero => omega
  | succ f1 ih =>
    cases f2 with
    | zero => omega
    | succ f2 =>
      simp only [decimalFuel]
      split_ifs with h
      · rfl
      · rw [ih f2 (n / 10) (by omega) (by omega)]

theorem decimalNat_eq (n : Nat) :
    decimalNat n =
      if n < 10 then [digitChar n] else decimalNat (n / 10) ++ [digitChar (n % 10)] := by
  conv_lhs => rw [decimalNat, decimalFuel]
  split_ifs with h
  · rfl
  · rw [decimalNat, decimalFuel_indep n (n / 10 + 1) (n / 10) (by omega) (by omega)]

theorem decimalNat_ne_nil (n : Nat) : decimalNat n ≠ [] := by
  rw [decimalNat_eq]
  split_ifs <;> simp

theorem decimalNat_digits (n : Nat) : ∀ c ∈ decimalNat n, isASCIIDigit c = true := by
  induction n using Nat.strong_induction_on with
  | _ n ih =>
    rw [decimalNat_eq]
    split_ifs with h
    · intro c hc
      simp only [List.mem_singleton] at hc
      subst hc
      exact isASCIIDigit_digitChar h
    · intro c hc
      rcases List.mem_append.mp hc with hc | hc
      · exact ih (n / 10) (by omega) c hc
      · simp only [List.mem_singleton] at hc
        subst hc
        exact isASCIIDigit_digitChar (Nat.mod_lt _ (by decide))

theorem decimalNat_value (n : Nat) :
    (decimalNat n).foldl (fun acc c => acc * 10 + (c.toNat - 48)) 0 = n := by
  induction n using Nat.strong_induction_on with
  | _ n ih =>
    rw [decimalNat_eq]
    split_ifs with h
    · simp [digitChar_toNat h]
    · rw [List.foldl_append, ih (n / 10) (by omega)]
      simp only [List.foldl_cons, List.foldl_nil,
        digitChar_toNat (Nat.mod_lt n (by decide : 0 < 10))]
      omega

/-! ## The model of `strconv.Atoi` against the decimal numerals -/

theorem parseDigits_eq (ds : List Char) (acc : Nat) :
    parseDigits ds acc =
      if ds.all isASCIIDigit then
        some (ds.foldl (fun acc c => acc * 10 + (c.toNat - 48)) acc)
      else none := by
  induction ds generalizing acc with
  | nil => rfl
  | cons c r ih =>
    simp only [parseDigits, digitVal, List.all_cons, List.foldl_cons]
    cases hc : isASCIIDigit c with
    | false => simp
    | true => simp [ih]

theorem Atoi_eq_some_iff (s : List Char) (v : Int) :
    Atoi s = some v ↔ isDecimalInt s = true ∧ decimalValue s = v := by
  cases s with
  | nil => simp [Atoi, isDecimalInt, unsignedPart]
  | cons c rest =>
    simp only [Atoi, isDecimalInt, decimalValue, unsignedPart, List.head?_cons,
      Option.some.injEq]
    cases hd : (if c = '-' ∨ c = '+' then rest else c :: rest) with
    | nil => simp
    | cons d ds =>
      simp only [parseDigits_eq]
      cases hall : (d :: ds).all isASCIIDigit with
      | false => simp
      | true =>
        simp only [if_true, List.isEmpty_cons, Bool.not_false, Bool.true_and,
          Bool.and_eq_true, decide_eq_true_eq]
        by_cases hneg : c = '-'
        · simp only [hneg, if_true]
          split_ifs with hr
          · simp only [Option.some.injEq]
            exact ⟨fun h => ⟨hr, h⟩, fun h => h.2⟩
          · simp only [reduceCtorEq, false_iff, not_and]
            intro h
            exact absurd h hr
        · simp only [hneg, if_false]
          split_ifs with hr
          · simp only [Option.some.injEq]
            exact ⟨fun h => ⟨hr, h⟩, fun h => h.2⟩
          · simp only [reduceCtorEq, false_iff, not_and]
            intro h
            exact absurd h hr

theorem Atoi_eq_none_iff (s : List Char) : Atoi s = none ↔ isDecimalInt s = false := by
  constructor
  · intro h
    cases hd : isDecimalInt s with
    | false => rfl
    | true =>
      have := (Atoi_eq_some_iff s (decimalValue s)).mpr ⟨hd, rfl⟩
      rw [h] at this
      cases this
  · intro h
    cases ha : Atoi s with
    | none => rfl
    | some v =>
      have := ((Atoi_eq_some_iff s v).mp ha).1
      rw [h] at this
      cases this

theorem Atoi_range {s : List Char} {v : Int} (h : Atoi s = some v) :
    minInt ≤ v ∧ v ≤ maxInt := by
  obtain ⟨h1, h2⟩ := (Atoi_eq_some_iff s v).mp h
  simp only [isDecimalInt, Bool.and_eq_true, decide_eq_true_eq] at h1
  rw [← h2]
  exact ⟨h1.1.2, h1.2⟩

theorem decimal_ne_nil (v : Int) : decimal v ≠ [] := by
  unfold decimal
  split_ifs
  · exact decimalNat_ne_nil _
  · simp

theorem decimal_no_slash (v : Int) : '/' ∉ decimal v := by
  unfold decimal
  split_ifs
  · intro h
    exact (isASCIIDigit_ne (decimalNat_digits _ _ h)).1 rfl
  · intro h
    rcases List.mem_cons.mp h with h | h
    · revert h; decide
    · exact (isASCIIDigit_ne (decimalNat_digits _ _ h)).1 rfl

theorem Atoi_decimal (v : Int) (h1 : minInt ≤ v) (h2 : v ≤ maxInt) :
    Atoi (decimal v) = some v := by
  rw [Atoi_eq_some_iff]
  unfold decimal
  split_ifs with hv
  · obtain ⟨c, cs, hcs⟩ := List.exists_cons_of_ne_nil (decimalNat_ne_nil v.toNat)
    have hc : isASCIIDigit c = true :=
      decimalNat_digits v.toNat c (by rw [hcs]; exact List.mem_cons_self _ _)
    obtain ⟨_, hm, hp⟩ := isASCIIDigit_ne hc
    have hall : (c :: cs).all isASCIIDigit = true := by
      rw [← hcs, List.all_eq_true]
      exact decimalNat_digits v.toNat
    have hval : decimalValue (c :: cs) = v := by
      simp only [decimalValue, unsignedPart, hm, hp, or_self, if_false, List.head?_cons,
        Option.some.injEq]
      rw [← hcs, decimalNat_value]
      omega
    rw [hcs]
    refine ⟨?_, hval⟩
    simp only [isDecimalInt, hval, Bool.and_eq_true, decide_eq_true_eq]
    refine ⟨⟨⟨?_, ?_⟩, h1⟩, h2⟩
    · simp [unsignedPart, hm, hp]
    · simpa [unsignedPart, hm, hp] using hall
  · have hval : decimalValue ('-' :: decimalNat (-v).toNat) = v := by
      simp only [decimalValue, unsignedPart, true_or, if_true, List.head?_cons]
      rw [decimalNat_value]
      omega
    refine ⟨?_, hval⟩
    simp only [isDecimalInt, hval, Bool.and_eq_true, decide_eq_true_eq]
    refine ⟨⟨⟨?_, ?_⟩, h1⟩, h2⟩
    · have := decimalNat_ne_nil (-v).toNat
      simp only [unsignedPart, true_or, if_true]
      cases hd : decimalNat (-v).toNat with
      | nil => exact absurd hd this
      | cons a b => rfl
    · simp only [unsignedPart, true_or, if_true, List.all_eq_true]
      exact decimalNat_digits _

end Tasks

namespace Tasks
open HTTPError

/-! ## Splitting at the slashes -/

theorem splitSlash_ne_nil (l : List Char) : splitSlash l ≠ [] := by
  cases l with
  | nil => simp [splitSlash]
  | cons c r =>
    simp only [splitSlash]
    split_ifs
    · simp
    · cases splitSlash r <;> simp

theorem splitSlash_of_no_slash (l : List Char) (h : '/' ∉ l) : splitSlash l = [l] := by
  induction l with
  | nil => rfl
  | cons c r ih =>
    have hc : c ≠ '/' := fun hc => h (hc ▸ List.mem_cons_self _ _)
    have hr : '/' ∉ r := fun hr => h (List.mem_cons_of_mem _ hr)
    simp only [splitSlash, hc, if_false, ih hr]

theorem splitSlash_append_slash (p q : List Char) (h : '/' ∉ p) :
    splitSlash (p ++ '/' :: q) = p :: splitSlash q := by
  induction p with
  | nil => simp [splitSlash]
  | cons c r ih =>
    have hc : c ≠ '/' := fun hc => h (hc ▸ List.mem_cons_self _ _)
    have hr : '/' ∉ r := fun hr => h (List.mem_cons_of_mem _ hr)
    simp only [List.cons_append, splitSlash, hc, if_false]
    rw [show r.append ('/' :: q) = r ++ '/' :: q from rfl, ih hr]

theorem splitSlash_rendered (w : List Char) (hw : '/' ∉ w) (ids : List TaskID) :
    splitSlash (w ++ ids.flatMap (fun id => '/' :: decimal id)) = w :: ids.map decimal := by
  induction ids generalizing w with
  | nil => simpa using splitSlash_of_no_slash w hw
  | cons id r ih =>
    simp only [List.flatMap_cons, List.cons_append, List.map_cons]
    rw [splitSlash_append_slash w _ hw, ih (decimal id) (decimal_no_slash id)]

/-! ## The loop over the segments -/

theorem parseLoop_error {parts : List (List Char)} {acc : List TaskID} {e : HTTPError}
    (h : parseLoop parts acc = .error e) : e = ErrHandlerURLNotValid := by
  induction parts generalizing acc with
  | nil => cases h
  | cons v r ih =>
    simp only [parseLoop] at h
    split_ifs at h
    · cases ha : Atoi v with
      | none => rw [ha] at h; simp only [Except.error.injEq] at h; exact h.symm
      | some val => rw [ha] at h; exact ih h
    · exact ih h

theorem parseLoop_error_iff (parts : List (List Char)) (acc : List TaskID)
    (hne : ∀ seg ∈ parts, seg ≠ []) :
    (∃ e, parseLoop parts acc = .error e) ↔ ∃ seg ∈ parts, isDecimalInt seg = false := by
  induction parts generalizing acc with
  | nil => simp [parseLoop]
  | cons v r ih =>
    have hv : v.length > 0 := List.length_pos.mpr (hne v (List.mem_cons_self _ _))
    have hr : ∀ seg ∈ r, seg ≠ [] := fun seg hs => hne seg (List.mem_cons_of_mem _ hs)
    simp only [parseLoop, hv, if_true, List.mem_cons, exists_eq_or_imp]
    cases ha : Atoi v with
    | none =>
      simp only [Except.error.injEq, exists_eq', true_iff]
      exact Or.inl ((Atoi_eq_none_iff v).mp ha)
    | some val =>
      simp only
      rw [ih _ hr]
      have hd : isDecimalInt v = true := ((Atoi_eq_some_iff v val).mp ha).1
      simp [hd]

theorem parseLoop_ok {parts : List (List Char)} {acc ids : List TaskID}
    (hne : ∀ seg ∈ parts, seg ≠ []) (h : parseLoop parts acc = .ok ids) :
    ∃ vals, ids = acc ++ vals ∧
      List.Forall₂ (fun seg id => isDecimalInt seg = true ∧ decimalValue seg = id)
        parts vals := by
  induction parts generalizing acc with
  | nil =>
    simp only [parseLoop, Except.ok.injEq] at h
    exact ⟨[], by simp [h], List.Forall₂.nil⟩
  | cons v r ih =>
    have hv : v.length > 0 := List.length_pos.mpr (hne v (List.mem_cons_self _ _))
    have hr : ∀ seg ∈ r, seg ≠ [] := fun seg hs => hne seg (List.mem_cons_of_mem _ hs)
    simp only [parseLoop, hv, if_true] at h
    cases ha : Atoi v with
    | none => rw [ha] at h; cases h
    | some val =>
      rw [ha] at h
      obtain ⟨vals, h1, h2⟩ := ih hr h
      exact ⟨val :: vals, by simp [h1], List.Forall₂.cons ((Atoi_eq_some_iff v val).mp ha) h2⟩

theorem parseLoop_rendered (ids acc : List TaskID)
    (h : ∀ id ∈ ids, minInt ≤ id ∧ id ≤ maxInt) :
    parseLoop (ids.map decimal) acc = .ok (acc ++ ids) := by
  induction ids generalizing acc with
  | nil => simp [parseLoop]
  | cons id r ih =>
    have hid := h id (List.mem_cons_self _ _)
    have hlen : (decimal id).length > 0 := List.length_pos.mpr (decimal_ne_nil id)
    simp only [List.map_cons, parseLoop, hlen, if_true, Atoi_decimal id hid.1 hid.2]
    rw [ih _ (fun x hx => h x (List.mem_cons_of_mem _ hx))]
    simp

theorem forall₂_exists_left {α β : Type} {R : α → β → Prop} {l1 : List α} {l2 : List β}
    (h : List.Forall₂ R l1 l2) : ∀ b ∈ l2, ∃ a ∈ l1, R a b := by
  induction h with
  | nil => intro b hb; cases hb
  | cons hab _ ih =>
    intro b hb
    rcases List.mem_cons.mp hb with rfl | hb
    · exact ⟨_, List.mem_cons_self _ _, hab⟩
    · obtain ⟨a, ha, hr⟩ := ih b hb
      exact ⟨a, List.mem_cons_of_mem _ ha, hr⟩

theorem segments_ne_nil (urlPath : String) : ∀ seg ∈ segments urlPath, seg ≠ [] := by
  intro seg hs
  simp only [segments, List.mem_filter, decide_eq_true_eq] at hs
  exact List.length_pos.mp hs.2

theorem parseTaskIDPath_eq (urlPath : String) :
    parseTaskIDPath urlPath =
      if (segments urlPath).length < 1 then .error ErrHandlerURLNotValid
      else parseLoop ((segments urlPath).drop 1) [] := rfl

/-- Claim C18. URL path parsing recovers the identifier sequence: for every
list `ids` of non-negative identifiers (values of `int`, so none above the
largest `int`), `parseTaskIDPath` applied to `/tasks` followed by `/` and the
decimal rendering of each identifier in turn returns no error and exactly
`ids`, in the same order and of the same length; for `/tasks` alone it returns
the empty path. -/
theorem parse_recovers_ids (ids : List TaskID) (h : ∀ id ∈ ids, 0 ≤ id ∧ id ≤ maxInt) :
    parseTaskIDPath (tasksURL ids) = .ok ids ∧
    tasksURL [] = "/tasks" ∧ parseTaskIDPath "/tasks" = .ok [] := by
  refine ⟨?_, rfl, rfl⟩
  have hsplit : splitSlash (tasksURL ids).toList =
      [] :: "tasks".toList :: ids.map decimal := by
    show splitSlash ([] ++ '/' :: ("tasks".toList ++ ids.flatMap (fun id => '/' :: decimal id)))
      = _
    rw [splitSlash_append_slash [] _ (List.not_mem_nil _),
      splitSlash_rendered "tasks".toList (by decide) ids]
  have hseg : segments (tasksURL ids) = "tasks".toList :: ids.map decimal := by
    simp only [segments, hsplit]
    rw [List.filter_cons_of_neg (by decide), List.filter_cons_of_pos (by decide)]
    congr 1
    rw [List.filter_eq_self]
    intro seg hs
    obtain ⟨id, _, rfl⟩ := List.mem_map.mp hs
    exact decide_eq_true (List.length_pos.mpr (decimal_ne_nil id))
  rw [parseTaskIDPath_eq, hseg]
  simp only [List.length_cons, List.drop_succ_cons, List.drop_zero]
  rw [if_neg (by omega), parseLoop_rendered ids []
    (fun id hid => ⟨le_trans (by rw [minInt_eq]; decide) (h id hid).1, (h id hid).2⟩)]
  simp

/-- Claim C19. URL path parsing rejects bad input: `parseTaskIDPath` fails,
always with `ErrHandlerURLNotValid`, exactly when the URL path has no
non-empty segment, as the empty path and `/`, or some non-empty segment after
the first is not a decimal integer that fits in `int`; on every other URL path
it succeeds. -/
theorem parse_rejects_bad_input (urlPath : String) :
    (∀ e, parseTaskIDPath urlPath = .error e → e = ErrHandlerURLNotValid) ∧
    ((∃ e, parseTaskIDPath urlPath = .error e) ↔
      (segments urlPath = [] ∨
        ∃ seg ∈ (segments urlPath).drop 1, isDecimalInt seg = false)) ∧
    ((∃ ids, parseTaskIDPath urlPath = .ok ids) ↔
      ¬ (segments urlPath = [] ∨
        ∃ seg ∈ (segments urlPath).drop 1, isDecimalInt seg = false)) ∧
    parseTaskIDPath "" = .error ErrHandlerURLNotValid ∧
    parseTaskIDPath "/" = .error ErrHandlerURLNotValid := by
  have hdrop : ∀ seg ∈ (segments urlPath).drop 1, seg ≠ [] :=
    fun seg hs => segments_ne_nil urlPath seg (List.mem_of_mem_drop hs)
  have hiff : (∃ e, parseTaskIDPath urlPath = .error e) ↔
      (segments urlPath = [] ∨
        ∃ seg ∈ (segments urlPath).drop 1, isDecimalInt seg = false) := by
    rw [parseTaskIDPath_eq]
    cases hs : segments urlPath with
    | nil => simp
    | cons first rest =>
      rw [hs] at hdrop
      simp only [List.length_cons, Nat.lt_one_iff, Nat.add_one_ne_zero, if_false,
        reduceCtorEq, false_or]
      exact parseLoop_error_iff _ [] hdrop
  refine ⟨?_, hiff, ?_, rfl, rfl⟩
  · intro e he
    rw [parseTaskIDPath_eq] at he
    split_ifs at he
    · simp only [Except.error.injEq] at he
      exact he.symm
    · exact parseLoop_error he
  · rw [← hiff]
    cases parseTaskIDPath urlPath <;> simp

/-- Claim C20 as stated is refuted. The URL path `/tasks/0` and the URL path
made of `/tasks/` and `-5` are parsed without error, to the paths `[0]` and
`[-5]`, whose identifiers are not positive. -/
theorem parse_accepts_nonpositive :
    ¬ (∀ ids, parseTaskIDPath "/tasks/0" = .ok ids → ∀ id ∈ ids, 1 ≤ id) ∧
    ¬ (∀ ids, parseTaskIDPath "/tasks/-5" = .ok ids → ∀ id ∈ ids, 1 ≤ id) := by
  constructor
  · intro h
    exact absurd (h [0] rfl 0 (List.mem_singleton.mpr rfl)) (by decide)
  · intro h
    exact absurd (h [-5] rfl (-5) (List.mem_singleton.mpr rfl)) (by decide)

/-- Claim C20, amended. Parsed identifiers are values of `int`: for every
URL path on which `parseTaskIDPath` succeeds, each identifier of the returned
path is the number that the corresponding non-empty segment after the first
denotes, a decimal integer with an optional sign, and lies between the
smallest and the largest `int`; zero and negative identifiers occur. -/
theorem parsed_ids_are_ints (urlPath : String) (ids : List TaskID)
    (h : parseTaskIDPath urlPath = .ok ids) :
    (∀ id ∈ ids, minInt ≤ id ∧ id ≤ maxInt) ∧
    List.Forall₂ (fun seg id => isDecimalInt seg = true ∧ decimalValue seg = id)
      ((segments urlPath).drop 1) ids := by
  have hdrop : ∀ seg ∈ (segments urlPath).drop 1, seg ≠ [] :=
    fun seg hs => segments_ne_nil urlPath seg (List.mem_of_mem_drop hs)
  rw [parseTaskIDPath_eq] at h
  split_ifs at h
  obtain ⟨vals, h1, h2⟩ := parseLoop_ok hdrop h
  simp only [List.nil_append] at h1
  subst h1
  refine ⟨?_, h2⟩
  intro id hid
  obtain ⟨seg, _, hseg⟩ := forall₂_exists_left h2 id hid
  simp only [isDecimalInt, Bool.and_eq_true, decide_eq_true_eq] at hseg
  rw [← hseg.2]
  exact ⟨hseg.1.1.2, hseg.1.2⟩

end Tasks

namespace Tasks
open TaskError HTTPError

/-! ## The theorems of the service and of the transport at concrete inputs -/

/-- Claim C11 at the store `{1: t1}` after `Delete([1])`: the emptied store
lists no task. -/
theorem findAll_total_witness :
    (Fixture.store1.Delete [1]).1.FindAll = ([], none) :=
  (findAll_total (Fixture.store1.Delete [1]).1).2.2.2.2.2.1 rfl

/-- Claim C12, amended, at the store `{2: t2}` with counter 2 of the service
tests: `Create([2], baz)` returns the task 3 and `Find([2, 3])` finds it. -/
theorem create_postcondition_witness :
    (TaskStorageService.Create ⟨[(2, Fixture.t2)], 2⟩ [2] ⟨"baz"⟩).2 =
      (Task.mk 3 "baz" false (some []), none) ∧
    (TaskStorageService.Create ⟨[(2, Fixture.t2)], 2⟩ [2] ⟨"baz"⟩).1.Find [2, 3] =
      (Task.mk 3 "baz" false (some []), none) :=
  ⟨(create_postcondition ⟨[(2, Fixture.t2)], 2⟩ [2] "baz" rfl
      (Or.inr ⟨Fixture.t2, rfl⟩)).1.trans (by simp [wrapInt]),
    (create_postcondition ⟨[(2, Fixture.t2)], 2⟩ [2] "baz" rfl
      (Or.inr ⟨Fixture.t2, rfl⟩)).2.2.1.trans (by simp [wrapInt])⟩

/-- Claim C13, amended, at a new store: `Create([999], foo)` fails with
`ErrTaskNotFound`, stores nothing and leaves the counter at 1. -/
theorem failed_create_gap_witness :
    TaskStorageService.Create NewTaskMemoryStorage [999] ⟨"foo"⟩ =
      (⟨[], 1⟩, Task.zero, some ErrTaskNotFound) :=
  (failed_create_gap NewTaskMemoryStorage [999] ⟨"foo"⟩ (List.cons_ne_nil _ _)
    (fun p h => by simp [TaskMemoryStorage.search, NewTaskMemoryStorage, mapGet] at h)).1.trans
    (by simp [NewTaskMemoryStorage, wrapInt])

/-- Claim C14, amended, at the stored task `{1, foo, false}`: an update with
only `completed = true` keeps the label `foo`, sets the flag, and `Find([1])`
returns the merged task. -/
theorem partial_update_merge_witness :
    (TaskStorageService.Update ⟨[(1, Task.mk 1 "foo" false none)], 1⟩ [1]
        ⟨none, some true⟩).2.1.Label = "foo" ∧
    (TaskStorageService.Update ⟨[(1, Task.mk 1 "foo" false none)], 1⟩ [1]
        ⟨none, some true⟩).2.1.Completed = true ∧
    (TaskStorageService.Update ⟨[(1, Task.mk 1 "foo" false none)], 1⟩ [1]
        ⟨none, some true⟩).1.Find [1] = (Task.mk 1 "foo" true none, none) :=
  ⟨((partial_update_merge ⟨[(1, Task.mk 1 "foo" false none)], 1⟩ [1] ⟨none, some true⟩
      rfl).1 (Task.mk 1 "foo" false none) rfl).2.2.2.1,
    ((partial_update_merge ⟨[(1, Task.mk 1 "foo" false none)], 1⟩ [1] ⟨none, some true⟩
      rfl).1 (Task.mk 1 "foo" false none) rfl).2.2.2.2.1,
    ((partial_update_merge ⟨[(1, Task.mk 1 "foo" false none)], 1⟩ [1] ⟨none, some true⟩
      rfl).1 (Task.mk 1 "foo" false none) rfl).2.2.2.2.2.1⟩

/-- Claim C15 at the store `{3: t3}`: the service's `Delete([3, 7])` fails
with `ErrTaskNotFound`, and `Delete([3, 2])` returns `t2`, after which
`Find([3, 2])` fails. -/
theorem service_delete_snapshot_witness :
    TaskStorageService.Delete Fixture.store3 [3, 7] =
      (Fixture.store3, Task.zero, some ErrTaskNotFound) ∧
    (TaskStorageService.Delete Fixture.store3 [3, 2]).2 = (Fixture.t2, none) ∧
    (TaskStorageService.Delete Fixture.store3 [3, 2]).1.Find [3, 2] =
      (Task.zero, some ErrTaskNotFound) :=
  ⟨(service_delete_snapshot Fixture.store3 [3, 7] rfl (List.cons_ne_nil _ _)).1
      (fun t h => by
        simp [TaskMemoryStorage.search, Fixture.store3, mapGet, searchFrom, Fixture.t3,
          Fixture.t2, Task.Children, SubTasks.entries, scanChildren, Task.ID] at h),
    ((service_delete_snapshot Fixture.store3 [3, 2] rfl (List.cons_ne_nil _ _)).2.2
      Fixture.t2 rfl).1,
    ((service_delete_snapshot Fixture.store3 [3, 2] rfl (List.cons_ne_nil _ _)).2.2
      Fixture.t2 rfl).2.1⟩

/-- Claim C16, amended, at the labels of the validator tests: `foobar` is
accepted, the empty label is not. -/
theorem create_validate_spec_witness :
    CreateValidator.Validate ⟨some "foobar", none⟩ = none ∧
    CreateValidator.Validate ⟨some "", none⟩ = some ErrTaskLabelIsNotValid :=
  ⟨(create_validate_spec ⟨some "foobar", none⟩).1.mpr ⟨"foobar", rfl, by decide, by decide⟩,
    (create_validate_spec ⟨some "", none⟩).2.2.1.mpr ⟨"", rfl, Or.inl (by decide)⟩⟩

/-- Claim C17, amended, at the inputs of the validator tests: only completed
present is accepted, both absent is not. -/
theorem update_validate_spec_witness :
    UpdateValidator.Validate ⟨none, some true⟩ = none ∧
    UpdateValidator.Validate ⟨none, none⟩ = some ErrTaskLabelOrCompletedRequired :=
  ⟨(update_validate_spec ⟨none, some true⟩).2.2.2.1 rfl (by simp),
    (update_validate_spec ⟨none, none⟩).1.mpr ⟨rfl, rfl⟩⟩

/-- Claim C18 at the identifiers 1 and 2: the URL path `/tasks/1/2` is parsed
to `[1, 2]`. -/
theorem parse_recovers_ids_witness :
    tasksURL [1, 2] = "/tasks/1/2" ∧ parseTaskIDPath (tasksURL [1, 2]) = .ok [1, 2] :=
  ⟨by decide, (parse_recovers_ids [1, 2] (by
    intro id hid
    simp only [List.mem_cons, List.mem_singleton, List.not_mem_nil, or_false] at hid
    rcases hid with rfl | rfl <;> exact ⟨by decide, by rw [maxInt_eq]; decide⟩)).1⟩

/-- Claim C19 at the URL path `/tasks/kekeke` of the tests. -/
theorem parse_rejects_bad_input_witness :
    ∃ e, parseTaskIDPath "/tasks/kekeke" = .error e :=
  (parse_rejects_bad_input "/tasks/kekeke").2.1.mpr
    (Or.inr ⟨"kekeke".toList, List.mem_singleton.mpr rfl, by decide⟩)

/-- Claim C20, amended, at the URL path `/tasks/0`: the identifier 0 lies
within `int`. -/
theorem parsed_ids_are_ints_witness :
    parseTaskIDPath "/tasks/0" = .ok [0] ∧
    ∀ id ∈ ([0] : List TaskID), minInt ≤ id ∧ id ≤ maxInt :=
  ⟨rfl, (parsed_ids_are_ints "/tasks/0" [0] rfl).1⟩

end Tasks
namespace Tasks

/-! ## The key-equals-identifier condition along the operations -/

theorem storage_Insert_keyed (s : TaskMemoryStorage) (P : List TaskID) (T : Task)
    (hkey : s.KeyedByID) (hT : T.keyed = true) : (s.Insert P T).1.KeyedByID := by
  cases P with
  | nil => exact keyedEntries_mapSet hkey hT
  | cons a rest =>
    simp only [TaskMemoryStorage.Insert]
    cases s.search (a :: rest) with
    | error e => exact hkey
    | ok p =>
      exact keyedEntries_modifyAt (addChild T) (addChild_ID T) (fun c hc => addChild_keyed hT c hc)
        (a :: rest) hkey

theorem storage_Update_keyed (s : TaskMemoryStorage) (P : List TaskID) (T : Task)
    (hkey : s.KeyedByID) (hT : T.keyed = true) : (s.Update P T).1.KeyedByID := by
  rcases List.eq_nil_or_concat P with rfl | ⟨P', x, rfl⟩
  · exact hkey
  · rw [List.concat_eq_append]
    cases P' with
    | nil =>
      simp only [List.nil_append, TaskMemoryStorage.Update]
      cases mapGet T.ID s.storage with
      | none => exact hkey
      | some _ => exact keyedEntries_mapSet hkey hT
    | cons a r =>
      rw [Update_snoc s (a :: r) x T (List.cons_ne_nil _ _)]
      cases s.search (a :: r) with
      | error e => exact hkey
      | ok p =>
        exact keyedEntries_modifyAt (addChild T) (addChild_ID T)
          (fun c hc => addChild_keyed hT c hc) (a :: r) hkey

theorem storage_Delete_keyed (s : TaskMemoryStorage) (P : List TaskID)
    (hkey : s.KeyedByID) : (s.Delete P).1.KeyedByID := by
  rcases List.eq_nil_or_concat P with rfl | ⟨P', x, rfl⟩
  · exact hkey
  · rw [List.concat_eq_append]
    cases P' with
    | nil =>
      simp only [List.nil_append, TaskMemoryStorage.Delete]
      cases mapGet x s.storage with
      | none => exact hkey
      | some _ => exact keyedEntries_mapErase hkey x
    | cons a r =>
      rw [Delete_snoc s (a :: r) x (List.cons_ne_nil _ _)]
      cases s.search (a :: r) with
      | error e => exact hkey
      | ok p =>
        exact keyedEntries_modifyAt (removeChild x) (removeChild_ID x)
          (fun c hc => removeChild_keyed x c hc) (a :: r) hkey

theorem Find_ok_search {s : TaskMemoryStorage} {path : List TaskID} {t : Task}
    (h : s.Find path = (t, none)) : s.search path = .ok t := by
  rw [Find_eq_search] at h
  cases hs : s.search path with
  | error e => rw [hs] at h; cases h
  | ok p => rw [hs] at h; cases h; rfl

theorem call_keyed (c : ServiceCall) (s : TaskMemoryStorage) (hkey : s.KeyedByID) :
    (c.run s).KeyedByID := by
  cases c with
  | create path fields =>
    simp only [ServiceCall.run]
    rw [Create_fst]
    exact storage_Insert_keyed _ path _ hkey rfl
  | update path fields =>
    simp only [ServiceCall.run, TaskStorageService.Update]
    rcases hf : s.Find path with ⟨old, _ | e⟩
    · have hold := search_keyed hkey (Find_ok_search hf)
      have hnew : (TaskStorageService.mergeFields old fields).keyed = true := by
        rw [mergeFields_keyed]; exact hold
      have := storage_Update_keyed s path _ hkey hnew
      rcases hu : s.Update path (TaskStorageService.mergeFields old fields) with ⟨s1, _ | e⟩
      · rw [hu] at this; simp only [hu]; exact this
      · rw [hu] at this; simp only [hu]; exact this
    · exact hkey
  | delete path =>
    simp only [ServiceCall.run, TaskStorageService.Delete]
    rcases hf : s.Find path with ⟨old, _ | e⟩
    · have := storage_Delete_keyed s path hkey
      rcases hu : s.Delete path with ⟨s1, _ | e⟩
      · rw [hu] at this; simp only [hu]; exact this
      · rw [hu] at this; simp only [hu]; exact this
    · exact hkey

theorem runCalls_keyed (calls : List ServiceCall) (s : TaskMemoryStorage) (hkey : s.KeyedByID) :
    (runCalls calls s).KeyedByID := by
  induction calls generalizing s with
  | nil => exact hkey
  | cons c cs ih => exact ih _ (call_keyed c s hkey)

/-- Claim C29. Key-equals-identifier invariant: when every task of the store
is stored under a key equal to its own `ID` and the argument task `T` with its
subtree satisfies the same condition, the store after `Insert(P, T)`, after
`Update(P, T)` and after `Delete(P)`, successful or failing, satisfies it
again; the store of `NewTaskMemoryStorage()` satisfies it, and so does every
state reached from it by calls of the service. -/
theorem keyed_invariant (s : TaskMemoryStorage) (P : List TaskID) (T : Task)
    (hkey : s.KeyedByID) (hT : T.keyed = true) :
    (s.Insert P T).1.KeyedByID ∧ (s.Update P T).1.KeyedByID ∧ (s.Delete P).1.KeyedByID ∧
      NewTaskMemoryStorage.KeyedByID ∧
      ∀ calls : List ServiceCall, (runCalls calls NewTaskMemoryStorage).KeyedByID :=
  ⟨storage_Insert_keyed s P T hkey hT, storage_Update_keyed s P T hkey hT,
    storage_Delete_keyed s P hkey, rfl, fun calls => runCalls_keyed calls _ rfl⟩

theorem keyed_invariant_witness :
    Fixture.store3.KeyedByID ∧ Fixture.t1.keyed = true ∧
      (Fixture.store3.Insert [3] Fixture.t1).1.KeyedByID ∧
      (Fixture.store3.Update [3, 1] Fixture.t1).1.KeyedByID ∧
      (Fixture.store3.Delete [3, 2]).1.KeyedByID :=
  have h := keyed_invariant Fixture.store3 [3] Fixture.t1 (by decide) (by decide)
  ⟨by decide, by decide, h.1,
    (keyed_invariant Fixture.store3 [3, 1] Fixture.t1 (by decide) (by decide)).2.1,
    (keyed_invariant Fixture.store3 [3, 2] Fixture.t1 (by decide) (by decide)).2.2.1⟩

/-! ## The write after the fetch -/

/-- Claim C30. The write step cannot fail after a successful fetch: on a store
in which every task is stored under a key equal to its own `ID`, whenever the
storage `Find(path)` of the service's `Update` succeeds, the storage
`Update(path, merged)` that follows returns nil, and whenever the `Find(path)`
of the service's `Delete` succeeds, the storage `Delete(path)` returns nil; so
every error of the service's `Update` and `Delete` is the error of the fetch,
returned with the zero task and the store untouched, and the branch of
`Update` that returns the pre-update task with an error is not reached. -/
theorem write_after_fetch (s : TaskMemoryStorage) (path : List TaskID) (fields : UpdateFields)
    (hkey : s.KeyedByID) :
    (∀ old, s.Find path = (old, none) →
        (s.Update path (TaskStorageService.mergeFields old fields)).2 = none ∧
          (s.Delete path).2 = none) ∧
      (∀ e, (TaskStorageService.Update s path fields).2.2 = some e →
        s.Find path = (Task.zero, some e) ∧
          TaskStorageService.Update s path fields = (s, Task.zero, some e)) ∧
      (∀ e, (TaskStorageService.Delete s path).2.2 = some e →
        s.Find path = (Task.zero, some e) ∧
          TaskStorageService.Delete s path = (s, Task.zero, some e)) := by
  have hw : ∀ old, s.Find path = (old, none) →
      (s.Update path (TaskStorageService.mergeFields old fields)).2 = none ∧
        (s.Delete path).2 = none := by
    intro old hf
    have hs := Find_ok_search hf
    exact ⟨(storage_Update_after_search s path old _ hkey hs (mergeFields_ID old fields)).1,
      (storage_Delete_after_search s path old hkey hs).1⟩
  have hz : ∀ t e, s.Find path = (t, some e) → t = Task.zero := by
    intro t e hf
    rw [Find_eq_search] at hf
    cases hs : s.search path with
    | error e1 => rw [hs] at hf; cases hf; rfl
    | ok p => rw [hs] at hf; cases hf
  refine ⟨hw, ?_, ?_⟩
  · intro e he
    rcases hf : s.Find path with ⟨old, _ | e1⟩
    · exfalso
      have h1 := (hw old hf).1
      simp only [TaskStorageService.Update, hf] at he
      rcases hu : s.Update path (TaskStorageService.mergeFields old fields) with ⟨s1, _ | e2⟩
      · rw [hu] at he; cases he
      · rw [hu] at h1; cases h1
    · have hold := hz old e1 hf
      subst hold
      simp only [TaskStorageService.Update, hf] at he ⊢
      cases he
      exact ⟨rfl, rfl⟩
  · intro e he
    rcases hf : s.Find path with ⟨old, _ | e1⟩
    · exfalso
      have h1 := (hw old hf).2
      simp only [TaskStorageService.Delete, hf] at he
      rcases hu : s.Delete path with ⟨s1, _ | e2⟩
      · rw [hu] at he; cases he
      · rw [hu] at h1; cases h1
    · have hold := hz old e1 hf
      subst hold
      simp only [TaskStorageService.Delete, hf] at he ⊢
      cases he
      exact ⟨rfl, rfl⟩

theorem write_after_fetch_witness :
    Fixture.store3.KeyedByID ∧ Fixture.store3.Find [3, 2] = (Fixture.t2, none) ∧
      (Fixture.store3.Update [3, 2]
        (TaskStorageService.mergeFields Fixture.t2 ⟨some "baz", none⟩)).2 = none ∧
      (Fixture.store3.Delete [3, 2]).2 = none :=
  ⟨by decide, rfl,
    ((write_after_fetch Fixture.store3 [3, 2] ⟨some "baz", none⟩ (by decide)).1 Fixture.t2 rfl).1,
    ((write_after_fetch Fixture.store3 [3, 2] ⟨some "baz", none⟩ (by decide)).1 Fixture.t2 rfl).2⟩

/-! ## Nodes without a children map -/

theorem search_snoc (s : TaskMemoryStorage) (P : List TaskID) (x : TaskID) (p : Task)
    (hP : s.search P = .ok p) : s.search (P ++ [x]) = searchFrom p [x] := by
  cases P with
  | nil => cases hP
  | cons a r => rw [search_append, hP]

/-- Claim C25. Absent children behave as empty children: when the path `P`
resolves to a node whose `Children` is nil, `Insert(P, T)` and
`Update(P ++ [x], T)` succeed and leave the node at `P` unchanged but for its
children, which are exactly the one entry `T` under the key `T.ID`;
`Delete(P ++ [x])` returns nil and leaves the store as it was; and
`Find(P ++ [x])` fails with `ErrTaskNotFound`. -/
theorem nil_children_as_empty (s : TaskMemoryStorage) (P : List TaskID) (p T : Task)
    (x : TaskID) (hP : s.search P = .ok p) (hnil : p.Children = none) :
    ((s.Insert P T).2 = none ∧
        (s.Insert P T).1.search P = .ok (p.setChildren (some [(T.ID, T)]))) ∧
      ((s.Update (P ++ [x]) T).2 = none ∧
        (s.Update (P ++ [x]) T).1.search P = .ok (p.setChildren (some [(T.ID, T)]))) ∧
      s.Delete (P ++ [x]) = (s, none) ∧
      s.Find (P ++ [x]) = (Task.zero, some .ErrTaskNotFound) := by
  have hne : P ≠ [] := by rintro rfl; cases hP
  have hadd : addChild T p = p.setChildren (some [(T.ID, T)]) := by
    simp only [addChild, hnil, SubTasks.entries, mapSet]
  have hins : { s with storage := modifyAt (addChild T) P s.storage }.search P =
      .ok (p.setChildren (some [(T.ID, T)])) := by
    rw [search_modifyAt (addChild T) (addChild_ID T) s P p hP, hadd]
  refine ⟨?_, ?_, ?_, ?_⟩
  · cases P with
    | nil => exact absurd rfl hne
    | cons a r =>
      simp only [TaskMemoryStorage.Insert, hP]
      exact ⟨trivial, hins⟩
  · rw [Update_snoc s P x T hne, hP]
    exact ⟨rfl, hins⟩
  · rw [Delete_snoc s P x hne, hP]
    have hfix : modifyAt (removeChild x) P s.storage = s.storage := by
      apply modifyAt_of_fix
      intro q hq
      rw [hP] at hq
      cases hq
      apply removeChild_of_absent
      rw [hnil]; rfl
    simp only [hfix]
  · rw [Find_eq_search, search_snoc s P x p hP]
    simp only [searchFrom, hnil, SubTasks.entries, scanChildren]

theorem nil_children_as_empty_witness :
    Fixture.store3.search [3, 2] = .ok Fixture.t2 ∧ Fixture.t2.Children = none ∧
      (Fixture.store3.Insert [3, 2] Fixture.t1).2 = none ∧
      (Fixture.store3.Insert [3, 2] Fixture.t1).1.search [3, 2] =
        .ok (Fixture.t2.setChildren (some [(1, Fixture.t1)])) ∧
      Fixture.store3.Delete [3, 2, 7] = (Fixture.store3, none) ∧
      Fixture.store3.Find [3, 2, 7] = (Task.zero, some .ErrTaskNotFound) :=
  have h := nil_children_as_empty Fixture.store3 [3, 2] Fixture.t2 Fixture.t1 7 rfl rfl
  ⟨rfl, rfl, h.1.1, h.1.2, h.2.2.1, h.2.2.2⟩

end Tasks
namespace Tasks

/-! ## Key lookup as the reference for `search` -/

theorem distinctKeysEntries_cons (k : TaskID) (t : Task) (r : List (TaskID × Task)) :
    distinctKeysEntries ((k, t) :: r) = true ↔
      t.distinctKeys = true ∧ distinctKeysEntries r = true := by
  simp [distinctKeysEntries]

theorem Task.distinctKeys_iff (t : Task) :
    t.distinctKeys = true ↔
      (mapKeys t.Children.entries).Nodup ∧ distinctKeysEntries t.Children.entries = true := by
  obtain ⟨i, l, c, cs⟩ := t
  cases cs with
  | none => simp [Task.distinctKeys, Task.Children, SubTasks.entries, distinctKeysEntries, mapKeys]
  | some cs => simp [Task.distinctKeys, Task.Children, SubTasks.entries]

theorem distinctKeysEntries_mem {cs : List (TaskID × Task)} (h : distinctKeysEntries cs = true)
    {k : TaskID} {t : Task} (hm : (k, t) ∈ cs) : t.distinctKeys = true := by
  induction cs with
  | nil => cases hm
  | cons e r ih =>
    obtain ⟨k', t'⟩ := e
    rw [distinctKeysEntries_cons] at h
    rcases List.mem_cons.mp hm with heq | hm
    · cases heq; exact h.1
    · exact ih h.2 hm

theorem keyedEntries_of_forall {cs : List (TaskID × Task)}
    (h : ∀ e ∈ cs, e.2.ID = e.1 ∧ e.2.keyed = true) : keyedEntries cs = true := by
  induction cs with
  | nil => rfl
  | cons e r ih =>
    obtain ⟨k, t⟩ := e
    rw [keyedEntries_cons]
    exact ⟨(h _ (List.mem_cons_self _ _)).1, (h _ (List.mem_cons_self _ _)).2,
      ih (fun e he => h e (List.mem_cons_of_mem _ he))⟩

theorem keyedEntries_perm {cs cs' : List (TaskID × Task)} (hp : cs.Perm cs')
    (h : keyedEntries cs = true) : keyedEntries cs' = true :=
  keyedEntries_of_forall (fun e he => by
    obtain ⟨k, t⟩ := e
    exact keyedEntries_mem h (hp.mem_iff.mpr he))

theorem mapGet_eq_some_iff {m : List (TaskID × Task)} (hn : (mapKeys m).Nodup) (k : TaskID)
    (t : Task) : mapGet k m = some t ↔ (k, t) ∈ m := by
  refine ⟨mapGet_mem, ?_⟩
  induction m with
  | nil => intro h; cases h
  | cons e r ih =>
    obtain ⟨k', t'⟩ := e
    simp only [mapKeys, List.map_cons, List.nodup_cons, List.mem_map, not_exists, not_and] at hn
    intro h
    rcases List.mem_cons.mp h with heq | hr
    · cases heq; simp [mapGet]
    · have hne : k' ≠ k := fun hk => hn.1 (k, t) hr hk.symm
      simp only [mapGet, hne, if_false]
      exact ih hn.2 hr

theorem mapGet_perm {cs cs' : List (TaskID × Task)} (hp : cs.Perm cs')
    (hn : (mapKeys cs).Nodup) (k : TaskID) : mapGet k cs' = mapGet k cs := by
  have hn' : (mapKeys cs').Nodup := (hp.map Prod.fst).nodup_iff.mp hn
  cases h : mapGet k cs with
  | some t =>
    rw [mapGet_eq_some_iff hn'] 
    exact hp.mem_iff.mp ((mapGet_eq_some_iff hn k t).mp h)
  | none =>
    cases h' : mapGet k cs' with
    | none => rfl
    | some t =>
      have := (mapGet_eq_some_iff hn k t).mpr (hp.mem_iff.mpr ((mapGet_eq_some_iff hn' k t).mp h'))
      rw [h] at this; cases this

theorem searchFrom_eq_lookupFrom (t : Task) (path : List TaskID) (hk : t.keyed = true)
    (hd : t.distinctKeys = true) : searchFrom t path = lookupFrom t path := by
  induction path generalizing t with
  | nil => rfl
  | cons k rest ih =>
    rw [Task.keyed_iff] at hk
    rw [Task.distinctKeys_iff] at hd
    simp only [searchFrom, lookupFrom, scanChildren_eq_mapGet hk hd.1 k]
    cases hm : mapGet k t.Children.entries with
    | none => rfl
    | some c =>
      have hmem := mapGet_mem hm
      exact ih c (keyedEntries_mem hk hmem).2 (distinctKeysEntries_mem hd.2 hmem)

theorem search_eq_lookupPath (s : TaskMemoryStorage) (hkey : s.KeyedByID)
    (hmap : s.DistinctKeys) (path : List TaskID) : s.search path = s.lookupPath path := by
  cases path with
  | nil => rfl
  | cons k rest =>
    simp only [TaskMemoryStorage.search, TaskMemoryStorage.lookupPath]
    cases hm : mapGet k s.storage with
    | none => rfl
    | some t =>
      have hmem := mapGet_mem hm
      exact searchFrom_eq_lookupFrom t rest (keyedEntries_mem hkey hmem).2
        (distinctKeysEntries_mem hmap.2 hmem)

theorem mapGet_eq_none_iff (k : TaskID) (m : List (TaskID × Task)) :
    mapGet k m = none ↔ k ∉ mapKeys m := by
  induction m with
  | nil => simp [mapGet, mapKeys]
  | cons e r ih =>
    obtain ⟨k', t⟩ := e
    by_cases h : k' = k
    · simp [mapGet, mapKeys, h]
    · simp only [mapGet, h, if_false, ih, mapKeys, List.map_cons, List.mem_cons, not_or]
      exact ⟨fun hr => ⟨fun hk => h hk.symm, hr⟩, fun hr => hr.2⟩

theorem entriesSameMaps_cons (k : TaskID) (t : Task) (r cs' : List (TaskID × Task)) :
    entriesSameMaps ((k, t) :: r) cs' = true ↔
      (∃ t', mapGet k cs' = some t' ∧ t.sameMaps t' = true) ∧ entriesSameMaps r cs' = true := by
  simp only [entriesSameMaps, Bool.and_eq_true]
  cases mapGet k cs' with
  | none => simp
  | some t' => simp

theorem entriesSameMaps_get {cs cs' : List (TaskID × Task)}
    (h : entriesSameMaps cs cs' = true) {k : TaskID} {t : Task} (hm : mapGet k cs = some t) :
    ∃ t', mapGet k cs' = some t' ∧ t.sameMaps t' = true := by
  induction cs with
  | nil => cases hm
  | cons e r ih =>
    obtain ⟨k0, t0⟩ := e
    rw [entriesSameMaps_cons] at h
    by_cases hk : k0 = k
    · simp only [mapGet, hk, if_true, Option.some.injEq] at hm
      subst hm; subst hk
      exact h.1
    · simp only [mapGet, hk, if_false] at hm
      exact ih h.2 hm

theorem Task.sameMaps_iff (t t' : Task) :
    t.sameMaps t' = true ↔
      t'.ID = t.ID ∧ t'.Label = t.Label ∧ t'.Completed = t.Completed ∧
        t.Children.isNone = t'.Children.isNone ∧
        (mapKeys t.Children.entries).Perm (mapKeys t'.Children.entries) ∧
        entriesSameMaps t.Children.entries t'.Children.entries = true := by
  obtain ⟨i, l, c, cs⟩ := t
  obtain ⟨i', l', c', cs'⟩ := t'
  cases cs with
  | none =>
    cases cs' with
    | none =>
      simp [Task.sameMaps, Task.ID, Task.Label, Task.Completed, Task.Children, SubTasks.entries,
        entriesSameMaps, mapKeys, and_assoc]
    | some cs' =>
      simp [Task.sameMaps, Task.ID, Task.Label, Task.Completed, Task.Children]
  | some cs =>
    cases cs' with
    | none => simp [Task.sameMaps, Task.ID, Task.Label, Task.Completed, Task.Children]
    | some cs' =>
      simp [Task.sameMaps, Task.ID, Task.Label, Task.Completed, Task.Children, SubTasks.entries,
        List.isPerm_iff, and_assoc]

theorem lookupFrom_sameMaps (t t' : Task) (path : List TaskID) (h : t.sameMaps t' = true) :
    sameResult (lookupFrom t path) (lookupFrom t' path) = true := by
  induction path generalizing t t' with
  | nil => exact h
  | cons k rest ih =>
    obtain ⟨-, -, -, -, hperm, hent⟩ := (Task.sameMaps_iff t t').mp h
    simp only [lookupFrom]
    cases hm : mapGet k t.Children.entries with
    | none =>
      have hn : mapGet k t'.Children.entries = none := by
        rw [mapGet_eq_none_iff] at hm ⊢
        exact fun hk => hm (hperm.mem_iff.mpr hk)
      rw [hn]; rfl
    | some c =>
      obtain ⟨c', hc', hcc⟩ := entriesSameMaps_get hent hm
      rw [hc']
      exact ih c c' hcc

theorem lookupPath_sameMaps (s s' : TaskMemoryStorage) (h : s.sameMaps s' = true)
    (path : List TaskID) : sameResult (s.lookupPath path) (s'.lookupPath path) = true := by
  simp only [TaskMemoryStorage.sameMaps, Bool.and_eq_true, List.isPerm_iff] at h
  cases path with
  | nil => rfl
  | cons k rest =>
    simp only [TaskMemoryStorage.lookupPath]
    cases hm : mapGet k s.storage with
    | none =>
      have hn : mapGet k s'.storage = none := by
        rw [mapGet_eq_none_iff] at hm ⊢
        exact fun hk => hm (h.1.mem_iff.mpr hk)
      rw [hn]; rfl
    | some c =>
      obtain ⟨c', hc', hcc⟩ := entriesSameMaps_get h.2 hm
      rw [hc']
      exact lookupFrom_sameMaps c c' rest hcc

/-! ## The lists of the store stay maps -/

theorem distinctKeysEntries_of_forall {cs : List (TaskID × Task)}
    (h : ∀ e ∈ cs, e.2.distinctKeys = true) : distinctKeysEntries cs = true := by
  induction cs with
  | nil => rfl
  | cons e r ih =>
    obtain ⟨k, t⟩ := e
    rw [distinctKeysEntries_cons]
    exact ⟨h _ (List.mem_cons_self _ _), ih (fun e he => h e (List.mem_cons_of_mem _ he))⟩

theorem mapKeys_mapErase (k : TaskID) (m : List (TaskID × Task)) :
    (mapKeys (mapErase k m)).Sublist (mapKeys m) ∧ k ∉ mapKeys (mapErase k m) := by
  induction m with
  | nil => exact ⟨List.Sublist.refl _, List.not_mem_nil _⟩
  | cons e r ih =>
    obtain ⟨k', t⟩ := e
    by_cases h : k' = k
    · simp only [mapErase, h, if_true]
      exact ⟨ih.1.trans (List.sublist_cons_self _ _), ih.2⟩
    · simp only [mapErase, h, if_false, mapKeys, List.map_cons, List.mem_cons, not_or]
      exact ⟨ih.1.cons₂ _, fun hk => h hk.symm, ih.2⟩

theorem mem_mapSet {k : TaskID} {v : Task} {m : List (TaskID × Task)} {e : TaskID × Task}
    (h : e ∈ mapSet k v m) : e = (k, v) ∨ e ∈ m := by
  induction m with
  | nil => simp only [mapSet, List.mem_singleton] at h; exact Or.inl h
  | cons e' r ih =>
    obtain ⟨k', t⟩ := e'
    by_cases hk : k' = k
    · simp only [mapSet, hk, if_true, List.mem_cons] at h
      rcases h with h | h
      · exact Or.inl h
      · exact Or.inr (List.mem_cons_of_mem _ (mem_mapErase h).1)
    · simp only [mapSet, hk, if_false, List.mem_cons] at h
      rcases h with h | h
      · exact Or.inr (h ▸ List.mem_cons_self _ _)
      · rcases ih h with h1 | h1
        · exact Or.inl h1
        · exact Or.inr (List.mem_cons_of_mem _ h1)

theorem mapKeys_mapSet_nodup (k : TaskID) (v : Task) {m : List (TaskID × Task)}
    (h : (mapKeys m).Nodup) : (mapKeys (mapSet k v m)).Nodup := by
  induction m with
  | nil => simp [mapSet, mapKeys]
  | cons e r ih =>
    obtain ⟨k', t⟩ := e
    simp only [mapKeys, List.map_cons, List.nodup_cons] at h
    by_cases hk : k' = k
    · simp only [mapSet, hk, if_true, mapKeys, List.map_cons, List.nodup_cons]
      exact ⟨(mapKeys_mapErase k r).2, h.2.sublist (mapKeys_mapErase k r).1⟩
    · simp only [mapSet, hk, if_false, mapKeys, List.map_cons, List.nodup_cons]
      refine ⟨?_, ih h.2⟩
      intro hmem
      obtain ⟨e, he, hek⟩ := List.mem_map.mp hmem
      rcases mem_mapSet he with h1 | h1
      · rw [h1] at hek; exact hk hek.symm
      · exact h.1 (List.mem_map.mpr ⟨e, h1, hek⟩)

theorem mapKeys_modifyScanned (id : TaskID) (g : Task → Task) (cs : List (TaskID × Task)) :
    mapKeys (modifyScanned id g cs) = mapKeys cs := by
  induction cs with
  | nil => rfl
  | cons e r ih =>
    obtain ⟨k, c⟩ := e
    simp only [modifyScanned]
    split_ifs
    · simp only [mapKeys, List.map_cons] at ih ⊢; rw [ih]
    · rfl
    · rfl

theorem mem_modifyScanned {id : TaskID} {g : Task → Task} {cs : List (TaskID × Task)}
    {e : TaskID × Task} (h : e ∈ modifyScanned id g cs) :
    e ∈ cs ∨ ∃ c, (e.1, c) ∈ cs ∧ e.2 = g c := by
  induction cs with
  | nil => cases h
  | cons e' r ih =>
    obtain ⟨k, c⟩ := e'
    simp only [modifyScanned] at h
    split_ifs at h
    · rcases List.mem_cons.mp h with h1 | h1
      · exact Or.inl (h1 ▸ List.mem_cons_self _ _)
      · rcases ih h1 with h2 | ⟨c', hc', hg⟩
        · exact Or.inl (List.mem_cons_of_mem _ h2)
        · exact Or.inr ⟨c', List.mem_cons_of_mem _ hc', hg⟩
    · rcases List.mem_cons.mp h with h1 | h1
      · exact Or.inr ⟨c, by rw [h1]; exact List.mem_cons_self _ _, by rw [h1]⟩
      · exact Or.inl (List.mem_cons_of_mem _ h1)
    · exact Or.inl h

theorem mapKeys_mapModify (a : TaskID) (g : Task → Task) (m : List (TaskID × Task)) :
    mapKeys (mapModify a g m) = mapKeys m := by
  induction m with
  | nil => rfl
  | cons e r ih =>
    obtain ⟨k, t⟩ := e
    simp only [mapModify]
    split_ifs
    · rfl
    · simp only [mapKeys, List.map_cons] at ih ⊢; rw [ih]

theorem mem_mapModify {a : TaskID} {g : Task → Task} {m : List (TaskID × Task)}
    {e : TaskID × Task} (h : e ∈ mapModify a g m) :
    e ∈ m ∨ ∃ c, (e.1, c) ∈ m ∧ e.2 = g c := by
  induction m with
  | nil => cases h
  | cons e' r ih =>
    obtain ⟨k, t⟩ := e'
    simp only [mapModify] at h
    split_ifs at h
    · rcases List.mem_cons.mp h with h1 | h1
      · exact Or.inr ⟨t, by rw [h1]; exact List.mem_cons_self _ _, by rw [h1]⟩
      · exact Or.inl (List.mem_cons_of_mem _ h1)
    · rcases List.mem_cons.mp h with h1 | h1
      · exact Or.inl (h1 ▸ List.mem_cons_self _ _)
      · rcases ih h1 with h2 | ⟨c', hc', hg⟩
        · exact Or.inl (List.mem_cons_of_mem _ h2)
        · exact Or.inr ⟨c', List.mem_cons_of_mem _ hc', hg⟩

theorem distinctKeys_modifyFrom (g : Task → Task)
    (hg : ∀ c, c.distinctKeys = true → (g c).distinctKeys = true) (path : List TaskID)
    (t : Task) (h : t.distinctKeys = true) : (modifyFrom g path t).distinctKeys = true := by
  induction path generalizing t with
  | nil => exact hg t h
  | cons id rest ih =>
    simp only [modifyFrom]
    cases hc : t.Children with
    | none => exact h
    | some cs =>
      rw [Task.distinctKeys_iff, hc] at h
      simp only [SubTasks.entries] at h
      rw [Task.distinctKeys_iff, Task.setChildren_Children, SubTasks.entries_some,
        mapKeys_modifyScanned]
      refine ⟨h.1, distinctKeysEntries_of_forall ?_⟩
      intro e he
      rcases mem_modifyScanned he with h1 | ⟨c, hc', hgc⟩
      · exact distinctKeysEntries_mem h.2 (k := e.1) h1
      · rw [hgc]
        exact ih c (distinctKeysEntries_mem h.2 hc')

theorem distinctKeys_modifyAt (g : Task → Task)
    (hg : ∀ c, c.distinctKeys = true → (g c).distinctKeys = true) (path : List TaskID)
    (s : TaskMemoryStorage) (h : s.DistinctKeys) :
    TaskMemoryStorage.DistinctKeys { s with storage := modifyAt g path s.storage } := by
  cases path with
  | nil => exact h
  | cons a rest =>
    refine ⟨?_, distinctKeysEntries_of_forall ?_⟩
    · simp only [modifyAt, mapKeys_mapModify]; exact h.1
    · intro e he
      rcases mem_mapModify he with h1 | ⟨c, hc', hgc⟩
      · exact distinctKeysEntries_mem h.2 (k := e.1) h1
      · rw [hgc]
        exact distinctKeys_modifyFrom g hg rest c (distinctKeysEntries_mem h.2 hc')

theorem addChild_distinctKeys {T : Task} (hT : T.distinctKeys = true) (p : Task)
    (hp : p.distinctKeys = true) : (addChild T p).distinctKeys = true := by
  rw [Task.distinctKeys_iff] at hp ⊢
  simp only [addChild, Task.setChildren_Children, SubTasks.entries_some]
  refine ⟨mapKeys_mapSet_nodup _ _ hp.1, distinctKeysEntries_of_forall ?_⟩
  intro e he
  rcases mem_mapSet he with h1 | h1
  · rw [h1]; exact hT
  · exact distinctKeysEntries_mem hp.2 (k := e.1) h1

theorem removeChild_distinctKeys (x : TaskID) (p : Task) (hp : p.distinctKeys = true) :
    (removeChild x p).distinctKeys = true := by
  rw [Task.distinctKeys_iff] at hp ⊢
  rw [removeChild_entries]
  refine ⟨hp.1.sublist (mapKeys_mapErase x _).1, distinctKeysEntries_of_forall ?_⟩
  intro e he
  exact distinctKeysEntries_mem hp.2 (k := e.1) (mem_mapErase he).1

theorem storage_mapSet_distinctKeys (s : TaskMemoryStorage) (T : Task) (h : s.DistinctKeys)
    (hT : T.distinctKeys = true) :
    TaskMemoryStorage.DistinctKeys { s with storage := mapSet T.ID T s.storage } := by
  refine ⟨mapKeys_mapSet_nodup _ _ h.1, distinctKeysEntries_of_forall ?_⟩
  intro e he
  rcases mem_mapSet he with h1 | h1
  · rw [h1]; exact hT
  · exact distinctKeysEntries_mem h.2 (k := e.1) h1

theorem storage_Insert_distinctKeys (s : TaskMemoryStorage) (P : List TaskID) (T : Task)
    (h : s.DistinctKeys) (hT : T.distinctKeys = true) : (s.Insert P T).1.DistinctKeys := by
  cases P with
  | nil => exact storage_mapSet_distinctKeys s T h hT
  | cons a rest =>
    simp only [TaskMemoryStorage.Insert]
    cases s.search (a :: rest) with
    | error e => exact h
    | ok p => exact distinctKeys_modifyAt _ (addChild_distinctKeys hT) _ s h

theorem storage_Update_distinctKeys (s : TaskMemoryStorage) (P : List TaskID) (T : Task)
    (h : s.DistinctKeys) (hT : T.distinctKeys = true) : (s.Update P T).1.DistinctKeys := by
  rcases List.eq_nil_or_concat P with rfl | ⟨P', x, rfl⟩
  · exact h
  · rw [List.concat_eq_append]
    cases P' with
    | nil =>
      simp only [List.nil_append, TaskMemoryStorage.Update]
      cases mapGet T.ID s.storage with
      | none => exact h
      | some _ => exact storage_mapSet_distinctKeys s T h hT
    | cons a r =>
      rw [Update_snoc s (a :: r) x T (List.cons_ne_nil _ _)]
      cases s.search (a :: r) with
      | error e => exact h
      | ok p => exact distinctKeys_modifyAt _ (addChild_distinctKeys hT) _ s h

theorem storage_Delete_distinctKeys (s : TaskMemoryStorage) (P : List TaskID)
    (h : s.DistinctKeys) : (s.Delete P).1.DistinctKeys := by
  rcases List.eq_nil_or_concat P with rfl | ⟨P', x, rfl⟩
  · exact h
  · rw [List.concat_eq_append]
    cases P' with
    | nil =>
      simp only [List.nil_append, TaskMemoryStorage.Delete]
      cases mapGet x s.storage with
      | none => exact h
      | some _ =>
        refine ⟨h.1.sublist (mapKeys_mapErase x _).1, distinctKeysEntries_of_forall ?_⟩
        intro e he
        exact distinctKeysEntries_mem h.2 (k := e.1) (mem_mapErase he).1
    | cons a r =>
      rw [Delete_snoc s (a :: r) x (List.cons_ne_nil _ _)]
      cases s.search (a :: r) with
      | error e => exact h
      | ok p => exact distinctKeys_modifyAt _ (removeChild_distinctKeys x) _ s h

theorem searchFrom_distinctKeys {t p : Task} {path : List TaskID}
    (ht : t.distinctKeys = true) (h : searchFrom t path = .ok p) : p.distinctKeys = true := by
  induction path generalizing t with
  | nil => simp only [searchFrom, Except.ok.injEq] at h; rw [← h]; exact ht
  | cons id rest ih =>
    simp only [searchFrom] at h
    cases hs : scanChildren id t.Children.entries none with
    | none => rw [hs] at h; cases h
    | some c =>
      rw [hs] at h
      obtain ⟨_, k, hk⟩ := scanChildren_some hs
      exact ih (distinctKeysEntries_mem ((Task.distinctKeys_iff t).mp ht).2 hk) h

theorem search_distinctKeys {s : TaskMemoryStorage} (hs : s.DistinctKeys)
    {path : List TaskID} {p : Task} (h : s.search path = .ok p) : p.distinctKeys = true := by
  cases path with
  | nil => cases h
  | cons a rest =>
    simp only [TaskMemoryStorage.search] at h
    cases hm : mapGet a s.storage with
    | none => rw [hm] at h; cases h
    | some t =>
      rw [hm] at h
      exact searchFrom_distinctKeys (distinctKeysEntries_mem hs.2 (mapGet_mem hm)) h

theorem mergeFields_distinctKeys (t : Task) (fields : UpdateFields) :
    (TaskStorageService.mergeFields t fields).distinctKeys = t.distinctKeys := by
  rw [Bool.eq_iff_iff, Task.distinctKeys_iff, Task.distinctKeys_iff t, mergeFields_Children]

theorem call_distinctKeys (c : ServiceCall) (s : TaskMemoryStorage) (h : s.DistinctKeys) :
    (c.run s).DistinctKeys := by
  cases c with
  | create path fields =>
    simp only [ServiceCall.run]
    rw [Create_fst]
    exact storage_Insert_distinctKeys _ path _ h rfl
  | update path fields =>
    simp only [ServiceCall.run, TaskStorageService.Update]
    rcases hf : s.Find path with ⟨old, _ | e⟩
    · have hold := search_distinctKeys h (Find_ok_search hf)
      have hnew : (TaskStorageService.mergeFields old fields).distinctKeys = true := by
        rw [mergeFields_distinctKeys]; exact hold
      have := storage_Update_distinctKeys s path _ h hnew
      rcases hu : s.Update path (TaskStorageService.mergeFields old fields) with ⟨s1, _ | e⟩
      · rw [hu] at this; simp only [hu]; exact this
      · rw [hu] at this; simp only [hu]; exact this
    · exact h
  | delete path =>
    simp only [ServiceCall.run, TaskStorageService.Delete]
    rcases hf : s.Find path with ⟨old, _ | e⟩
    · have := storage_Delete_distinctKeys s path h
      rcases hu : s.Delete path with ⟨s1, _ | e⟩
      · rw [hu] at this; simp only [hu]; exact this
      · rw [hu] at this; simp only [hu]; exact this
    · exact h

theorem runCalls_distinctKeys (calls : List ServiceCall) (s : TaskMemoryStorage)
    (h : s.DistinctKeys) : (runCalls calls s).DistinctKeys := by
  induction calls generalizing s with
  | nil => exact h
  | cons c cs ih => exact ih _ (call_distinctKeys c s h)

theorem NewTaskMemoryStorage_distinctKeys : NewTaskMemoryStorage.DistinctKeys := by
  decide

/-- Claim C28. Resolution is independent of the sibling iteration order: on a
store in which every task is stored under a key equal to its own `ID` (the
lists being maps, one entry per key), `search(path)` returns for every path
the node or the error of the reference resolution that looks up `path[0]` as a
key of the root map and each later `path[i]` as a key of the children map of
the current node; the scan of the children returns, for every order of the
siblings, the child the key lookup returns; on the same store in any other
iteration order, at the root and at every depth, `search(path)` returns the
same error or the same node; and every state the service reaches from a new
storage is such a store. -/
theorem search_order_independent (s : TaskMemoryStorage) (hkey : s.KeyedByID)
    (hmap : s.DistinctKeys) :
    (∀ path, s.search path = s.lookupPath path) ∧
      (∀ (id : TaskID) (cs cs' : List (TaskID × Task)), cs.Perm cs' →
        keyedEntries cs = true → (mapKeys cs).Nodup →
        scanChildren id cs' none = scanChildren id cs none ∧
          scanChildren id cs none = mapGet id cs) ∧
      (∀ s' : TaskMemoryStorage, s'.KeyedByID → s'.DistinctKeys → s.sameMaps s' = true →
        ∀ path, sameResult (s.search path) (s'.search path) = true) ∧
      (∀ calls : List ServiceCall,
        (runCalls calls NewTaskMemoryStorage).KeyedByID ∧
          (runCalls calls NewTaskMemoryStorage).DistinctKeys ∧
          ∀ path, (runCalls calls NewTaskMemoryStorage).search path =
            (runCalls calls NewTaskMemoryStorage).lookupPath path) := by
  refine ⟨search_eq_lookupPath s hkey hmap, ?_, ?_, ?_⟩
  · intro id cs cs' hp hk hn
    have hk' := keyedEntries_perm hp hk
    have hn' : (mapKeys cs').Nodup := (hp.map Prod.fst).nodup_iff.mp hn
    rw [scanChildren_eq_mapGet hk' hn', scanChildren_eq_mapGet hk hn]
    exact ⟨mapGet_perm hp hn id, rfl⟩
  · intro s' hkey' hmap' hsame path
    rw [search_eq_lookupPath s hkey hmap, search_eq_lookupPath s' hkey' hmap']
    exact lookupPath_sameMaps s s' hsame path
  · intro calls
    have h1 := runCalls_keyed calls NewTaskMemoryStorage rfl
    have h2 := runCalls_distinctKeys calls NewTaskMemoryStorage NewTaskMemoryStorage_distinctKeys
    exact ⟨h1, h2, search_eq_lookupPath _ h1 h2⟩

theorem search_order_independent_witness :
    Fixture.store34.KeyedByID ∧ Fixture.store34.DistinctKeys ∧
      Fixture.store34.search [4, 2] = Fixture.store34.lookupPath [4, 2] ∧
      Fixture.store34.lookupPath [4, 2] = .ok Fixture.t2 ∧
      Fixture.store34.search [3, 1] = Fixture.store34.lookupPath [3, 1] ∧
      Fixture.store34.lookupPath [3, 1] = .error .ErrTaskNotFound ∧
      sameResult (Fixture.store34.search [4]) (Fixture.store34r.search [4]) = true ∧
      Fixture.store34r.search [4] = .ok Fixture.t4r :=
  have h := search_order_independent Fixture.store34 (by decide) (by decide)
  ⟨by decide, by decide, h.1 [4, 2], rfl, h.1 [3, 1], rfl,
    h.2.2.1 Fixture.store34r (by decide) (by decide) (by decide) [4], rfl⟩

end Tasks
namespace Tasks

/-! ## The status codes of the item handler -/

theorem serviceError_status (err : GoError) :
    (serviceError err).Status = if err = .task .ErrTaskNotFound then 404 else 500 := by
  unfold serviceError
  split_ifs <;> rfl

theorem get_status {σ : Type} (svc : TaskService σ) (st : σ) (r : Request) :
    (TaskHandler.get svc st r).2.Status =
      match parseTaskIDPath r.URLPath with
      | .error _ => 400
      | .ok path =>
        match (svc.Find st path).2.2 with
        | some err => if err = .task .ErrTaskNotFound then 404 else 500
        | none => 200 := by
  unfold TaskHandler.get
  cases parseTaskIDPath r.URLPath with
  | error e => rfl
  | ok path =>
    rcases h : svc.Find st path with ⟨st1, t, _ | e⟩
    · simp only [h]; rfl
    · simp only [h]; exact serviceError_status e

theorem remove_status {σ : Type} (svc : TaskService σ) (st : σ) (r : Request) :
    (TaskHandler.remove svc st r).2.Status =
      match parseTaskIDPath r.URLPath with
      | .error _ => 400
      | .ok path =>
        match (svc.Delete st path).2.2 with
        | some err => if err = .task .ErrTaskNotFound then 404 else 500
        | none => 200 := by
  unfold TaskHandler.remove
  cases parseTaskIDPath r.URLPath with
  | error e => rfl
  | ok path =>
    rcases h : svc.Delete st path with ⟨st1, t, _ | e⟩
    · simp only [h]; rfl
    · simp only [h]; exact serviceError_status e

theorem put_status {σ : Type} (svc : TaskService σ) (st : σ) (r : Request) :
    (TaskHandler.put svc st r).2.Status =
      match parseTaskIDPath r.URLPath with
      | .error _ => 400
      | .ok path =>
        match r.Body with
        | .error _ => 400
        | .ok j =>
          match UpdateValidator.Validate j with
          | some _ => 400
          | none =>
            match (svc.Update st path ⟨j.Label, j.Completed⟩).2.2 with
            | some err => if err = .task .ErrTaskNotFound then 404 else 500
            | none => 200 := by
  unfold TaskHandler.put
  cases parseTaskIDPath r.URLPath with
  | error e => rfl
  | ok path =>
    cases r.Body with
    | error e => rfl
    | ok j =>
      rcases hv : UpdateValidator.Validate j with _ | e
      · rcases h : svc.Update st path ⟨j.Label, j.Completed⟩ with ⟨st1, t, _ | e⟩
        · simp only [hv, h]; rfl
        · simp only [hv, h]; exact serviceError_status e
      · simp only [hv]; rfl

theorem post_status {σ : Type} (svc : TaskService σ) (st : σ) (r : Request) :
    (TaskHandler.post svc st r).2.Status =
      match parseTaskIDPath r.URLPath with
      | .error _ => 400
      | .ok path =>
        match r.Body with
        | .error _ => 400
        | .ok j =>
          match CreateValidator.Validate j with
          | some _ => 400
          | none =>
            match (svc.Create st path ⟨j.Label.getD ""⟩).2.2 with
            | some err => if err = .task .ErrTaskNotFound then 404 else 500
            | none => 201 := by
  unfold TaskHandler.post
  cases parseTaskIDPath r.URLPath with
  | error e => rfl
  | ok path =>
    cases r.Body with
    | error e => rfl
    | ok j =>
      rcases hv : CreateValidator.Validate j with _ | e
      · rcases h : svc.Create st path ⟨j.Label.getD ""⟩ with ⟨st1, t, _ | e⟩
        · simp only [hv, h]; rfl
        · simp only [hv, h]; exact serviceError_status e
      · simp only [hv]; rfl

/-- Claim C21. Status mapping of the item handler: `TaskHandler` answers 405
to every method other than GET, POST, PUT, DELETE and OPTIONS and 200 to
OPTIONS; to GET, POST, PUT and DELETE it answers 400 exactly when the URL path
does not parse or, for POST and PUT, the body does not parse or is refused by
the validator; otherwise 404 exactly when the service returns
`ErrTaskNotFound`, 500 exactly when it returns another error, 201 exactly when
a POST succeeds and 200 exactly when a GET, PUT or DELETE succeeds. -/
theorem status_mapping {σ : Type} (svc : TaskService σ) (st : σ) (r : Request) :
    (r.Method ∉ ["GET", "POST", "PUT", "DELETE", "OPTIONS"] →
        (TaskHandler.ServeHTTP svc st r).2.Status = 405) ∧
      (r.Method = "OPTIONS" → (TaskHandler.ServeHTTP svc st r).2.Status = 200) ∧
      (r.Method ∈ ["GET", "POST", "PUT", "DELETE"] →
        ((TaskHandler.ServeHTTP svc st r).2.Status = 400 ↔ itemRefused r = true) ∧
          ((TaskHandler.ServeHTTP svc st r).2.Status = 404 ↔
            itemRefused r = false ∧
              serviceOutcome svc st r = some (.task .ErrTaskNotFound)) ∧
          ((TaskHandler.ServeHTTP svc st r).2.Status = 500 ↔
            itemRefused r = false ∧
              ∃ e, serviceOutcome svc st r = some e ∧ e ≠ .task .ErrTaskNotFound) ∧
          ((TaskHandler.ServeHTTP svc st r).2.Status = 201 ↔
            itemRefused r = false ∧ serviceOutcome svc st r = none ∧ r.Method = "POST") ∧
          ((TaskHandler.ServeHTTP svc st r).2.Status = 200 ↔
            itemRefused r = false ∧ serviceOutcome svc st r = none ∧ r.Method ≠ "POST")) := by
  refine ⟨?_, ?_, ?_⟩
  · intro h
    simp only [List.mem_cons, List.mem_singleton, List.not_mem_nil, or_false, not_or] at h
    obtain ⟨h1, h2, h3, h4, h5⟩ := h
    simp only [TaskHandler.ServeHTTP, h1, h2, h3, h4, h5, if_false]
    rfl
  · intro h
    simp only [TaskHandler.ServeHTTP, h]
    rfl
  · intro h
    simp only [List.mem_cons, List.mem_singleton, List.not_mem_nil, or_false] at h
    rcases h with h | h | h | h
    · have e : TaskHandler.ServeHTTP svc st r = TaskHandler.get svc st r := by
        simp only [TaskHandler.ServeHTTP, h, if_true]
      rw [e, get_status]
      simp only [itemRefused, refused, serviceOutcome, h]
      cases parseTaskIDPath r.URLPath with
      | error e => simp [isError]
      | ok path =>
        rcases hf : (svc.Find st path).2.2 with _ | err
        · simp [isError, hf]
        · by_cases he : err = .task .ErrTaskNotFound <;> simp [isError, hf, he]
    · have e : TaskHandler.ServeHTTP svc st r = TaskHandler.post svc st r := by
        simp only [TaskHandler.ServeHTTP, h]; rfl
      rw [e, post_status]
      simp only [itemRefused, refused, serviceOutcome, bodyRefused, h]
      cases parseTaskIDPath r.URLPath with
      | error e => simp [isError]
      | ok path =>
        cases r.Body with
        | error e => simp [isError]
        | ok j =>
          rcases hv : CreateValidator.Validate j with _ | e
          · rcases hf : (svc.Create st path ⟨j.Label.getD ""⟩).2.2 with _ | err
            · simp [isError, hv, hf]
            · by_cases he : err = .task .ErrTaskNotFound <;> simp [isError, hv, hf, he]
          · simp [isError, hv]
    · have e : TaskHandler.ServeHTTP svc st r = TaskHandler.put svc st r := by
        simp only [TaskHandler.ServeHTTP, h]; rfl
      rw [e, put_status]
      simp only [itemRefused, refused, serviceOutcome, bodyRefused, h]
      cases parseTaskIDPath r.URLPath with
      | error e => simp [isError]
      | ok path =>
        cases r.Body with
        | error e => simp [isError]
        | ok j =>
          rcases hv : UpdateValidator.Validate j with _ | e
          · rcases hf : (svc.Update st path ⟨j.Label, j.Completed⟩).2.2 with _ | err
            · simp [isError, hv, hf]
            · by_cases he : err = .task .ErrTaskNotFound <;> simp [isError, hv, hf, he]
          · simp [isError, hv]
    · have e : TaskHandler.ServeHTTP svc st r = TaskHandler.remove svc st r := by
        simp only [TaskHandler.ServeHTTP, h]; rfl
      rw [e, remove_status]
      simp only [itemRefused, refused, serviceOutcome, h]
      cases parseTaskIDPath r.URLPath with
      | error e => simp [isError]
      | ok path =>
        rcases hf : (svc.Delete st path).2.2 with _ | err
        · simp [isError, hf]
        · by_cases he : err = .task .ErrTaskNotFound <;> simp [isError, hf, he]

end Tasks
namespace Tasks

theorem status_mapping_witness :
    (TaskHandler.ServeHTTP storageService Fixture.store3
        ⟨"PATCH", "/tasks/3", .error (.http .ErrBadMediaType)⟩).2.Status = 405 ∧
      (TaskHandler.ServeHTTP storageService Fixture.store3
        ⟨"OPTIONS", "/tasks/3", .error (.http .ErrBadMediaType)⟩).2.Status = 200 :=
  ⟨(status_mapping storageService Fixture.store3
      ⟨"PATCH", "/tasks/3", .error (.http .ErrBadMediaType)⟩).1 (by decide),
    (status_mapping storageService Fixture.store3
      ⟨"OPTIONS", "/tasks/3", .error (.http .ErrBadMediaType)⟩).2.1 rfl⟩

/-! ## Refused bodies never reach the service -/

theorem post_refused {σ : Type} (svc : TaskService σ) (st : σ) (r : Request)
    (h : bodyRefused CreateValidator.Validate r = true) :
    ∃ err, TaskHandler.post svc st r = (st, ErrorAsJSON 400 err) := by
  unfold TaskHandler.post
  unfold bodyRefused at h
  cases parseTaskIDPath r.URLPath with
  | error e => exact ⟨_, rfl⟩
  | ok path =>
    cases hb : r.Body with
    | error e => exact ⟨_, rfl⟩
    | ok j =>
      rw [hb] at h
      rcases hv : CreateValidator.Validate j with _ | e
      · simp [hv] at h
      · simp only [hv]; exact ⟨_, rfl⟩

theorem put_refused {σ : Type} (svc : TaskService σ) (st : σ) (r : Request)
    (h : bodyRefused UpdateValidator.Validate r = true) :
    ∃ err, TaskHandler.put svc st r = (st, ErrorAsJSON 400 err) := by
  unfold TaskHandler.put
  unfold bodyRefused at h
  cases parseTaskIDPath r.URLPath with
  | error e => exact ⟨_, rfl⟩
  | ok path =>
    cases hb : r.Body with
    | error e => exact ⟨_, rfl⟩
    | ok j =>
      rw [hb] at h
      rcases hv : UpdateValidator.Validate j with _ | e
      · simp [hv] at h
      · simp only [hv]; exact ⟨_, rfl⟩

theorem roots_post_refused {σ : Type} (svc : TaskService σ) (st : σ) (r : Request)
    (h : bodyRefused CreateValidator.Validate r = true) :
    ∃ err, TasksHandler.post svc st r = (st, ErrorAsJSON 400 err) := by
  unfold TasksHandler.post
  unfold bodyRefused at h
  cases hb : r.Body with
  | error e => exact ⟨_, rfl⟩
  | ok j =>
    rw [hb] at h
    rcases hv : CreateValidator.Validate j with _ | e
    · simp [hv] at h
    · simp only [hv]; exact ⟨_, rfl⟩

theorem post_refused_any {σ τ : Type} (svc : TaskService σ) (svc' : TaskService τ) (st : σ)
    (st' : τ) (r : Request) (h : bodyRefused CreateValidator.Validate r = true) :
    (TaskHandler.post svc st r).2 = (TaskHandler.post svc' st' r).2 := by
  unfold TaskHandler.post
  unfold bodyRefused at h
  cases parseTaskIDPath r.URLPath with
  | error e => rfl
  | ok path =>
    cases hb : r.Body with
    | error e => rfl
    | ok j =>
      rw [hb] at h
      rcases hv : CreateValidator.Validate j with _ | e
      · simp [hv] at h
      · simp only [hv]

theorem put_refused_any {σ τ : Type} (svc : TaskService σ) (svc' : TaskService τ) (st : σ)
    (st' : τ) (r : Request) (h : bodyRefused UpdateValidator.Validate r = true) :
    (TaskHandler.put svc st r).2 = (TaskHandler.put svc' st' r).2 := by
  unfold TaskHandler.put
  unfold bodyRefused at h
  cases parseTaskIDPath r.URLPath with
  | error e => rfl
  | ok path =>
    cases hb : r.Body with
    | error e => rfl
    | ok j =>
      rw [hb] at h
      rcases hv : UpdateValidator.Validate j with _ | e
      · simp [hv] at h
      · simp only [hv]

theorem roots_post_refused_any {σ τ : Type} (svc : TaskService σ) (svc' : TaskService τ)
    (st : σ) (st' : τ) (r : Request) (h : bodyRefused CreateValidator.Validate r = true) :
    (TasksHandler.post svc st r).2 = (TasksHandler.post svc' st' r).2 := by
  unfold TasksHandler.post
  unfold bodyRefused at h
  cases hb : r.Body with
  | error e => rfl
  | ok j =>
    rw [hb] at h
    rcases hv : CreateValidator.Validate j with _ | e
    · simp [hv] at h
    · simp only [hv]

/-- Claim C22. Validation precedes the service: for `TaskHandler` POST and PUT
and for `TasksHandler` POST, whenever the body does not parse or is refused by
`CreateValidator` (POST) or `UpdateValidator` (PUT), the status is 400 and the
state of the service, store and counter, is the one before the request,
whether or not the addressed path resolves; the service is not invoked, the
response being the same over every other service and state. -/
theorem validation_precedes_service {σ : Type} (svc : TaskService σ) (st : σ) (r : Request) :
    (r.Method = "POST" → bodyRefused CreateValidator.Validate r = true →
        ((TaskHandler.ServeHTTP svc st r).1 = st ∧
            (TaskHandler.ServeHTTP svc st r).2.Status = 400 ∧
            ∀ (τ : Type) (svc' : TaskService τ) (st' : τ),
              (TaskHandler.ServeHTTP svc' st' r).2 = (TaskHandler.ServeHTTP svc st r).2) ∧
          ((TasksHandler.ServeHTTP svc st r).1 = st ∧
            (TasksHandler.ServeHTTP svc st r).2.Status = 400 ∧
            ∀ (τ : Type) (svc' : TaskService τ) (st' : τ),
              (TasksHandler.ServeHTTP svc' st' r).2 = (TasksHandler.ServeHTTP svc st r).2)) ∧
      (r.Method = "PUT" → bodyRefused UpdateValidator.Validate r = true →
        (TaskHandler.ServeHTTP svc st r).1 = st ∧
          (TaskHandler.ServeHTTP svc st r).2.Status = 400 ∧
          ∀ (τ : Type) (svc' : TaskService τ) (st' : τ),
            (TaskHandler.ServeHTTP svc' st' r).2 = (TaskHandler.ServeHTTP svc st r).2) := by
  refine ⟨?_, ?_⟩
  · intro hm hb
    have e1 : ∀ (τ : Type) (svc' : TaskService τ) (st' : τ),
        TaskHandler.ServeHTTP svc' st' r = TaskHandler.post svc' st' r := by
      intro τ svc' st'
      simp only [TaskHandler.ServeHTTP, hm]; rfl
    have e2 : ∀ (τ : Type) (svc' : TaskService τ) (st' : τ),
        TasksHandler.ServeHTTP svc' st' r = TasksHandler.post svc' st' r := by
      intro τ svc' st'
      simp only [TasksHandler.ServeHTTP, hm]; rfl
    obtain ⟨err, h1⟩ := post_refused svc st r hb
    obtain ⟨err', h2⟩ := roots_post_refused svc st r hb
    refine ⟨⟨?_, ?_, ?_⟩, ?_, ?_, ?_⟩
    · rw [e1, h1]
    · rw [e1, h1]; rfl
    · intro τ svc' st'
      rw [e1, e1]; exact post_refused_any svc' svc st' st r hb
    · rw [e2, h2]
    · rw [e2, h2]; rfl
    · intro τ svc' st'
      rw [e2, e2]; exact roots_post_refused_any svc' svc st' st r hb
  · intro hm hb
    have e1 : ∀ (τ : Type) (svc' : TaskService τ) (st' : τ),
        TaskHandler.ServeHTTP svc' st' r = TaskHandler.put svc' st' r := by
      intro τ svc' st'
      simp only [TaskHandler.ServeHTTP, hm]; rfl
    obtain ⟨err, h1⟩ := put_refused svc st r hb
    refine ⟨?_, ?_, ?_⟩
    · rw [e1, h1]
    · rw [e1, h1]; rfl
    · intro τ svc' st'
      rw [e1, e1]; exact put_refused_any svc' svc st' st r hb

theorem validation_precedes_service_witness :
    Fixture.store3.Find [9] = (Task.zero, some .ErrTaskNotFound) ∧
      TaskHandler.ServeHTTP storageService Fixture.store3
          ⟨"POST", "/tasks/9", .ok ⟨some "", none⟩⟩ =
        (Fixture.store3, ErrorAsJSON 400 (.task .ErrTaskLabelIsNotValid)) ∧
      (TaskHandler.ServeHTTP storageService Fixture.store3
          ⟨"POST", "/tasks/9", .ok ⟨some "", none⟩⟩).1 = Fixture.store3 ∧
      (TaskHandler.ServeHTTP storageService Fixture.store3
          ⟨"PUT", "/tasks/9", .ok ⟨none, none⟩⟩).2.Status = 400 :=
  ⟨rfl, rfl,
    ((validation_precedes_service storageService Fixture.store3
      ⟨"POST", "/tasks/9", .ok ⟨some "", none⟩⟩).1 rfl rfl).1.1,
    ((validation_precedes_service storageService Fixture.store3
      ⟨"PUT", "/tasks/9", .ok ⟨none, none⟩⟩).2 rfl rfl).2.1⟩

/-! ## The order of the listing -/

theorem sortByTaskID_perm (tasks : List Task) : (sortByTaskID tasks).Perm tasks :=
  List.perm_insertionSort _ tasks

theorem sortByTaskID_sorted (tasks : List Task) :
    (sortByTaskID tasks).Sorted (fun a b => a.ID ≤ b.ID) :=
  List.sorted_insertionSort _ tasks

theorem sortByTaskID_strict (tasks : List Task) (h : (tasks.map Task.ID).Nodup) :
    (sortByTaskID tasks).Sorted (fun a b => a.ID < b.ID) := by
  have hn : ((sortByTaskID tasks).map Task.ID).Nodup :=
    ((sortByTaskID_perm tasks).map Task.ID).nodup_iff.mpr h
  have hs := sortByTaskID_sorted tasks
  rw [List.Sorted] at hs ⊢
  rw [List.Nodup, List.pairwise_map] at hn
  exact (hs.and hn).imp (fun h => lt_of_le_of_ne h.1 h.2)

/-- Claim C23. Listing order: whenever the service's `FindAll` returns a list
of tasks without an error, `TasksHandler` GET answers 200 and the list it
places under `tasks` is a permutation of the returned list, in ascending order
of the task `ID`, and in strictly ascending order when the `ID`s of the
returned tasks are pairwise distinct. -/
theorem listing_sorted {σ : Type} (svc : TaskService σ) (st st1 : σ) (r : Request)
    (tasks : List Task) (h : svc.FindAll st = (st1, tasks, none)) :
    ∃ listed, (TasksHandler.get svc st r).2 = ⟨200, none, .tasks listed⟩ ∧
      listed.Perm tasks ∧ listed.Sorted (fun a b => a.ID ≤ b.ID) ∧
      ((tasks.map Task.ID).Nodup → listed.Sorted (fun a b => a.ID < b.ID)) := by
  refine ⟨sortByTaskID tasks, ?_, sortByTaskID_perm tasks, sortByTaskID_sorted tasks,
    sortByTaskID_strict tasks⟩
  simp only [TasksHandler.get, h]
  rfl

theorem listing_sorted_witness :
    storageService.FindAll Fixture.store34r = (Fixture.store34r, [Fixture.t4r, Fixture.t3], none) ∧
      ∃ listed, (TasksHandler.get storageService Fixture.store34r
          ⟨"GET", "/tasks", .error (.http .ErrBadMediaType)⟩).2 = ⟨200, none, .tasks listed⟩ ∧
        listed.Perm [Fixture.t4r, Fixture.t3] ∧ listed.Sorted (fun a b => a.ID ≤ b.ID) ∧
        (([Fixture.t4r, Fixture.t3].map Task.ID).Nodup →
          listed.Sorted (fun a b => a.ID < b.ID)) :=
  ⟨rfl, listing_sorted storageService Fixture.store34r Fixture.store34r
    ⟨"GET", "/tasks", .error (.http .ErrBadMediaType)⟩ [Fixture.t4r, Fixture.t3] rfl⟩

end Tasks
namespace Tasks

/-! ## The wire format of the children -/

theorem intercalate_go_append (s x y : String) (l : List String) :
    String.intercalate.go (x ++ y) s l = x ++ String.intercalate.go y s l := by
  induction l generalizing y with
  | nil => rfl
  | cons a as ih =>
    simp only [String.intercalate.go]
    rw [String.append_assoc, String.append_assoc, ← String.append_assoc y, ih]

theorem intercalate_cons_cons (s a b : String) (l : List String) :
    s.intercalate (a :: b :: l) = a ++ s ++ s.intercalate (b :: l) := by
  simp only [String.intercalate, String.intercalate.go]
  rw [String.append_assoc, intercalate_go_append, intercalate_go_append]
  rw [String.append_assoc]

theorem join_foldl (l : List String) (acc : String) :
    l.foldl (fun r s => r ++ s) acc = acc ++ String.join l := by
  induction l generalizing acc with
  | nil => simp [String.join]
  | cons a as ih =>
    simp only [List.foldl_cons, String.join]
    rw [ih, ih ("" ++ a)]
    simp [String.append_assoc]

theorem join_cons (a : String) (l : List String) :
    String.join (a :: l) = a ++ String.join l := by
  simp only [String.join, List.foldl_cons]
  rw [join_foldl, join_foldl l ""]
  simp

theorem intercalate_eq_join (s : String) (l : List String) :
    s.intercalate l = String.join (l.intersperse s) := by
  induction l with
  | nil => rfl
  | cons a r ih =>
    cases r with
    | nil => simp [String.intercalate, String.intercalate.go, join_cons, String.join]
    | cons b r' =>
      rw [intercalate_cons_cons, List.intersperse_cons₂, join_cons, join_cons, ih,
        String.append_assoc]

theorem length_intersperse (s : String) (l : List String) :
    (l.intersperse s).length = l.length + (l.length - 1) := by
  induction l with
  | nil => rfl
  | cons a r ih =>
    cases r with
    | nil => rfl
    | cons b r' =>
      rw [List.intersperse_cons₂, List.length_cons, List.length_cons, ih]
      simp only [List.length_cons]
      omega

theorem marshalLoop_eq (quote : String → String) (cs : List (TaskID × Task)) :
    marshalLoop quote cs cs.length =
      ",".intercalate (cs.map (fun e => marshalTask quote e.2)) := by
  induction cs with
  | nil => rfl
  | cons e r ih =>
    obtain ⟨k, t⟩ := e
    have hl : ((((k, t) :: r).length : Nat) : Int) - 1 = (r.length : Int) := by
      simp
    rw [marshalLoop, hl, ih]
    cases r with
    | nil => simp [String.intercalate, String.intercalate.go]
    | cons e' r' =>
      have hpos : ((((e' :: r').length : Nat) : Int) > 0) := by
        simp only [List.length_cons, Nat.cast_succ]; omega
      rw [if_pos hpos]
      simp only [List.map_cons]
      rw [intercalate_cons_cons]

/-- Claim C24. Wire format of children: for a `SubTasks` map with `n` entries
`MarshalJSON` returns `[`, the JSON encodings of exactly its `n` child tasks
with a comma between each two neighbours, `n - 1` commas in all, and `]`, each
child encoded in the same way; and a `Task` whose children map is absent or
has no entry is encoded with its identifier as a string, its label, its
completed flag and no `sub_tasks` field, while a task that has a child carries
the field `sub_tasks` with the text of `MarshalJSON` of its children. -/
theorem wire_format (quote : String → String) (sb : SubTasks) (t : Task) :
    SubTasks.MarshalJSON quote sb =
        "[" ++ ",".intercalate (sb.entries.map (fun e => marshalTask quote e.2)) ++ "]" ∧
      (",".intercalate (sb.entries.map (fun e => marshalTask quote e.2)) =
          String.join ((sb.entries.map (fun e => marshalTask quote e.2)).intersperse ",") ∧
        (sb.entries.map (fun e => marshalTask quote e.2)).length = sb.entries.length ∧
        ((sb.entries.map (fun e => marshalTask quote e.2)).intersperse ",").length =
          sb.entries.length + (sb.entries.length - 1)) ∧
      (t.Children.entries = [] →
        marshalTask quote t =
          "\x7b\"id\":\"" ++ String.mk (decimal t.ID) ++ "\",\"label\":" ++ quote t.Label ++
            ",\"completed\":" ++ (if t.Completed then "true" else "false") ++ "\x7d") ∧
      (t.Children.entries ≠ [] →
        marshalTask quote t =
          "\x7b\"id\":\"" ++ String.mk (decimal t.ID) ++ "\",\"label\":" ++ quote t.Label ++
            ",\"completed\":" ++ (if t.Completed then "true" else "false") ++
            (",\"sub_tasks\":" ++ SubTasks.MarshalJSON quote t.Children) ++ "\x7d") := by
  refine ⟨?_, ⟨intercalate_eq_join _ _, by simp, ?_⟩, ?_, ?_⟩
  · rw [SubTasks.MarshalJSON, marshalLoop_eq]
  · rw [length_intersperse, List.length_map]
  · intro h
    obtain ⟨i, l, c, cs⟩ := t
    cases cs with
    | none => simp [marshalTask, Task.ID, Task.Label, Task.Completed]
    | some cs =>
      simp only [Task.Children, SubTasks.entries] at h
      subst h
      simp [marshalTask, Task.ID, Task.Label, Task.Completed]
  · intro h
    obtain ⟨i, l, c, cs⟩ := t
    cases cs with
    | none => exact absurd rfl h
    | some cs =>
      cases cs with
      | nil => exact absurd rfl h
      | cons e es =>
        simp only [marshalTask, Task.ID, Task.Label, Task.Completed, Task.Children,
          SubTasks.MarshalJSON, SubTasks.entries]
        simp only [String.append_assoc]
        rfl

theorem wire_format_witness :
    marshalTask plainQuote Fixture.t2 =
        "\x7b\"id\":\"2\",\"label\":\"bar\",\"completed\":false\x7d" ∧
      marshalTask plainQuote Fixture.t4 =
        "\x7b\"id\":\"4\",\"label\":\"qux\",\"completed\":false,\"sub_tasks\":[\x7b\"id\":\"1\",\"label\":\"foo\",\"completed\":true\x7d,\x7b\"id\":\"2\",\"label\":\"bar\",\"completed\":false\x7d]\x7d" ∧
      SubTasks.MarshalJSON plainQuote none = "[]" :=
  ⟨((wire_format plainQuote none Fixture.t2).2.2.1 rfl).trans (by decide),
    ((wire_format plainQuote none Fixture.t4).2.2.2 (List.cons_ne_nil _ _)).trans (by decide),
    (wire_format plainQuote none Fixture.t2).1.trans (by decide)⟩

end Tasks
namespace Tasks

/-! ## What the returned values share with the tree -/

namespace Heap

theorem lookup_mem {β : Type} (a : Addr) (l : List (Addr × β)) (b : β)
    (h : l.lookup a = some b) : (a, b) ∈ l := by
  induction l with
  | nil => cases h
  | cons e r ih =>
    obtain ⟨a', b'⟩ := e
    by_cases hk : a = a'
    · subst hk
      simp only [List.lookup, beq_self_eq_true, Option.some.injEq] at h
      subst h
      exact List.mem_cons_self _ _
    · have hb : (a == a') = false := by simpa using hk
      simp only [List.lookup, hb] at h
      exact List.mem_cons_of_mem _ (ih h)

theorem lookup_map_ne {β : Type} (p q : Addr) (b : β) (l : List (Addr × β)) (h : p ≠ q) :
    (l.map (fun e => if e.1 = q then (q, b) else e)).lookup p = l.lookup p := by
  induction l with
  | nil => rfl
  | cons e r ih =>
    obtain ⟨a', b'⟩ := e
    by_cases ha : a' = q
    · have e1 : (if (a', b').1 = q then (q, b) else (a', b')) = (q, b) := if_pos ha
      have hb : (p == q) = false := by simpa using h
      have hb' : (p == a') = false := by rw [ha]; exact hb
      rw [List.map_cons, e1]
      simp only [List.lookup, hb, hb', ih]
    · have e1 : (if (a', b').1 = q then (q, b) else (a', b')) = (a', b') := if_neg ha
      rw [List.map_cons, e1]
      simp only [List.lookup, ih]

theorem entries_pointers (m : Memory) (c : Option Addr) (x : TaskID × Addr)
    (h : x ∈ m.entries c) : x.2 ∈ m.pointers := by
  cases c with
  | none => cases h
  | some a =>
    simp only [Memory.entries] at h
    cases hl : m.maps.lookup a with
    | none => rw [hl] at h; cases h
    | some es =>
      rw [hl] at h
      simp only [Option.getD_some] at h
      simp only [Memory.pointers, List.mem_flatMap, List.mem_map]
      exact ⟨(a, es), lookup_mem a _ es hl, x, h, rfl⟩

theorem entryGet_mem {k : TaskID} {es : List (TaskID × Addr)} {q : Addr}
    (h : entryGet k es = some q) : (k, q) ∈ es := by
  induction es with
  | nil => cases h
  | cons e r ih =>
    obtain ⟨k', q'⟩ := e
    by_cases hk : k' = k
    · simp only [entryGet, hk, if_true, Option.some.injEq] at h
      subst h; subst hk
      exact List.mem_cons_self _ _
    · simp only [entryGet, hk, if_false] at h
      exact List.mem_cons_of_mem _ (ih h)

theorem scanChildren_mem (m : Memory) (id : TaskID) (es : List (TaskID × Addr))
    (acc : Option Addr) (c : Addr) (h : scanChildren m id es acc = some c) :
    acc = some c ∨ ∃ x ∈ es, x.2 = c := by
  induction es generalizing acc with
  | nil => exact Or.inl h
  | cons e r ih =>
    obtain ⟨k, q⟩ := e
    simp only [scanChildren] at h
    split_ifs at h with hid
    · rcases ih _ h with h1 | ⟨x, hx, hc⟩
      · right
        exact ⟨(k, q), List.mem_cons_self _ _, by cases h1; rfl⟩
      · exact Or.inr ⟨x, List.mem_cons_of_mem _ hx, hc⟩
    · rcases ih _ h with h1 | ⟨x, hx, hc⟩
      · exact Or.inl h1
      · exact Or.inr ⟨x, List.mem_cons_of_mem _ hx, hc⟩

theorem searchFrom_pointer (m : Memory) (t : Addr) (rest : List TaskID) (q : Addr)
    (h : searchFrom m t rest = .ok q) : q = t ∨ q ∈ m.pointers := by
  induction rest generalizing t with
  | nil => simp only [searchFrom, Except.ok.injEq] at h; exact Or.inl h.symm
  | cons id r ih =>
    simp only [searchFrom] at h
    cases hs : scanChildren m id (m.entries (m.task t).Children) none with
    | none => rw [hs] at h; cases h
    | some c =>
      rw [hs] at h
      have hc : c ∈ m.pointers := by
        rcases scanChildren_mem m id _ none c hs with h1 | ⟨x, hx, hxc⟩
        · cases h1
        · rw [← hxc]; exact entries_pointers m _ x hx
      rcases ih c h with h1 | h1
      · rw [h1]; exact Or.inr hc
      · exact Or.inr h1

theorem search_pointer (s : TaskMemoryStorage) (path : List TaskID) (q : Addr)
    (h : s.search path = .ok q) : q ∈ s.mem.pointers := by
  cases path with
  | nil => cases h
  | cons a rest =>
    simp only [TaskMemoryStorage.search] at h
    cases hg : entryGet a (s.mem.entries (some s.storage)) with
    | none => rw [hg] at h; cases h
    | some t =>
      rw [hg] at h
      have ht : t ∈ s.mem.pointers := entries_pointers s.mem _ (a, t) (entryGet_mem hg)
      rcases searchFrom_pointer s.mem t rest q h with h1 | h1
      · rw [h1]; exact ht
      · exact h1

theorem task_assign (m : Memory) (c : Option Addr) (k : TaskID) (q p : Addr) :
    (m.assign c k q).task p = m.task p := by
  cases c <;> rfl

theorem task_setTask_ne (m : Memory) (q p : Addr) (t : Task) (h : p ≠ q) :
    (m.setTask q t).task p = m.task p := by
  simp only [Memory.task, Memory.setTask, lookup_map_ne p q t m.tasks h]

theorem task_newTask (m : Memory) (t : Task) : (m.newTask t).1.task m.next = t := by
  simp [Memory.task, Memory.newTask, List.lookup]

theorem task_addChild (m : Memory) (parent q p : Addr) (h : p ≠ parent) :
    (addChild m parent q).task p = m.task p := by
  unfold addChild
  cases (m.task parent).Children with
  | some a => exact task_assign m _ _ _ _
  | none =>
    simp only []
    rw [task_assign, task_setTask_ne _ _ _ _ h]
    rfl

theorem mergeFields_sameMap (t : Task) (fields : UpdateFields) :
    (TaskStorageService.mergeFields t fields).Children = t.Children := by
  obtain ⟨fl, fc⟩ := fields
  cases fl <;> cases fc <;> rfl

theorem Find_ok (s : TaskMemoryStorage) (path : List TaskID) (t : Task)
    (h : s.Find path = (t, none)) : ∃ p, s.search path = .ok p ∧ t = s.mem.task p := by
  cases path with
  | nil => cases h
  | cons a rest =>
    simp only [TaskMemoryStorage.Find] at h
    cases hs : s.search (a :: rest) with
    | error e => rw [hs] at h; cases h
    | ok p => rw [hs] at h; cases h; exact ⟨p, rfl, rfl⟩

theorem storage_Update_task (s : TaskMemoryStorage) (path : List TaskID) (q p : Addr)
    (h : ∀ x ∈ s.mem.pointers, x ≠ p) : (s.Update path q).1.mem.task p = s.mem.task p := by
  match path with
  | [] => rfl
  | [a] =>
    simp only [TaskMemoryStorage.Update]
    cases entryGet (s.mem.task q).ID (s.mem.entries (some s.storage)) with
    | none => rfl
    | some _ => exact task_assign _ _ _ _ _
  | a :: b :: rest =>
    simp only [TaskMemoryStorage.Update]
    cases hs : s.search (a :: b :: rest).dropLast with
    | error e => rfl
    | ok parent =>
      exact task_addChild _ _ _ _ (fun hp => h parent (search_pointer s _ parent hs) hp.symm)

theorem storage_Insert_task (s : TaskMemoryStorage) (path : List TaskID) (q p : Addr)
    (h : ∀ x ∈ s.mem.pointers, x ≠ p) : (s.Insert path q).1.mem.task p = s.mem.task p := by
  match path with
  | [] => exact task_assign _ _ _ _ _
  | a :: rest =>
    simp only [TaskMemoryStorage.Insert]
    cases hs : s.search (a :: rest) with
    | error e => rfl
    | ok parent =>
      exact task_addChild _ _ _ _ (fun hp => h parent (search_pointer s _ parent hs) hp.symm)

theorem Create_result (s : TaskMemoryStorage) (path : List TaskID) (fields : CreateFields)
    (hv : s.mem.Valid) (s1 : TaskMemoryStorage) (t : Task)
    (h : TaskStorageService.Create s path fields = (s1, t, none)) :
    t = ⟨(s.NextTaskID).2, fields.Label, false, some s.mem.next⟩ ∧
      s1.mem.task (s.mem.next + 1) = t := by
  have hp : ∀ x ∈ ((s.mem.newMap).1.newTask
      ⟨(s.NextTaskID).2, fields.Label, false, some s.mem.next⟩).1.pointers,
      x ≠ s.mem.next + 1 := by
    intro x hx
    have hx' : x ∈ s.mem.pointers := by
      simpa [Memory.pointers, Memory.newTask, Memory.newMap] using hx
    exact Nat.ne_of_lt (Nat.lt_succ_of_lt (hv x hx'))
  have ht := storage_Insert_task
    { (s.NextTaskID).1 with mem := ((s.mem.newMap).1.newTask
      ⟨(s.NextTaskID).2, fields.Label, false, some s.mem.next⟩).1 } path (s.mem.next + 1)
    (s.mem.next + 1) hp
  have hcell : ((s.mem.newMap).1.newTask
      ⟨(s.NextTaskID).2, fields.Label, false, some s.mem.next⟩).1.task (s.mem.next + 1) =
      ⟨(s.NextTaskID).2, fields.Label, false, some s.mem.next⟩ :=
    task_newTask (s.mem.newMap).1 _
  simp only [TaskStorageService.Create] at h
  rcases hi : TaskMemoryStorage.Insert
    { (s.NextTaskID).1 with mem := ((s.mem.newMap).1.newTask
      ⟨(s.NextTaskID).2, fields.Label, false, some s.mem.next⟩).1 } path (s.mem.next + 1)
    with ⟨s2, _ | e⟩
  · rw [hi] at ht
    have h' : (s2, s2.mem.task (s.mem.next + 1), (none : Option TaskError)) = (s1, t, none) := by
      rw [← h]
      simp only [TaskMemoryStorage.NextTaskID, Memory.newMap, Memory.newTask] at hi ⊢
      rw [hi]
    cases h'
    rw [ht]
    exact ⟨hcell, rfl⟩
  · exfalso
    simp only [TaskMemoryStorage.NextTaskID, Memory.newMap, Memory.newTask] at hi h
    rw [hi] at h
    cases h

theorem Update_result (s : TaskMemoryStorage) (path : List TaskID) (fields : UpdateFields)
    (hv : s.mem.Valid) (s1 : TaskMemoryStorage) (t : Task)
    (h : TaskStorageService.Update s path fields = (s1, t, none)) :
    ∃ old, s.Find path = (old, none) ∧ t = TaskStorageService.mergeFields old fields ∧
      t.Children = old.Children ∧ s1.mem.task s.mem.next = t := by
  simp only [TaskStorageService.Update] at h
  rcases hf : s.Find path with ⟨old, _ | e⟩
  · rw [hf] at h
    simp only [] at h
    have hp : ∀ x ∈ (s.mem.newTask (TaskStorageService.mergeFields old fields)).1.pointers,
        x ≠ s.mem.next := by
      intro x hx
      have hx' : x ∈ s.mem.pointers := by
        simpa [Memory.pointers, Memory.newTask] using hx
      exact Nat.ne_of_lt (hv x hx')
    have ht := storage_Update_task
      { s with mem := (s.mem.newTask (TaskStorageService.mergeFields old fields)).1 } path
      s.mem.next s.mem.next hp
    have hcell := task_newTask s.mem (TaskStorageService.mergeFields old fields)
    rcases hu : TaskMemoryStorage.Update
      { s with mem := (s.mem.newTask (TaskStorageService.mergeFields old fields)).1 } path
      s.mem.next with ⟨s2, _ | e⟩
    · rw [hu] at ht
      have h' : (s2, s2.mem.task s.mem.next, (none : Option TaskError)) = (s1, t, none) := by
        rw [← h]
        simp only [Memory.newTask] at hu ⊢
        rw [hu]
      cases h'
      refine ⟨old, rfl, ?_, ?_, rfl⟩
      · rw [ht]; exact hcell
      · rw [ht]
        simp only [] at hcell
        rw [hcell]
        exact mergeFields_sameMap old fields
    · exfalso
      simp only [Memory.newTask] at hu h
      rw [hu] at h
      cases h
  · rw [hf] at h
    cases h

theorem Delete_result (s : TaskMemoryStorage) (path : List TaskID)
    (s1 : TaskMemoryStorage) (t : Task)
    (h : TaskStorageService.Delete s path = (s1, t, none)) : s.Find path = (t, none) := by
  simp only [TaskStorageService.Delete] at h
  rcases hf : s.Find path with ⟨old, _ | e⟩
  · rw [hf] at h
    rcases hd : s.Delete path with ⟨s2, _ | e⟩
    · rw [hd] at h; cases h; rfl
    · rw [hd] at h; cases h
  · rw [hf] at h
    cases h

end Heap

namespace Heap

theorem lookup_of_mem_keys {β : Type} (a : Addr) (l : List (Addr × β))
    (h : a ∈ l.map Prod.fst) : ∃ b, l.lookup a = some b := by
  induction l with
  | nil => cases h
  | cons e r ih =>
    obtain ⟨a', b'⟩ := e
    by_cases hk : a = a'
    · subst hk
      exact ⟨b', by simp [List.lookup]⟩
    · have hb : (a == a') = false := by simpa using hk
      have hr : a ∈ r.map Prod.fst := by
        rcases List.mem_cons.mp h with h1 | h1
        · exact absurd h1 hk
        · exact h1
      obtain ⟨b, hb'⟩ := ih hr
      exact ⟨b, by simp only [List.lookup, hb, hb']⟩

theorem lookup_map_self {β : Type} (a : Addr) (b : β) (l : List (Addr × β))
    (h : a ∈ l.map Prod.fst) :
    (l.map (fun e => if e.1 = a then (a, b) else e)).lookup a = some b := by
  induction l with
  | nil => cases h
  | cons e r ih =>
    obtain ⟨a', b'⟩ := e
    by_cases ha : a' = a
    · have e1 : (if (a', b').1 = a then (a, b) else (a', b')) = (a, b) := if_pos ha
      rw [List.map_cons, e1]
      simp [List.lookup]
    · have e1 : (if (a', b').1 = a then (a, b) else (a', b')) = (a', b') := if_neg ha
      have hb : (a == a') = false := by simpa using fun h : a = a' => ha h.symm
      have hr : a ∈ r.map Prod.fst := by
        rcases List.mem_cons.mp h with h1 | h1
        · exact absurd h1.symm ha
        · exact h1
      rw [List.map_cons, e1]
      simp only [List.lookup, hb, ih hr]

theorem task_mem (m : Memory) (p : Addr) (h : p ∈ m.taskAddrs) : (p, m.task p) ∈ m.tasks := by
  obtain ⟨b, hb⟩ := lookup_of_mem_keys p m.tasks h
  have : m.task p = b := by simp [Memory.task, hb]
  rw [this]
  exact lookup_mem p m.tasks b hb

theorem children_allocated (m : Memory) (hw : m.WellFormed) (p a : Addr)
    (hp : p ∈ m.taskAddrs) (h : (m.task p).Children = some a) : a ∈ m.mapAddrs :=
  hw.2.1 (p, m.task p) (task_mem m p hp) a h

theorem entries_setEntries_self (m : Memory) (a : Addr) (es : List (TaskID × Addr))
    (h : a ∈ m.mapAddrs) : (m.setEntries a es).entries (some a) = es := by
  simp only [Memory.entries, Memory.setEntries, lookup_map_self a es m.maps h, Option.getD_some]

theorem entries_setEntries_ne (m : Memory) (a b : Addr) (es : List (TaskID × Addr))
    (h : b ≠ a) : (m.setEntries a es).entries (some b) = m.entries (some b) := by
  simp only [Memory.entries, Memory.setEntries, lookup_map_ne b a es m.maps h]

theorem task_setTask_self (m : Memory) (p : Addr) (t : Task) (h : p ∈ m.taskAddrs) :
    (m.setTask p t).task p = t := by
  simp only [Memory.task, Memory.setTask, lookup_map_self p t m.tasks h, Option.getD_some]

theorem entryGet_entrySet_self (k : TaskID) (p : Addr) (es : List (TaskID × Addr)) :
    entryGet k (entrySet k p es) = some p := by
  induction es with
  | nil => simp [entrySet, entryGet]
  | cons e r ih =>
    obtain ⟨k', q⟩ := e
    by_cases h : k' = k
    · simp [entrySet, entryGet, h]
    · simp [entrySet, entryGet, h, ih]

theorem scanChildren_congr (m m' : Memory) (id : TaskID) (es : List (TaskID × Addr))
    (acc : Option Addr) (h : ∀ x ∈ es, m'.task x.2 = m.task x.2) :
    scanChildren m' id es acc = scanChildren m id es acc := by
  induction es generalizing acc with
  | nil => rfl
  | cons e r ih =>
    obtain ⟨k, q⟩ := e
    have hq : m'.task q = m.task q := h (k, q) (List.mem_cons_self _ _)
    have hr : ∀ x ∈ r, m'.task x.2 = m.task x.2 := fun x hx => h x (List.mem_cons_of_mem _ hx)
    simp only [scanChildren, hq]
    split_ifs
    · exact ih _ hr
    · exact ih _ hr

theorem searchFrom_congr (m m' : Memory) (htask : ∀ p ∈ m.pointers, m'.task p = m.task p)
    (t : Addr) (ht : m'.task t = m.task t) (rest : List TaskID)
    (hmaps : ∀ b ∈ mapsReadFrom m t rest, m'.entries (some b) = m.entries (some b)) :
    searchFrom m' t rest = searchFrom m t rest := by
  induction rest generalizing t with
  | nil => rfl
  | cons id r ih =>
    have hent : m'.entries (m.task t).Children = m.entries (m.task t).Children := by
      cases hc : (m.task t).Children with
      | none => rfl
      | some b =>
        apply hmaps
        simp [mapsReadFrom, hc]
    have hscan : scanChildren m' id (m.entries (m.task t).Children) none =
        scanChildren m id (m.entries (m.task t).Children) none :=
      scanChildren_congr m m' id _ none
        (fun x hx => htask x.2 (entries_pointers m _ x hx))
    simp only [searchFrom, ht, hent, hscan]
    cases hs : scanChildren m id (m.entries (m.task t).Children) none with
    | none => rfl
    | some c =>
      have hc : c ∈ m.pointers := by
        rcases scanChildren_mem m id _ none c hs with h1 | ⟨x, hx, hxc⟩
        · cases h1
        · rw [← hxc]; exact entries_pointers m _ x hx
      apply ih c (htask c hc)
      intro b hb
      apply hmaps
      simp only [mapsReadFrom, hs, List.mem_append]
      exact Or.inr hb

theorem search_congr_mem (s s' : TaskMemoryStorage) (hst : s'.storage = s.storage)
    (htask : ∀ p ∈ s.mem.pointers, s'.mem.task p = s.mem.task p) (path : List TaskID)
    (hmaps : ∀ b ∈ s.mapsRead path, s'.mem.entries (some b) = s.mem.entries (some b)) :
    s'.search path = s.search path := by
  cases path with
  | nil => rfl
  | cons a rest =>
    have hroot : s'.mem.entries (some s.storage) = s.mem.entries (some s.storage) :=
      hmaps _ (by simp [TaskMemoryStorage.mapsRead])
    simp only [TaskMemoryStorage.search, hst, hroot]
    cases hg : entryGet a (s.mem.entries (some s.storage)) with
    | none => rfl
    | some t =>
      have ht : t ∈ s.mem.pointers := entries_pointers s.mem _ (a, t) (entryGet_mem hg)
      apply searchFrom_congr s.mem s'.mem htask t (htask t ht)
      intro b hb
      apply hmaps
      simp only [TaskMemoryStorage.mapsRead, hg, List.mem_cons]
      exact Or.inr hb

end Heap

namespace Heap

theorem mapsReadFrom_allocated (m : Memory) (hw : m.WellFormed) (t : Addr)
    (ht : t ∈ m.taskAddrs) (rest : List TaskID) :
    ∀ b ∈ mapsReadFrom m t rest, b ∈ m.mapAddrs := by
  induction rest generalizing t with
  | nil => intro b hb; cases hb
  | cons id r ih =>
    intro b hb
    simp only [mapsReadFrom, List.mem_append] at hb
    rcases hb with hb | hb
    · apply children_allocated m hw t b ht
      simpa using hb
    · cases hs : scanChildren m id (m.entries (m.task t).Children) none with
      | none => rw [hs] at hb; cases hb
      | some c =>
        rw [hs] at hb
        have hc : c ∈ m.pointers := by
          rcases scanChildren_mem m id _ none c hs with h1 | ⟨x, hx, hxc⟩
          · cases h1
          · rw [← hxc]; exact entries_pointers m _ x hx
        exact ih c (hw.1 c hc) b hb

theorem mapsRead_allocated (s : TaskMemoryStorage) (hw : s.WellFormed) (path : List TaskID) :
    ∀ b ∈ s.mapsRead path, b ∈ s.mem.mapAddrs := by
  cases path with
  | nil => intro b hb; cases hb
  | cons a rest =>
    intro b hb
    simp only [TaskMemoryStorage.mapsRead, List.mem_cons] at hb
    rcases hb with hb | hb
    · rw [hb]; exact hw.2
    · cases hg : entryGet a (s.mem.entries (some s.storage)) with
      | none => rw [hg] at hb; cases hb
      | some t =>
        rw [hg] at hb
        have ht : t ∈ s.mem.pointers := entries_pointers s.mem _ (a, t) (entryGet_mem hg)
        exact mapsReadFrom_allocated s.mem hw.1 t (hw.1.1 t ht) rest b hb

theorem lookup_cons_ne {β : Type} (p q : Addr) (b : β) (l : List (Addr × β)) (h : p ≠ q) :
    List.lookup p ((q, b) :: l) = List.lookup p l := by
  have hb : (p == q) = false := by simpa using h
  simp only [List.lookup, hb]

theorem task_newTask_ne (m : Memory) (t : Task) (p : Addr) (h : p ≠ m.next) :
    (m.newTask t).1.task p = m.task p := by
  simp only [Memory.task, Memory.newTask, lookup_cons_ne p m.next t m.tasks h]

theorem entries_newMap_ne (m : Memory) (b : Addr) (h : b ≠ m.next) :
    (m.newMap).1.entries (some b) = m.entries (some b) := by
  simp only [Memory.entries, Memory.newMap, lookup_cons_ne b m.next [] m.maps h]

theorem entries_newMap_self (m : Memory) : (m.newMap).1.entries (some m.next) = [] := by
  simp [Memory.entries, Memory.newMap, List.lookup]

theorem pointer_lt (m : Memory) (hw : m.WellFormed) (p : Addr) (hp : p ∈ m.pointers) :
    p < m.next :=
  hw.2.2.1 p (hw.1 p hp)

theorem search_newTask (s s' : TaskMemoryStorage) (hw : s.WellFormed) (t : Task)
    (hst : s'.storage = s.storage) (hmem : s'.mem = (s.mem.newTask t).1)
    (path : List TaskID) : s'.search path = s.search path := by
  apply search_congr_mem s s' hst
  · intro p hp
    rw [hmem]
    exact task_newTask_ne s.mem t p (Nat.ne_of_lt (pointer_lt s.mem hw.1 p hp))
  · intro b _
    rw [hmem]
    rfl

theorem search_newMap_newTask (s s' : TaskMemoryStorage) (hw : s.WellFormed) (t : Task)
    (hst : s'.storage = s.storage) (hmem : s'.mem = ((s.mem.newMap).1.newTask t).1)
    (path : List TaskID) : s'.search path = s.search path := by
  apply search_congr_mem s s' hst
  · intro p hp
    rw [hmem]
    have hlt := pointer_lt s.mem hw.1 p hp
    have hne : p ≠ (s.mem.newMap).1.next := by
      show p ≠ s.mem.next + 1
      exact Nat.ne_of_lt (Nat.lt_succ_of_lt hlt)
    rw [task_newTask_ne _ t p hne]
    rfl
  · intro b hb
    rw [hmem]
    have hlt : b < s.mem.next := hw.1.2.2.2 b (mapsRead_allocated s hw path b hb)
    show (s.mem.newMap).1.entries (some b) = s.mem.entries (some b)
    exact entries_newMap_ne s.mem b (Nat.ne_of_lt hlt)

theorem entries_assign_self (m : Memory) (a : Addr) (k : TaskID) (q : Addr)
    (h : a ∈ m.mapAddrs) :
    (m.assign (some a) k q).entries (some a) = entrySet k q (m.entries (some a)) :=
  entries_setEntries_self m a _ h

theorem entries_remove_self (m : Memory) (a : Addr) (k : TaskID) (h : a ∈ m.mapAddrs) :
    (m.remove (some a) k).entries (some a) = entryErase k (m.entries (some a)) :=
  entries_setEntries_self m a _ h

theorem entries_assign_ne (m : Memory) (c : Option Addr) (k : TaskID) (q b : Addr)
    (h : c ≠ some b) : (m.assign c k q).entries (some b) = m.entries (some b) := by
  cases c with
  | none => rfl
  | some a =>
    exact entries_setEntries_ne m a b _ (fun hb => h (by rw [hb]))

theorem addChild_written (m : Memory) (parent q : Addr) (hp : parent ∈ m.taskAddrs)
    (hch : ∀ a, (m.task parent).Children = some a → a ∈ m.mapAddrs) :
    entryGet (m.task q).ID
        ((addChild m parent q).entries ((addChild m parent q).task parent).Children) =
      some q := by
  unfold addChild
  cases hc : (m.task parent).Children with
  | some a =>
    simp only []
    rw [task_assign, hc, entries_assign_self m a _ _ (hch a hc)]
    exact entryGet_entrySet_self _ _ _
  | none =>
    simp only []
    have hp' : parent ∈ (m.newMap).1.taskAddrs := hp
    have ha : m.next ∈
        ((m.newMap).1.setTask parent { m.task parent with Children := some m.next }).mapAddrs := by
      simp [Memory.mapAddrs, Memory.setTask, Memory.newMap]
    rw [task_assign, task_setTask_self _ _ _ hp']
    show entryGet (m.task q).ID
      ((((m.newMap).1.setTask parent { m.task parent with Children := some m.next }).assign
        (some m.next) (m.task q).ID q).entries (some m.next)) = some q
    rw [entries_assign_self _ _ _ _ ha]
    exact entryGet_entrySet_self _ _ _

theorem addChild_entries_ne (m : Memory) (parent q b : Addr)
    (h1 : (m.task parent).Children ≠ some b) (h2 : b ≠ m.next) :
    (addChild m parent q).entries (some b) = m.entries (some b) := by
  unfold addChild
  cases hc : (m.task parent).Children with
  | some a =>
    simp only []
    rw [hc] at h1
    exact entries_assign_ne m (some a) _ _ b h1
  | none =>
    simp only []
    refine (entries_assign_ne _ (some (m.newMap).2) _ _ b
      (fun h => h2 (by cases h; rfl))).trans ?_
    show (m.newMap).1.entries (some b) = m.entries (some b)
    exact entries_newMap_ne m b h2

end Heap

namespace Heap

theorem wellFormed_valid (m : Memory) (hw : m.WellFormed) : m.Valid :=
  fun q hq => pointer_lt m hw q hq

theorem mem_entryErase {k : TaskID} {es : List (TaskID × Addr)} {x : TaskID × Addr}
    (h : x ∈ entryErase k es) : x ∈ es ∧ x.1 ≠ k := by
  induction es with
  | nil => cases h
  | cons e r ih =>
    obtain ⟨k', q⟩ := e
    by_cases hk : k' = k
    · simp only [entryErase, hk, if_true] at h
      exact ⟨List.mem_cons_of_mem _ (ih h).1, (ih h).2⟩
    · simp only [entryErase, hk, if_false, List.mem_cons] at h
      rcases h with h | h
      · rw [h]; exact ⟨List.mem_cons_self _ _, hk⟩
      · exact ⟨List.mem_cons_of_mem _ (ih h).1, (ih h).2⟩

theorem entryGet_none {k : TaskID} {es : List (TaskID × Addr)} (h : entryGet k es = none) :
    ∀ x ∈ es, x.1 ≠ k := by
  induction es with
  | nil => intro x hx; cases hx
  | cons e r ih =>
    obtain ⟨k', q⟩ := e
    by_cases hk : k' = k
    · simp [entryGet, hk] at h
    · simp only [entryGet, hk, if_false] at h
      intro x hx
      rcases List.mem_cons.mp hx with hx | hx
      · rw [hx]; exact hk
      · exact ih h x hx

theorem scanChildren_no_match (m : Memory) (id : TaskID) (es : List (TaskID × Addr))
    (acc : Option Addr) (h : ∀ x ∈ es, (m.task x.2).ID ≠ id) :
    scanChildren m id es acc = acc := by
  induction es generalizing acc with
  | nil => rfl
  | cons e r ih =>
    obtain ⟨k, q⟩ := e
    have hq : ¬ (m.task q).ID = id := h (k, q) (List.mem_cons_self _ _)
    simp only [scanChildren, hq, if_false]
    exact ih acc (fun x hx => h x (List.mem_cons_of_mem _ hx))

theorem scanChildren_entrySet_keyed (m : Memory) (k : TaskID) (c : Addr)
    (es : List (TaskID × Addr)) (hk : ∀ x ∈ es, (m.task x.2).ID = x.1)
    (hc : (m.task c).ID = k) : scanChildren m k (entrySet k c es) none = some c := by
  induction es with
  | nil => simp [entrySet, scanChildren, hc]
  | cons e r ih =>
    obtain ⟨k', q⟩ := e
    have hr : ∀ x ∈ r, (m.task x.2).ID = x.1 := fun x hx => hk x (List.mem_cons_of_mem _ hx)
    by_cases h : k' = k
    · simp only [entrySet, h, if_true, scanChildren, hc]
      apply scanChildren_no_match
      intro x hx
      obtain ⟨hx1, hx2⟩ := mem_entryErase hx
      rw [hr x hx1]
      exact hx2
    · have hq : ¬ (m.task q).ID = k := by
        rw [hk (k', q) (List.mem_cons_self _ _)]
        exact h
      simp only [entrySet, h, if_false, scanChildren, hq]
      exact ih hr

theorem searchFrom_append_mem (m : Memory) (t : Addr) (r q : List TaskID) :
    searchFrom m t (r ++ q) =
      match searchFrom m t r with
      | .ok x => searchFrom m x q
      | .error e => .error e := by
  induction r generalizing t with
  | nil => rfl
  | cons id rest ih =>
    simp only [List.cons_append, searchFrom]
    cases scanChildren m id (m.entries (m.task t).Children) none with
    | none => rfl
    | some c => exact ih c

theorem search_snoc_mem (s : TaskMemoryStorage) (P : List TaskID) (k : TaskID) (p : Addr)
    (h : s.search P = .ok p) : s.search (P ++ [k]) = searchFrom s.mem p [k] := by
  cases P with
  | nil => cases h
  | cons a rest =>
    simp only [TaskMemoryStorage.search, List.cons_append] at h ⊢
    cases hg : entryGet a (s.mem.entries (some s.storage)) with
    | none => rw [hg] at h; cases h
    | some t =>
      rw [hg] at h
      have h' : searchFrom s.mem t rest = .ok p := h
      show searchFrom s.mem t (rest ++ [k]) = searchFrom s.mem p [k]
      rw [searchFrom_append_mem, h']

theorem keyed_entries (m : Memory) (hk : m.Keyed) (c : Option Addr) :
    ∀ x ∈ m.entries c, (m.task x.2).ID = x.1 := by
  cases c with
  | none => intro x hx; cases hx
  | some a =>
    intro x hx
    simp only [Memory.entries] at hx
    cases hl : m.maps.lookup a with
    | none => rw [hl] at hx; cases hx
    | some es =>
      rw [hl] at hx
      exact hk (a, es) (lookup_mem a m.maps es hl) x hx

theorem node_allocated (s : TaskMemoryStorage) (hw : s.WellFormed) (path : List TaskID)
    (p a : Addr) (hs : s.search path = .ok p) (ha : (s.mem.task p).Children = some a) :
    a ∈ s.mem.mapAddrs :=
  children_allocated s.mem hw.1 p a (hw.1.1 p (search_pointer s path p hs)) ha

/-- A write `t.Children[k] = c` through the value `t` that `Find(path)`
returned is seen by a later `Find(path ++ [k])`. -/
theorem write_through_returned (s : TaskMemoryStorage) (hw : s.WellFormed) (hk : s.mem.Keyed)
    (path : List TaskID) (t : Task) (hf : s.Find path = (t, none)) (a : Addr)
    (ha : t.Children = some a) (hr : a ∉ s.mapsRead path) (k : TaskID) (c : Addr)
    (hc : (s.mem.task c).ID = k) :
    TaskMemoryStorage.Find { s with mem := s.mem.assign t.Children k c } (path ++ [k]) =
      (s.mem.task c, none) := by
  obtain ⟨p, hs, ht⟩ := Find_ok s path t hf
  have hpa : (s.mem.task p).Children = some a := by rw [← ht]; exact ha
  have hal : a ∈ s.mem.mapAddrs := node_allocated s hw path p a hs hpa
  have hs' : TaskMemoryStorage.search { s with mem := s.mem.assign t.Children k c } path =
      .ok p := by
    rw [← hs]
    apply search_congr_mem s { s with mem := s.mem.assign t.Children k c } rfl
    · intro q _
      exact task_assign _ _ _ _ _
    · intro b hb
      apply entries_assign_ne
      rw [ha]
      intro h
      cases h
      exact hr hb
  have hne : path ≠ [] := by rintro rfl; cases hs
  have hsn := search_snoc_mem { s with mem := s.mem.assign t.Children k c } path k p hs'
  obtain ⟨x, rest, hpath⟩ := List.exists_cons_of_ne_nil hne
  have hfind : TaskMemoryStorage.Find { s with mem := s.mem.assign t.Children k c }
      (path ++ [k]) =
      match TaskMemoryStorage.search { s with mem := s.mem.assign t.Children k c }
        (path ++ [k]) with
      | .ok q => ((s.mem.assign t.Children k c).task q, none)
      | .error e => (Task.zero, some e) := by
    rw [hpath]
    simp only [List.cons_append, TaskMemoryStorage.Find]
    cases TaskMemoryStorage.search { s with mem := s.mem.assign t.Children k c }
      (x :: (rest ++ [k])) <;> rfl
  rw [hfind, hsn]
  have hscan : scanChildren (s.mem.assign t.Children k c) k
      ((s.mem.assign t.Children k c).entries ((s.mem.assign t.Children k c).task p).Children)
      none = some c := by
    rw [task_assign, hpa, ha, entries_assign_self s.mem a k c hal]
    rw [scanChildren_congr s.mem _ k _ none (fun x _ => task_assign _ _ _ _ _)]
    exact scanChildren_entrySet_keyed s.mem k c _ (keyed_entries s.mem hk (some a)) hc
  simp only [searchFrom, hscan]
  rw [task_assign]

theorem absent_before_write (s : TaskMemoryStorage) (hk : s.mem.Keyed) (path : List TaskID)
    (t : Task) (hf : s.Find path = (t, none)) (k : TaskID)
    (hn : entryGet k (s.mem.entries t.Children) = none) :
    s.Find (path ++ [k]) = (Task.zero, some .ErrTaskNotFound) := by
  obtain ⟨p, hs, ht⟩ := Find_ok s path t hf
  have hne : path ≠ [] := by rintro rfl; cases hs
  obtain ⟨x, rest, hpath⟩ := List.exists_cons_of_ne_nil hne
  have hsn := search_snoc_mem s path k p hs
  have hscan : scanChildren s.mem k (s.mem.entries (s.mem.task p).Children) none = none := by
    apply scanChildren_no_match
    intro y hy
    rw [keyed_entries s.mem hk _ y hy]
    rw [← ht] at hy
    exact entryGet_none hn y hy
  have : s.search (path ++ [k]) = .error .ErrTaskNotFound := by
    rw [hsn]
    simp only [searchFrom, hscan]
  rw [hpath] at this ⊢
  simp only [List.cons_append] at this ⊢
  simp only [TaskMemoryStorage.Find, this]

theorem insert_seen_through_returned (s : TaskMemoryStorage) (hw : s.WellFormed)
    (path : List TaskID) (t : Task) (hf : s.Find path = (t, none)) (a : Addr)
    (ha : t.Children = some a) (q : Addr) :
    (s.Insert path q).2 = none ∧
      (s.Insert path q).1.mem.entries t.Children =
        entrySet (s.mem.task q).ID q (s.mem.entries t.Children) := by
  obtain ⟨p, hs, ht⟩ := Find_ok s path t hf
  have hpa : (s.mem.task p).Children = some a := by rw [← ht]; exact ha
  have hal : a ∈ s.mem.mapAddrs := node_allocated s hw path p a hs hpa
  cases path with
  | nil => cases hs
  | cons x rest =>
    simp only [TaskMemoryStorage.Insert, hs, addChild, hpa, ha]
    exact ⟨trivial, entries_assign_self s.mem a _ q hal⟩

end Heap

namespace Heap

theorem storage_Update_written (s s1 : TaskMemoryStorage) (path : List TaskID) (q : Addr)
    (hroot : s.storage ∈ s.mem.mapAddrs)
    (hptr : ∀ p ∈ s.mem.pointers, p ∈ s.mem.taskAddrs)
    (hch : ∀ p ∈ s.mem.pointers, ∀ a, (s.mem.task p).Children = some a → a ∈ s.mem.mapAddrs)
    (hu : s.Update path q = (s1, none)) :
    ((∃ x, path = [x]) →
        entryGet (s.mem.task q).ID (s1.mem.entries (some s1.storage)) = some q) ∧
      (1 < path.length →
        ∃ parent, s.search path.dropLast = .ok parent ∧
          entryGet (s.mem.task q).ID (s1.mem.entries (s1.mem.task parent).Children) =
            some q) := by
  match path with
  | [] => cases hu
  | [x] =>
    refine ⟨fun _ => ?_, fun h => absurd h (by simp)⟩
    simp only [TaskMemoryStorage.Update] at hu
    cases hg : entryGet (s.mem.task q).ID (s.mem.entries (some s.storage)) with
    | none => rw [hg] at hu; cases hu
    | some _ =>
      rw [hg] at hu
      cases hu
      show entryGet (s.mem.task q).ID
        ((s.mem.assign (some s.storage) (s.mem.task q).ID q).entries (some s.storage)) = some q
      rw [entries_assign_self s.mem s.storage _ _ hroot]
      exact entryGet_entrySet_self _ _ _
  | a :: b :: rest =>
    refine ⟨fun h => ?_, fun _ => ?_⟩
    · obtain ⟨x, hx⟩ := h
      cases hx
    · simp only [TaskMemoryStorage.Update] at hu
      cases hs : s.search (a :: b :: rest).dropLast with
      | error e => rw [hs] at hu; cases hu
      | ok parent =>
        rw [hs] at hu
        cases hu
        have hp := search_pointer s _ parent hs
        exact ⟨parent, rfl, addChild_written s.mem parent q (hptr parent hp) (hch parent hp)⟩

theorem storage_Insert_written (s s1 : TaskMemoryStorage) (path : List TaskID) (q : Addr)
    (hroot : s.storage ∈ s.mem.mapAddrs)
    (hptr : ∀ p ∈ s.mem.pointers, p ∈ s.mem.taskAddrs)
    (hch : ∀ p ∈ s.mem.pointers, ∀ a, (s.mem.task p).Children = some a → a ∈ s.mem.mapAddrs)
    (hu : s.Insert path q = (s1, none)) :
    (path = [] → entryGet (s.mem.task q).ID (s1.mem.entries (some s1.storage)) = some q) ∧
      (path ≠ [] →
        ∃ parent, s.search path = .ok parent ∧
          entryGet (s.mem.task q).ID (s1.mem.entries (s1.mem.task parent).Children) =
            some q) := by
  match path with
  | [] =>
    refine ⟨fun _ => ?_, fun h => absurd rfl h⟩
    simp only [TaskMemoryStorage.Insert] at hu
    cases hu
    show entryGet (s.mem.task q).ID
      ((s.mem.assign (some s.storage) (s.mem.task q).ID q).entries (some s.storage)) = some q
    rw [entries_assign_self s.mem s.storage _ _ hroot]
    exact entryGet_entrySet_self _ _ _
  | a :: rest =>
    refine ⟨fun h => absurd h (List.cons_ne_nil _ _), fun _ => ?_⟩
    simp only [TaskMemoryStorage.Insert] at hu
    cases hs : s.search (a :: rest) with
    | error e => rw [hs] at hu; cases hu
    | ok parent =>
      rw [hs] at hu
      cases hu
      have hp := search_pointer s _ parent hs
      exact ⟨parent, rfl, addChild_written s.mem parent q (hptr parent hp) (hch parent hp)⟩

theorem storage_Insert_entries_ne (s : TaskMemoryStorage) (path : List TaskID) (q b : Addr)
    (hroot : s.storage ≠ b)
    (hch : ∀ p ∈ s.mem.pointers, (s.mem.task p).Children ≠ some b) (hb : b ≠ s.mem.next) :
    (s.Insert path q).1.mem.entries (some b) = s.mem.entries (some b) := by
  match path with
  | [] =>
    exact entries_assign_ne s.mem (some s.storage) _ _ b (fun h => hroot (by cases h; rfl))
  | a :: rest =>
    simp only [TaskMemoryStorage.Insert]
    cases hs : s.search (a :: rest) with
    | error e => rfl
    | ok parent =>
      exact addChild_entries_ne s.mem parent q b (hch parent (search_pointer s _ parent hs)) hb

theorem Update_state (s s1 : TaskMemoryStorage) (path : List TaskID) (fields : UpdateFields)
    (t : Task) (h : TaskStorageService.Update s path fields = (s1, t, none)) :
    ∃ old, s.Find path = (old, none) ∧
      TaskMemoryStorage.Update
        { s with mem := (s.mem.newTask (TaskStorageService.mergeFields old fields)).1 } path
        s.mem.next = (s1, none) := by
  simp only [TaskStorageService.Update] at h
  rcases hf : s.Find path with ⟨old, _ | e⟩
  · rw [hf] at h
    simp only [] at h
    rcases hu : TaskMemoryStorage.Update
      { s with mem := (s.mem.newTask (TaskStorageService.mergeFields old fields)).1 } path
      s.mem.next with ⟨s2, _ | e⟩
    · refine ⟨old, rfl, ?_⟩
      simp only [Memory.newTask] at hu h
      rw [hu] at h
      cases h
      exact hu
    · exfalso
      simp only [Memory.newTask] at hu h
      rw [hu] at h
      cases h
  · rw [hf] at h
    cases h

theorem Create_state (s s1 : TaskMemoryStorage) (path : List TaskID) (fields : CreateFields)
    (t : Task) (h : TaskStorageService.Create s path fields = (s1, t, none)) :
    TaskMemoryStorage.Insert
      { (s.NextTaskID).1 with mem := ((s.mem.newMap).1.newTask
        ⟨(s.NextTaskID).2, fields.Label, false, some s.mem.next⟩).1 } path (s.mem.next + 1) =
      (s1, none) := by
  simp only [TaskStorageService.Create] at h
  rcases hi : TaskMemoryStorage.Insert
    { (s.NextTaskID).1 with mem := ((s.mem.newMap).1.newTask
      ⟨(s.NextTaskID).2, fields.Label, false, some s.mem.next⟩).1 } path (s.mem.next + 1)
    with ⟨s2, _ | e⟩
  · simp only [TaskMemoryStorage.NextTaskID, Memory.newMap, Memory.newTask] at hi h
    rw [hi] at h
    cases h
    rfl
  · exfalso
    simp only [TaskMemoryStorage.NextTaskID, Memory.newMap, Memory.newTask] at hi h
    rw [hi] at h
    cases h

end Heap

namespace Heap

theorem Update_tree (s s1 : TaskMemoryStorage) (hw : s.WellFormed) (path : List TaskID)
    (fields : UpdateFields) (t : Task)
    (h : TaskStorageService.Update s path fields = (s1, t, none)) :
    ∃ p, s.search path = .ok p ∧ t = TaskStorageService.mergeFields (s.mem.task p) fields ∧
      t.Children = (s.mem.task p).Children ∧ s1.mem.task s.mem.next = t ∧
      ((∃ x, path = [x]) →
        entryGet t.ID (s1.mem.entries (some s1.storage)) = some s.mem.next) ∧
      (1 < path.length →
        ∃ parent, s.search path.dropLast = .ok parent ∧
          entryGet t.ID (s1.mem.entries (s1.mem.task parent).Children) = some s.mem.next) := by
  obtain ⟨old, hf, hu⟩ := Update_state s s1 path fields t h
  obtain ⟨old', hf', ht, hch, htask⟩ :=
    Update_result s path fields (wellFormed_valid s.mem hw.1) s1 t h
  have hoo : old' = old := by rw [hf] at hf'; cases hf'; rfl
  subst hoo
  obtain ⟨p, hs, hp⟩ := Find_ok s path old' hf
  have hne : ∀ q ∈ s.mem.pointers, q ≠ s.mem.next :=
    fun q hq => Nat.ne_of_lt (pointer_lt s.mem hw.1 q hq)
  have hw' := storage_Update_written
    { s with mem := (s.mem.newTask (TaskStorageService.mergeFields old' fields)).1 } s1 path
    s.mem.next hw.2
    (fun q hq => List.mem_cons_of_mem _ (hw.1.1 q hq))
    (fun q hq a ha => by
      have hq' : q ∈ s.mem.pointers := hq
      rw [task_newTask_ne s.mem _ q (hne q hq')] at ha
      exact children_allocated s.mem hw.1 q a (hw.1.1 q hq') ha)
    hu
  have hid : ((s.mem.newTask (TaskStorageService.mergeFields old' fields)).1.task
      s.mem.next).ID = t.ID := by
    rw [task_newTask, ht]
  simp only [hid] at hw'
  refine ⟨p, hs, by rw [ht, hp], by rw [hch, hp], htask, hw'.1, ?_⟩
  intro hlen
  obtain ⟨parent, hpar, hent⟩ := hw'.2 hlen
  refine ⟨parent, ?_, hent⟩
  rw [← hpar]
  exact (search_newTask s
    { s with mem := (s.mem.newTask (TaskStorageService.mergeFields old' fields)).1 } hw
    (TaskStorageService.mergeFields old' fields) rfl rfl _).symm

theorem Create_tree (s s1 : TaskMemoryStorage) (hw : s.WellFormed) (path : List TaskID)
    (fields : CreateFields) (t : Task)
    (h : TaskStorageService.Create s path fields = (s1, t, none)) :
    t = ⟨(s.NextTaskID).2, fields.Label, false, some s.mem.next⟩ ∧
      s1.mem.task (s.mem.next + 1) = t ∧ s1.mem.entries t.Children = [] ∧
      (path = [] → entryGet t.ID (s1.mem.entries (some s1.storage)) = some (s.mem.next + 1)) ∧
      (path ≠ [] →
        ∃ parent, s.search path = .ok parent ∧
          entryGet t.ID (s1.mem.entries (s1.mem.task parent).Children) =
            some (s.mem.next + 1)) := by
  have hi := Create_state s s1 path fields t h
  obtain ⟨ht, htask⟩ := Create_result s path fields (wellFormed_valid s.mem hw.1) s1 t h
  have hptr : ∀ q ∈ ((s.mem.newMap).1.newTask
      ⟨(s.NextTaskID).2, fields.Label, false, some s.mem.next⟩).1.pointers,
      q ∈ s.mem.pointers := by
    intro q hq
    simpa [Memory.pointers, Memory.newTask, Memory.newMap] using hq
  have htk : ∀ q ∈ s.mem.pointers, ((s.mem.newMap).1.newTask
      ⟨(s.NextTaskID).2, fields.Label, false, some s.mem.next⟩).1.task q = s.mem.task q := by
    intro q hq
    have hlt := pointer_lt s.mem hw.1 q hq
    have hne : q ≠ (s.mem.newMap).1.next := by
      show q ≠ s.mem.next + 1
      exact Nat.ne_of_lt (Nat.lt_succ_of_lt hlt)
    rw [task_newTask_ne _ _ q hne]
    rfl
  have hw' := storage_Insert_written
    { (s.NextTaskID).1 with mem := ((s.mem.newMap).1.newTask
      ⟨(s.NextTaskID).2, fields.Label, false, some s.mem.next⟩).1 } s1 path (s.mem.next + 1)
    (List.mem_cons_of_mem _ hw.2)
    (fun q hq => List.mem_cons_of_mem _ (hw.1.1 q (hptr q hq)))
    (fun q hq a ha => by
      rw [htk q (hptr q hq)] at ha
      exact List.mem_cons_of_mem _ (children_allocated s.mem hw.1 q a (hw.1.1 q (hptr q hq)) ha))
    hi
  have hid : (((s.mem.newMap).1.newTask
      ⟨(s.NextTaskID).2, fields.Label, false, some s.mem.next⟩).1.task (s.mem.next + 1)).ID =
      t.ID := by
    rw [show s.mem.next + 1 = (s.mem.newMap).1.next from rfl, task_newTask, ht]
  simp only [hid] at hw'
  have hempty : s1.mem.entries (some s.mem.next) = [] := by
    have hfr := storage_Insert_entries_ne
      { (s.NextTaskID).1 with mem := ((s.mem.newMap).1.newTask
        ⟨(s.NextTaskID).2, fields.Label, false, some s.mem.next⟩).1 } path (s.mem.next + 1)
      s.mem.next
      (Nat.ne_of_lt (hw.1.2.2.2 _ hw.2))
      (fun q hq hc => by
        rw [htk q (hptr q hq)] at hc
        have := hw.1.2.2.2 _ (children_allocated s.mem hw.1 q _ (hw.1.1 q (hptr q hq)) hc)
        exact Nat.lt_irrefl _ this)
      (Nat.ne_of_lt (Nat.lt_succ_of_lt (Nat.lt_succ_self _)))
    rw [hi] at hfr
    rw [hfr]
    exact entries_newMap_self s.mem
  refine ⟨ht, htask, by rw [ht]; exact hempty, hw'.1, ?_⟩
  intro hne
  obtain ⟨parent, hpar, hent⟩ := hw'.2 hne
  refine ⟨parent, ?_, hent⟩
  rw [← hpar]
  exact (search_newMap_newTask s
    { (s.NextTaskID).1 with mem := ((s.mem.newMap).1.newTask
      ⟨(s.NextTaskID).2, fields.Label, false, some s.mem.next⟩).1 } hw
    ⟨(s.NextTaskID).2, fields.Label, false, some s.mem.next⟩ rfl rfl _).symm

theorem Delete_node (s s1 : TaskMemoryStorage) (path : List TaskID) (t : Task)
    (h : TaskStorageService.Delete s path = (s1, t, none)) :
    ∃ p, s.search path = .ok p ∧ t = s.mem.task p :=
  Find_ok s path t (Delete_result s path s1 t h)

end Heap

namespace Heap

theorem Find_root_of_entry (s : TaskMemoryStorage) (k : TaskID) (q : Addr)
    (h : entryGet k (s.mem.entries (some s.storage)) = some q) :
    s.Find [k] = (s.mem.task q, none) := by
  simp only [TaskMemoryStorage.Find, TaskMemoryStorage.search, h, searchFrom]

end Heap

/-- Claim C27 as stated is refuted. On the storage that holds the one root
task 1 made by `Create`, the value `t` returned by `Find([1])` carries the
children map of the stored node: before the caller touches `t`,
`Find([1, 9])` fails with `ErrTaskNotFound`; after the caller has run
`t.Children[9] = &callerTask`, `Find([1, 9])` returns that task.  In the other
direction, a later `Create([1], ...)` on the store puts a child under the key 2
into the children map the returned `t` holds, which was empty when `t` was
returned. -/
theorem returned_children_are_shared :
    Fixture.shared1.Find [1] = (Fixture.returned, none) ∧
      Fixture.shared1.Find [1, 9] = (Heap.Task.zero, some .ErrTaskNotFound) ∧
      Fixture.touched.Find [1, 9] = (Fixture.callerTask, none) ∧
      Fixture.shared1.mem.entries Fixture.returned.Children = [] ∧
      ((Heap.TaskStorageService.Create Fixture.shared1 [1] ⟨"bar"⟩).1.mem.entries
        Fixture.returned.Children).map Prod.fst = [2] := by
  decide

/-- Claim C27, amended. Every `Task` returned by `Find`, `FindAll`, `Create`,
`Update` or `Delete` is a copy of the task struct alone, whose field
`Children` is the very reference to the children map of the node the tree
holds.  On every well-formed storage: `Find`, `FindAll` and `Delete` return
the value of the task object the path resolves to; `Update` returns the merged
value, which keeps the children reference of the replaced node and is the
value of the object that the root map, or the children map of the parent,
holds under its `ID` afterwards; `Create` returns the value of the object that
the root map, or the children map of the node at the path, holds under the new
`ID` afterwards, with a new empty children map.  Hence, for a value `t`
returned by `Find(path)` with a children map: the statement
`t.Children[k] = c` and the statement `delete(t.Children, k)` change the
entries of the map the node holds and no task object; on a keyed storage whose
resolution of the path does not read that map, `Find(path ++ [k])`, which
failed while `k` was no key of the map, returns the task `c` after the write;
and a later `Insert(path, q)` on the storage puts `q` into the map that the
earlier returned `t` holds. -/
theorem results_are_shallow_copies (s : Heap.TaskMemoryStorage) (path : List TaskID)
    (hw : s.WellFormed) :
    (∀ t, s.Find path = (t, none) → ∃ p, s.search path = .ok p ∧ t = s.mem.task p) ∧
      s.FindAll = ((s.mem.entries (some s.storage)).map (fun e => s.mem.task e.2), none) ∧
      (∀ s1 t, Heap.TaskStorageService.Delete s path = (s1, t, none) →
        ∃ p, s.search path = .ok p ∧ t = s.mem.task p) ∧
      (∀ fields s1 t, Heap.TaskStorageService.Update s path fields = (s1, t, none) →
        ∃ p, s.search path = .ok p ∧
          t = Heap.TaskStorageService.mergeFields (s.mem.task p) fields ∧
          t.Children = (s.mem.task p).Children ∧ s1.mem.task s.mem.next = t ∧
          ((∃ x, path = [x]) →
            Heap.entryGet t.ID (s1.mem.entries (some s1.storage)) = some s.mem.next ∧
              s1.Find [t.ID] = (t, none)) ∧
          (1 < path.length →
            ∃ parent, s.search path.dropLast = .ok parent ∧
              Heap.entryGet t.ID (s1.mem.entries (s1.mem.task parent).Children) =
                some s.mem.next)) ∧
      (∀ fields s1 t, Heap.TaskStorageService.Create s path fields = (s1, t, none) →
        t = ⟨(s.NextTaskID).2, fields.Label, false, some s.mem.next⟩ ∧
          s1.mem.task (s.mem.next + 1) = t ∧ s1.mem.entries t.Children = [] ∧
          (path = [] →
            Heap.entryGet t.ID (s1.mem.entries (some s1.storage)) = some (s.mem.next + 1) ∧
              s1.Find [t.ID] = (t, none)) ∧
          (path ≠ [] →
            ∃ parent, s.search path = .ok parent ∧
              Heap.entryGet t.ID (s1.mem.entries (s1.mem.task parent).Children) =
                some (s.mem.next + 1))) ∧
      (∀ t a, s.Find path = (t, none) → t.Children = some a →
        (∀ k c,
          (s.mem.assign t.Children k c).entries t.Children =
              Heap.entrySet k c (s.mem.entries t.Children) ∧
            ∀ p, (s.mem.assign t.Children k c).task p = s.mem.task p) ∧
          (∀ k,
            (s.mem.remove t.Children k).entries t.Children =
              Heap.entryErase k (s.mem.entries t.Children)) ∧
          (s.mem.Keyed → ∀ k, Heap.entryGet k (s.mem.entries t.Children) = none →
            s.Find (path ++ [k]) = (Heap.Task.zero, some .ErrTaskNotFound)) ∧
          (s.mem.Keyed → a ∉ s.mapsRead path → ∀ k c, (s.mem.task c).ID = k →
            Heap.TaskMemoryStorage.Find { s with mem := s.mem.assign t.Children k c }
              (path ++ [k]) = (s.mem.task c, none)) ∧
          (∀ q, (s.Insert path q).2 = none ∧
            (s.Insert path q).1.mem.entries t.Children =
              Heap.entrySet (s.mem.task q).ID q (s.mem.entries t.Children))) := by
  refine ⟨Heap.Find_ok s path, rfl, fun s1 t h => Heap.Delete_node s s1 path t h, ?_, ?_, ?_⟩
  · intro fields s1 t h
    obtain ⟨p, hs, ht, hc, htask, hroot, hchild⟩ := Heap.Update_tree s s1 hw path fields t h
    refine ⟨p, hs, ht, hc, htask, fun hx => ?_, hchild⟩
    have he := hroot hx
    refine ⟨he, ?_⟩
    rw [Heap.Find_root_of_entry s1 t.ID s.mem.next he, htask]
  · intro fields s1 t h
    obtain ⟨ht, htask, hempty, hroot, hchild⟩ := Heap.Create_tree s s1 hw path fields t h
    refine ⟨ht, htask, hempty, fun hx => ?_, hchild⟩
    have he := hroot hx
    refine ⟨he, ?_⟩
    rw [Heap.Find_root_of_entry s1 t.ID (s.mem.next + 1) he, htask]
  · intro t a hf ha
    obtain ⟨p, hs, ht⟩ := Heap.Find_ok s path t hf
    have hpa : (s.mem.task p).Children = some a := by rw [← ht]; exact ha
    have hal : a ∈ s.mem.mapAddrs := Heap.node_allocated s hw path p a hs hpa
    refine ⟨fun k c => ⟨?_, fun p => Heap.task_assign _ _ _ _ _⟩, fun k => ?_,
      fun hk k hn => Heap.absent_before_write s hk path t hf k hn,
      fun hk hr k c hc => Heap.write_through_returned s hw hk path t hf a ha hr k c hc,
      fun q => Heap.insert_seen_through_returned s hw path t hf a ha q⟩
    · rw [ha]; exact Heap.entries_assign_self s.mem a k c hal
    · rw [ha]; exact Heap.entries_remove_self s.mem a k hal

theorem results_are_shallow_copies_witness :
    Fixture.allocated.WellFormed ∧ Fixture.allocated.mem.Keyed ∧
      Fixture.allocated.Find [1] = (Fixture.returned, none) ∧
      Fixture.returned.Children = some 1 ∧ 1 ∉ Fixture.allocated.mapsRead [1] ∧
      Fixture.allocated.Find ([1] ++ [9]) = (Heap.Task.zero, some .ErrTaskNotFound) ∧
      Fixture.touched.Find ([1] ++ [9]) = (Fixture.callerTask, none) :=
  have h := (results_are_shallow_copies Fixture.allocated [1] (by decide)).2.2.2.2.2
    Fixture.returned 1 (by decide) (by decide)
  ⟨by decide, by decide, by decide, by decide, by decide,
    h.2.2.1 (by decide) 9 (by decide),
    h.2.2.2.1 (by decide) (by decide) 9 3 (by decide)⟩

end Tasks
namespace Tasks

/-! ## The two validators side by side -/

/-- Claim C33. Create-valid implies update-valid: every `JSONTask` accepted
by `CreateValidator.Validate` is accepted by `UpdateValidator.Validate`, and
the two validators return `ErrTaskLabelIsNotValid` on exactly the same tasks,
that is on exactly the same present labels, whatever the `Completed` fields
are. -/
theorem create_valid_update_valid (t : JSONTask) :
    (CreateValidator.Validate t = none → UpdateValidator.Validate t = none) ∧
      (CreateValidator.Validate t = some .ErrTaskLabelIsNotValid ↔
        UpdateValidator.Validate t = some .ErrTaskLabelIsNotValid) ∧
      (∀ (label : String) (c c' : Option Bool),
        CreateValidator.Validate ⟨some label, c⟩ = some .ErrTaskLabelIsNotValid ↔
          UpdateValidator.Validate ⟨some label, c'⟩ = some .ErrTaskLabelIsNotValid) := by
  obtain ⟨l, c⟩ := t
  refine ⟨?_, ?_, ?_⟩
  · cases l with
    | none => intro h; simp [CreateValidator.Validate] at h
    | some label =>
      intro h
      simp only [CreateValidator.Validate] at h
      simp only [UpdateValidator.Validate, Option.isNone_some, Bool.false_eq_true, false_and,
        if_false]
      exact h
  · cases l with
    | none =>
      cases c <;> simp [CreateValidator.Validate, UpdateValidator.Validate]
    | some label =>
      simp only [CreateValidator.Validate, UpdateValidator.Validate, Option.isNone_some,
        Bool.false_eq_true, false_and, if_false]
  · intro label c c'
    simp only [CreateValidator.Validate, UpdateValidator.Validate, Option.isNone_some,
      Bool.false_eq_true, false_and, if_false]

theorem create_valid_update_valid_witness :
    CreateValidator.Validate ⟨some "bar", none⟩ = none ∧
      UpdateValidator.Validate ⟨some "bar", none⟩ = none ∧
      CreateValidator.Validate ⟨some "", none⟩ = some .ErrTaskLabelIsNotValid ∧
      UpdateValidator.Validate ⟨some "", some true⟩ = some .ErrTaskLabelIsNotValid :=
  ⟨by decide, (create_valid_update_valid ⟨some "bar", none⟩).1 (by decide), by decide,
    ((create_valid_update_valid ⟨some "", none⟩).2.2 "" none (some true)).mp (by decide)⟩

/-! ## An item request without an identifier -/

theorem parse_single_segment (urlPath : String) (h : (segments urlPath).length = 1) :
    parseTaskIDPath urlPath = .ok [] := by
  rw [parseTaskIDPath_eq, if_neg (by omega)]
  have hd : (segments urlPath).drop 1 = [] := by
    apply List.drop_eq_nil_of_le
    omega
  rw [hd]
  rfl

/-- Claim C34. An item request without any identifier is answered 500: for
every URL path with exactly one non-empty segment, such as `/tasks/`,
`parseTaskIDPath` returns the empty path; on every store the storage service
then returns `ErrTaskPathNotValid` to `Find`, `Delete` and `Update`, and
`TaskHandler` answers GET, DELETE and PUT with a valid body with status 500
and the error text `Task path is not valid`, not with 400 or 404, leaving the
store as it was. -/
theorem item_without_identifier (s : TaskMemoryStorage) (r : Request)
    (hseg : (segments r.URLPath).length = 1) :
    parseTaskIDPath r.URLPath = .ok [] ∧
      ((storageService.Find s []).2.2 = some (.task .ErrTaskPathNotValid) ∧
        (storageService.Delete s []).2.2 = some (.task .ErrTaskPathNotValid) ∧
        ∀ fields, (storageService.Update s [] fields).2.2 = some (.task .ErrTaskPathNotValid)) ∧
      (r.Method = "GET" →
        TaskHandler.ServeHTTP storageService s r =
          (s, ⟨500, none, .error "Task path is not valid"⟩)) ∧
      (r.Method = "DELETE" →
        TaskHandler.ServeHTTP storageService s r =
          (s, ⟨500, none, .error "Task path is not valid"⟩)) ∧
      (r.Method = "PUT" → ∀ j, r.Body = .ok j → UpdateValidator.Validate j = none →
        TaskHandler.ServeHTTP storageService s r =
          (s, ⟨500, none, .error "Task path is not valid"⟩)) := by
  have hp := parse_single_segment r.URLPath hseg
  refine ⟨hp, ⟨rfl, rfl, fun _ => rfl⟩, ?_, ?_, ?_⟩
  · intro hm
    simp only [TaskHandler.ServeHTTP, hm, if_true, TaskHandler.get, hp]
    rfl
  · intro hm
    have e : TaskHandler.ServeHTTP storageService s r = TaskHandler.remove storageService s r := by
      simp only [TaskHandler.ServeHTTP, hm]; rfl
    rw [e]
    simp only [TaskHandler.remove, hp]
    rfl
  · intro hm j hb hv
    have e : TaskHandler.ServeHTTP storageService s r = TaskHandler.put storageService s r := by
      simp only [TaskHandler.ServeHTTP, hm]; rfl
    rw [e]
    simp only [TaskHandler.put, hp, hb, hv]
    rfl

theorem item_without_identifier_witness :
    (segments "/tasks/").length = 1 ∧
      TaskHandler.ServeHTTP storageService Fixture.store3
          ⟨"GET", "/tasks/", .error (.http .ErrBadMediaType)⟩ =
        (Fixture.store3, ⟨500, none, .error "Task path is not valid"⟩) ∧
      TaskHandler.ServeHTTP storageService Fixture.store3
          ⟨"PUT", "/tasks/", .ok ⟨some "bar", none⟩⟩ =
        (Fixture.store3, ⟨500, none, .error "Task path is not valid"⟩) :=
  ⟨by decide,
    (item_without_identifier Fixture.store3 ⟨"GET", "/tasks/", .error (.http .ErrBadMediaType)⟩
      (by decide)).2.2.1 rfl,
    (item_without_identifier Fixture.store3 ⟨"PUT", "/tasks/", .ok ⟨some "bar", none⟩⟩
      (by decide)).2.2.2.2 rfl ⟨some "bar", none⟩ rfl (by decide)⟩

end Tasks
namespace Tasks

/-! ## The `Location` of a created task -/

theorem splitSlash_append (p q : List Char) :
    splitSlash (p ++ '/' :: q) = splitSlash p ++ splitSlash q := by
  induction p with
  | nil => simp [splitSlash]
  | cons c r ih =>
    have e : (c :: r) ++ '/' :: q = c :: (r ++ '/' :: q) := rfl
    rw [e]
    by_cases hc : c = '/'
    · simp only [splitSlash, hc, if_true, ih, List.cons_append]
    · simp only [splitSlash, hc, if_false, ih]
      obtain ⟨piece, pieces, hr⟩ := List.exists_cons_of_ne_nil (splitSlash_ne_nil r)
      rw [hr]
      rfl

theorem parseLoop_append (xs ys : List (List Char)) (acc : List TaskID) :
    parseLoop (xs ++ ys) acc =
      match parseLoop xs acc with
      | .ok ids => parseLoop ys ids
      | .error e => .error e := by
  induction xs generalizing acc with
  | nil => rfl
  | cons v r ih =>
    simp only [List.cons_append, parseLoop]
    split_ifs
    · cases Atoi v with
      | none => rfl
      | some val => exact ih _
    · exact ih _

theorem segments_locationURL (p : String) (id : TaskID) :
    segments (locationURL p id) = segments p ++ [decimal id] := by
  have h : (locationURL p id).toList = p.toList ++ '/' :: decimal id := by
    simp [locationURL, String.toList]
  simp only [segments, h, splitSlash_append, List.filter_append,
    splitSlash_of_no_slash _ (decimal_no_slash id)]
  have hlen : (decimal id).length > 0 := List.length_pos.mpr (decimal_ne_nil id)
  simp [hlen]

theorem parse_locationURL (p : String) (P : List TaskID) (id : TaskID)
    (hp : parseTaskIDPath p = .ok P) (h1 : minInt ≤ id) (h2 : id ≤ maxInt) :
    parseTaskIDPath (locationURL p id) = .ok (P ++ [id]) := by
  rw [parseTaskIDPath_eq] at hp ⊢
  rw [segments_locationURL]
  by_cases hl : (segments p).length < 1
  · rw [if_pos hl] at hp; cases hp
  · rw [if_neg hl] at hp
    have hl' : ¬ (segments p ++ [decimal id]).length < 1 := by
      simp only [List.length_append, List.length_singleton]; omega
    rw [if_neg hl', List.drop_append_of_le_length (by omega), parseLoop_append, hp]
    have hlen : (decimal id).length > 0 := List.length_pos.mpr (decimal_ne_nil id)
    simp only [parseLoop, hlen, if_true, Atoi_decimal id h1 h2]

theorem Create_of_resolves (s : TaskMemoryStorage) (P : List TaskID) (fields : CreateFields)
    (hkey : s.KeyedByID) (hP : P = [] ∨ ∃ node, s.search P = .ok node) :
    (TaskStorageService.Create s P fields).2 =
        (Task.mk (wrapInt (s.lastTaskID + 1)) fields.Label false (some []), none) ∧
      (TaskStorageService.Create s P fields).1.Find (P ++ [wrapInt (s.lastTaskID + 1)]) =
        (Task.mk (wrapInt (s.lastTaskID + 1)) fields.Label false (some []), none) := by
  cases P with
  | nil =>
    refine ⟨rfl, ?_⟩
    exact Find_root_mapSet s.storage _ (Task.mk (wrapInt (s.lastTaskID + 1)) fields.Label
      false (some []))
  | cons a rest =>
    rcases hP with h | ⟨node, hnode⟩
    · cases h
    · have hs : TaskMemoryStorage.search ⟨s.storage, wrapInt (s.lastTaskID + 1)⟩ (a :: rest) =
          .ok node := by
        rw [search_congr ⟨s.storage, wrapInt (s.lastTaskID + 1)⟩ s rfl]; exact hnode
      simp only [TaskStorageService.Create, TaskMemoryStorage.NextTaskID,
        TaskMemoryStorage.Insert, hs]
      refine ⟨trivial, ?_⟩
      exact Find_child_addChild s _ (a :: rest)
        (Task.mk (wrapInt (s.lastTaskID + 1)) fields.Label false (some [])) node hkey hnode

theorem post_creates (s : TaskMemoryStorage) (r : Request) (P : List TaskID) (j : JSONTask)
    (hkey : s.KeyedByID) (hp : parseTaskIDPath r.URLPath = .ok P) (hb : r.Body = .ok j)
    (hv : CreateValidator.Validate j = none)
    (hP : P = [] ∨ ∃ node, s.search P = .ok node) :
    TaskHandler.post storageService s r =
        ((TaskStorageService.Create s P ⟨j.Label.getD ""⟩).1,
          ⟨201, some (locationURL r.URLPath (wrapInt (s.lastTaskID + 1))),
            .task (Task.mk (wrapInt (s.lastTaskID + 1)) (j.Label.getD "") false (some []))⟩) := by
  have hc := (Create_of_resolves s P ⟨j.Label.getD ""⟩ hkey hP).1
  simp only [TaskHandler.post, hp, hb, hv, storageService]
  rcases hcr : TaskStorageService.Create s P ⟨j.Label.getD ""⟩ with ⟨s2, t, e⟩
  rw [hcr] at hc
  cases hc
  rfl

theorem roots_post_creates (s : TaskMemoryStorage) (r : Request) (j : JSONTask)
    (hkey : s.KeyedByID) (hb : r.Body = .ok j) (hv : CreateValidator.Validate j = none) :
    TasksHandler.post storageService s r =
        ((TaskStorageService.Create s [] ⟨j.Label.getD ""⟩).1,
          ⟨201, some (locationURL r.URLPath (wrapInt (s.lastTaskID + 1))),
            .task (Task.mk (wrapInt (s.lastTaskID + 1)) (j.Label.getD "") false (some []))⟩) := by
  have hc := (Create_of_resolves s [] ⟨j.Label.getD ""⟩ hkey (Or.inl rfl)).1
  simp only [TasksHandler.post, hb, hv, storageService]
  rcases hcr : TaskStorageService.Create s [] ⟨j.Label.getD ""⟩ with ⟨s2, t, e⟩
  rw [hcr] at hc
  cases hc
  rfl

/-- Claim C32 as stated is refuted. `TasksHandler` POST on the request path
`/tasks/7`, which `parseTaskIDPath` accepts, answers 201 with the `Location`
`/tasks/7/1`; it parses to `[7, 1]`, while `Create` stored the new task under
`[1]`, and `Find([7, 1])` fails. -/
theorem roots_location_misses :
    parseTaskIDPath "/tasks/7" = .ok [7] ∧
      (TasksHandler.ServeHTTP storageService NewTaskMemoryStorage
          ⟨"POST", "/tasks/7", .ok ⟨some "qux", none⟩⟩).2.Status = 201 ∧
      (TasksHandler.ServeHTTP storageService NewTaskMemoryStorage
          ⟨"POST", "/tasks/7", .ok ⟨some "qux", none⟩⟩).2.Location = some "/tasks/7/1" ∧
      parseTaskIDPath "/tasks/7/1" = .ok [7, 1] ∧
      (TasksHandler.ServeHTTP storageService NewTaskMemoryStorage
          ⟨"POST", "/tasks/7", .ok ⟨some "qux", none⟩⟩).1.Find [1] =
        (Task.mk 1 "qux" false (some []), none) ∧
      (TasksHandler.ServeHTTP storageService NewTaskMemoryStorage
          ⟨"POST", "/tasks/7", .ok ⟨some "qux", none⟩⟩).1.Find [7, 1] =
        (Task.zero, some .ErrTaskNotFound) := by
  refine ⟨rfl, by decide, by decide, rfl, rfl, rfl⟩

/-- Claim C32, amended. The `Location` URL of a create: for every URL path `p`
on which `parseTaskIDPath` succeeds and every identifier `id` (a value of
`int`), `parseTaskIDPath` applied to `p`, a slash and the decimal rendering of
`id` succeeds and returns the path of `p` followed by `id`, whether or not `p`
ends in a slash.  Hence, on a store in which every task is stored under its
own identifier, `TaskHandler` answers a POST with a valid body on a path that
is empty or resolves with 201 and a `Location` that parses to exactly the path
under which `Create` stored the task, where `Find` returns it.
`TasksHandler` answers a POST with a valid body with 201 and a `Location` that
parses to the path of `p` followed by the new `ID`, while `Create` stored the
task under the `ID` alone: the two agree exactly when the request path holds
no identifier, as `/tasks` does. -/
theorem location_resolves (p : String) (P : List TaskID) (id : TaskID)
    (hp : parseTaskIDPath p = .ok P) (h1 : minInt ≤ id) (h2 : id ≤ maxInt) :
    parseTaskIDPath (locationURL p id) = .ok (P ++ [id]) ∧
      (∀ (s : TaskMemoryStorage) (r : Request) (j : JSONTask), s.KeyedByID →
        r.Method = "POST" → r.URLPath = p → r.Body = .ok j →
        CreateValidator.Validate j = none → (P = [] ∨ ∃ node, s.search P = .ok node) →
        ∃ s1 T loc,
          TaskHandler.ServeHTTP storageService s r = (s1, ⟨201, some loc, .task T⟩) ∧
            loc = locationURL p T.ID ∧ parseTaskIDPath loc = .ok (P ++ [T.ID]) ∧
            s1.Find (P ++ [T.ID]) = (T, none)) ∧
      (∀ (s : TaskMemoryStorage) (r : Request) (j : JSONTask), s.KeyedByID →
        r.Method = "POST" → r.URLPath = p → r.Body = .ok j →
        CreateValidator.Validate j = none →
        ∃ s1 T loc,
          TasksHandler.ServeHTTP storageService s r = (s1, ⟨201, some loc, .task T⟩) ∧
            loc = locationURL p T.ID ∧ parseTaskIDPath loc = .ok (P ++ [T.ID]) ∧
            s1.Find [T.ID] = (T, none) ∧ (P ++ [T.ID] = [T.ID] ↔ P = [])) := by
  refine ⟨parse_locationURL p P id hp h1 h2, ?_, ?_⟩
  · intro s r j hkey hm hu hb hv hP
    have e : TaskHandler.ServeHTTP storageService s r = TaskHandler.post storageService s r := by
      simp only [TaskHandler.ServeHTTP, hm]; rfl
    subst hu
    refine ⟨(TaskStorageService.Create s P ⟨j.Label.getD ""⟩).1,
      Task.mk (wrapInt (s.lastTaskID + 1)) (j.Label.getD "") false (some []),
      locationURL r.URLPath (wrapInt (s.lastTaskID + 1)),
      by rw [e, post_creates s r P j hkey hp hb hv hP], rfl, ?_, ?_⟩
    · exact parse_locationURL r.URLPath P _ hp (wrapInt_range _).1 (wrapInt_range _).2
    · exact (Create_of_resolves s P ⟨j.Label.getD ""⟩ hkey hP).2
  · intro s r j hkey hm hu hb hv
    have e : TasksHandler.ServeHTTP storageService s r =
        TasksHandler.post storageService s r := by
      simp only [TasksHandler.ServeHTTP, hm]; rfl
    subst hu
    refine ⟨(TaskStorageService.Create s [] ⟨j.Label.getD ""⟩).1,
      Task.mk (wrapInt (s.lastTaskID + 1)) (j.Label.getD "") false (some []),
      locationURL r.URLPath (wrapInt (s.lastTaskID + 1)),
      by rw [e, roots_post_creates s r j hkey hb hv], rfl, ?_, ?_, ?_⟩
    · exact parse_locationURL r.URLPath P _ hp (wrapInt_range _).1 (wrapInt_range _).2
    · exact (Create_of_resolves s [] ⟨j.Label.getD ""⟩ hkey (Or.inl rfl)).2
    · constructor
      · intro h
        cases P with
        | nil => rfl
        | cons a rest =>
          have := congrArg List.length h
          simp at this
      · intro h
        rw [h]
        rfl

theorem location_resolves_witness :
    parseTaskIDPath "/tasks/3/" = .ok [3] ∧
      locationURL "/tasks/3/" 7 = "/tasks/3//7" ∧
      parseTaskIDPath (locationURL "/tasks/3/" 7) = .ok ([3] ++ [7]) ∧
      (∃ s1 T loc,
        TaskHandler.ServeHTTP storageService Fixture.store3
            ⟨"POST", "/tasks/3", .ok ⟨some "qux", none⟩⟩ = (s1, ⟨201, some loc, .task T⟩) ∧
          loc = locationURL "/tasks/3" T.ID ∧ parseTaskIDPath loc = .ok ([3] ++ [T.ID]) ∧
          s1.Find ([3] ++ [T.ID]) = (T, none)) ∧
      (TaskHandler.ServeHTTP storageService Fixture.store3
        ⟨"POST", "/tasks/3", .ok ⟨some "qux", none⟩⟩).2.Location = some "/tasks/3/1" ∧
      (∃ s1 T loc,
        TasksHandler.ServeHTTP storageService Fixture.store3
            ⟨"POST", "/tasks", .ok ⟨some "qux", none⟩⟩ = (s1, ⟨201, some loc, .task T⟩) ∧
          loc = locationURL "/tasks" T.ID ∧ parseTaskIDPath loc = .ok ([] ++ [T.ID]) ∧
          s1.Find [T.ID] = (T, none) ∧ ([] ++ [T.ID] = [T.ID] ↔ ([] : List TaskID) = [])) ∧
      (TasksHandler.ServeHTTP storageService Fixture.store3
        ⟨"POST", "/tasks", .ok ⟨some "qux", none⟩⟩).2.Location = some "/tasks/1" :=
  ⟨rfl, by decide,
    (location_resolves "/tasks/3/" [3] 7 rfl (by decide) (by decide)).1,
    (location_resolves "/tasks/3" [3] 7 rfl (by decide) (by decide)).2.1 Fixture.store3
      ⟨"POST", "/tasks/3", .ok ⟨some "qux", none⟩⟩ ⟨some "qux", none⟩ (by decide) rfl rfl rfl
      (by decide) (Or.inr ⟨Fixture.t3, rfl⟩),
    by decide,
    (location_resolves "/tasks" [] 7 rfl (by decide) (by decide)).2.2 Fixture.store3
      ⟨"POST", "/tasks", .ok ⟨some "qux", none⟩⟩ ⟨some "qux", none⟩ (by decide) rfl rfl rfl
      (by decide),
    by decide⟩

end Tasks
namespace Tasks

/-! ## The frame of the structural mutations -/

theorem scanChildren_modifyScanned_ne (x y : TaskID) (g : Task → Task)
    (hg : ∀ c, (g c).ID = c.ID) (hxy : y ≠ x) (cs : List (TaskID × Task)) :
    scanChildren y (modifyScanned x g cs) none = scanChildren y cs none := by
  induction cs with
  | nil => rfl
  | cons e r ih =>
    obtain ⟨k, c⟩ := e
    simp only [modifyScanned]
    split_ifs with h1 h2
    · rw [scanChildren_cons, scanChildren_cons, ih]
    · have hc : ¬ c.ID = y := fun h => hxy (h.symm.trans h2)
      have hgc : ¬ (g c).ID = y := by rw [hg]; exact hc
      rw [scanChildren_cons, scanChildren_cons, if_neg hc, if_neg hgc]
    · rfl

theorem searchFrom_modifyFrom_apart (g : Task → Task) (hg : ∀ c, (g c).ID = c.ID)
    (P Q : List TaskID) (t : Task) (h1 : ¬ P <+: Q) (h2 : ¬ Q <+: P) :
    searchFrom (modifyFrom g P t) Q = searchFrom t Q := by
  induction P generalizing Q t with
  | nil => exact absurd ⟨Q, rfl⟩ h1
  | cons x P' ih =>
    cases Q with
    | nil => exact absurd ⟨x :: P', rfl⟩ h2
    | cons y Q' =>
      simp only [modifyFrom]
      cases hc : t.Children with
      | none => rfl
      | some cs =>
        simp only [searchFrom, Task.setChildren_Children, SubTasks.entries_some, hc]
        by_cases hxy : y = x
        · subst hxy
          rw [scanChildren_modifyScanned y (modifyFrom g P') (modifyFrom_ID g hg P') cs]
          cases scanChildren y cs none with
          | none => rfl
          | some c =>
            simp only [Option.map_some']
            apply ih
            · rintro ⟨r, hr⟩
              exact h1 ⟨r, by rw [List.cons_append, hr]⟩
            · rintro ⟨r, hr⟩
              exact h2 ⟨r, by rw [List.cons_append, hr]⟩
        · rw [scanChildren_modifyScanned_ne x y _ (modifyFrom_ID g hg P') hxy cs]

theorem search_modifyAt_apart (g : Task → Task) (hg : ∀ c, (g c).ID = c.ID)
    (s : TaskMemoryStorage) (P Q : List TaskID) (h1 : ¬ P <+: Q) (h2 : ¬ Q <+: P) :
    TaskMemoryStorage.search { s with storage := modifyAt g P s.storage } Q = s.search Q := by
  cases P with
  | nil => exact absurd ⟨Q, rfl⟩ h1
  | cons a P' =>
    cases Q with
    | nil => exact absurd ⟨a :: P', rfl⟩ h2
    | cons b Q' =>
      simp only [TaskMemoryStorage.search, modifyAt, mapGet_mapModify]
      by_cases hab : b = a
      · subst hab
        simp only [if_true]
        cases mapGet b s.storage with
        | none => rfl
        | some t =>
          simp only [Option.map_some']
          apply searchFrom_modifyFrom_apart g hg
          · rintro ⟨r, hr⟩
            exact h1 ⟨r, by rw [List.cons_append, hr]⟩
          · rintro ⟨r, hr⟩
            exact h2 ⟨r, by rw [List.cons_append, hr]⟩
      · simp only [hab, if_false]

theorem scanChildren_mapErase_ne_keyed {cs : List (TaskID × Task)}
    (h : keyedEntries cs = true) {q k : TaskID} (hq : q ≠ k) :
    scanChildren q (mapErase k cs) none = scanChildren q cs none := by
  induction cs with
  | nil => rfl
  | cons e r ih =>
    obtain ⟨k', c⟩ := e
    rw [keyedEntries_cons] at h
    by_cases h1 : k' = k
    · have hc : ¬ c.ID = q := fun hc => hq (hc.symm.trans (h.1.trans h1))
      simp only [mapErase, h1, if_true]
      rw [scanChildren_cons, if_neg hc, ih h.2.2]
      cases scanChildren q r none <;> rfl
    · simp only [mapErase, h1, if_false]
      rw [scanChildren_cons, scanChildren_cons, ih h.2.2]

theorem scanChildren_mapSet_ne_keyed {cs : List (TaskID × Task)}
    (h : keyedEntries cs = true) (T : Task) {q : TaskID} (hq : q ≠ T.ID) :
    scanChildren q (mapSet T.ID T cs) none = scanChildren q cs none := by
  have hT : ¬ T.ID = q := fun hT => hq hT.symm
  induction cs with
  | nil => simp only [mapSet]; rw [scanChildren_cons, if_neg hT]; rfl
  | cons e r ih =>
    obtain ⟨k', c⟩ := e
    rw [keyedEntries_cons] at h
    by_cases h1 : k' = T.ID
    · have hc : ¬ c.ID = q := fun hc => hq (hc.symm.trans (h.1.trans h1))
      simp only [mapSet, h1, if_true]
      rw [scanChildren_cons, scanChildren_cons, if_neg hc, if_neg hT,
        scanChildren_mapErase_ne_keyed h.2.2 hq]
    · simp only [mapSet, h1, if_false]
      rw [scanChildren_cons, scanChildren_cons, ih h.2.2]

theorem search_modifyAt_beside (g : Task → Task) (hg : ∀ c, (g c).ID = c.ID) (k : TaskID)
    (hscan : ∀ p q, p.keyed = true → q ≠ k →
      scanChildren q (g p).Children.entries none = scanChildren q p.Children.entries none)
    (s : TaskMemoryStorage) (hkey : s.KeyedByID) (P Q : List TaskID) (hP : P ≠ [])
    (h1 : ¬ Q <+: P ++ [k]) (h2 : ¬ (P ++ [k]) <+: Q) :
    TaskMemoryStorage.search { s with storage := modifyAt g P s.storage } Q = s.search Q := by
  by_cases hpq : P <+: Q
  · obtain ⟨R, hR⟩ := hpq
    cases R with
    | nil =>
      exfalso
      apply h1
      rw [List.append_nil] at hR
      exact ⟨[k], by rw [hR]⟩
    | cons q rest =>
      have hq : q ≠ k := by
        rintro rfl
        exact h2 ⟨rest, by rw [← hR]; simp⟩
      cases P with
      | nil => exact absurd rfl hP
      | cons a P' =>
        rw [← hR, search_append, search_append]
        cases hs : s.search (a :: P') with
        | error e =>
          have hfix : modifyAt g (a :: P') s.storage = s.storage :=
            modifyAt_of_fix g s (a :: P') (fun p hp => by rw [hs] at hp; cases hp)
          rw [search_congr { s with storage := modifyAt g (a :: P') s.storage } s hfix, hs]
        | ok p =>
          rw [search_modifyAt g hg s (a :: P') p hs]
          simp only [searchFrom]
          rw [hscan p q (search_keyed hkey hs) hq]
  · apply search_modifyAt_apart g hg s P Q hpq
    rintro ⟨R, hR⟩
    exact h1 ⟨R ++ [k], by rw [← List.append_assoc, hR]⟩

theorem head_ne_of_apart {k : TaskID} {Q : List TaskID} (h1 : ¬ Q <+: [k])
    (h2 : ¬ [k] <+: Q) : ∃ b Q', Q = b :: Q' ∧ b ≠ k := by
  cases Q with
  | nil => exact absurd ⟨[k], rfl⟩ h1
  | cons b Q' =>
    refine ⟨b, Q', rfl, ?_⟩
    rintro rfl
    exact h2 ⟨Q', rfl⟩

theorem Find_of_search_eq {s s' : TaskMemoryStorage} {Q : List TaskID}
    (h : s'.search Q = s.search Q) : s'.Find Q = s.Find Q := by
  rw [Find_eq_search, Find_eq_search, h]

theorem Insert_frame (s : TaskMemoryStorage) (P Q : List TaskID) (T : Task)
    (hkey : s.KeyedByID) (h1 : ¬ Q <+: P ++ [T.ID]) (h2 : ¬ (P ++ [T.ID]) <+: Q) :
    (s.Insert P T).1.search Q = s.search Q := by
  cases P with
  | nil =>
    obtain ⟨b, Q', rfl, hb⟩ := head_ne_of_apart h1 h2
    simp only [TaskMemoryStorage.Insert, TaskMemoryStorage.search, mapGet_mapSet_ne hb]
  | cons a rest =>
    simp only [TaskMemoryStorage.Insert]
    cases hs : s.search (a :: rest) with
    | error e => rfl
    | ok p =>
      apply search_modifyAt_beside (addChild T) (addChild_ID T) T.ID ?_ s hkey (a :: rest) Q
        (List.cons_ne_nil _ _) h1 h2
      intro p q hp hq
      rw [Task.keyed_iff] at hp
      simp only [addChild, Task.setChildren_Children, SubTasks.entries_some]
      exact scanChildren_mapSet_ne_keyed hp T hq

theorem Update_frame (s : TaskMemoryStorage) (P Q : List TaskID) (T : Task)
    (hkey : s.KeyedByID) (h1 : ¬ Q <+: P.dropLast ++ [T.ID])
    (h2 : ¬ (P.dropLast ++ [T.ID]) <+: Q) :
    (s.Update P T).1.search Q = s.search Q := by
  rcases List.eq_nil_or_concat P with rfl | ⟨P', x, rfl⟩
  · rfl
  · rw [List.concat_eq_append] at h1 h2 ⊢
    rw [List.dropLast_concat] at h1 h2
    cases P' with
    | nil =>
      simp only [List.nil_append] at h1 h2
      simp only [List.nil_append, TaskMemoryStorage.Update]
      cases mapGet T.ID s.storage with
      | none => rfl
      | some _ =>
        obtain ⟨b, Q', rfl, hb⟩ := head_ne_of_apart h1 h2
        simp only [TaskMemoryStorage.search, mapGet_mapSet_ne hb]
    | cons a r =>
      rw [Update_snoc s (a :: r) x T (List.cons_ne_nil _ _)]
      cases hs : s.search (a :: r) with
      | error e => rfl
      | ok p =>
        apply search_modifyAt_beside (addChild T) (addChild_ID T) T.ID ?_ s hkey (a :: r) Q
          (List.cons_ne_nil _ _) h1 h2
        intro p q hp hq
        rw [Task.keyed_iff] at hp
        simp only [addChild, Task.setChildren_Children, SubTasks.entries_some]
        exact scanChildren_mapSet_ne_keyed hp T hq

theorem Delete_frame (s : TaskMemoryStorage) (P Q : List TaskID)
    (hkey : s.KeyedByID) (h1 : ¬ Q <+: P) (h2 : ¬ P <+: Q) :
    (s.Delete P).1.search Q = s.search Q := by
  rcases List.eq_nil_or_concat P with rfl | ⟨P', x, rfl⟩
  · rfl
  · rw [List.concat_eq_append] at h1 h2 ⊢
    cases P' with
    | nil =>
      simp only [List.nil_append] at h1 h2
      simp only [List.nil_append, TaskMemoryStorage.Delete]
      cases mapGet x s.storage with
      | none => rfl
      | some _ =>
        obtain ⟨b, Q', rfl, hb⟩ := head_ne_of_apart h1 h2
        simp only [TaskMemoryStorage.search, mapGet_mapErase_ne hb]
    | cons a r =>
      rw [Delete_snoc s (a :: r) x (List.cons_ne_nil _ _)]
      cases hs : s.search (a :: r) with
      | error e => rfl
      | ok p =>
        apply search_modifyAt_beside (removeChild x) (removeChild_ID x) x ?_ s hkey (a :: r) Q
          (List.cons_ne_nil _ _) h1 h2
        intro p q hp hq
        rw [Task.keyed_iff] at hp
        rw [removeChild_entries]
        exact scanChildren_mapErase_ne_keyed hp hq

theorem storage_lastTaskID (s : TaskMemoryStorage) (P : List TaskID) (T : Task) :
    (s.Insert P T).1.lastTaskID = s.lastTaskID ∧ (s.Update P T).1.lastTaskID = s.lastTaskID ∧
      (s.Delete P).1.lastTaskID = s.lastTaskID := by
  refine ⟨?_, ?_, ?_⟩
  · cases P with
    | nil => rfl
    | cons a rest =>
      simp only [TaskMemoryStorage.Insert]
      cases s.search (a :: rest) <;> rfl
  · match P with
    | [] => rfl
    | [a] =>
      simp only [TaskMemoryStorage.Update]
      cases mapGet T.ID s.storage <;> rfl
    | a :: b :: rest =>
      simp only [TaskMemoryStorage.Update]
      cases s.search (a :: b :: rest).dropLast <;> rfl
  · match P with
    | [] => rfl
    | [a] =>
      simp only [TaskMemoryStorage.Delete]
      cases mapGet a s.storage <;> rfl
    | a :: b :: rest =>
      simp only [TaskMemoryStorage.Delete]
      cases s.search (a :: b :: rest).dropLast <;> rfl

/-- Claim C31. Frame of the structural mutations: on a store in which every
task is stored under its own identifier, a storage mutation with target
location `L`, successful or not, where `L` is `P ++ [T.ID]` for
`Insert(P, T)`, `P` without its last element followed by `T.ID` for
`Update(P, T)` (so `[T.ID]` for a path of length one) and `P` for `Delete(P)`,
leaves the result of `Find(Q)` as it was for every path `Q` that is neither a
prefix of `L` nor an extension of `L`, and leaves `lastTaskID` as it was. -/
theorem mutation_frame (s : TaskMemoryStorage) (P Q : List TaskID) (T : Task)
    (hkey : s.KeyedByID) :
    (¬ Q <+: P ++ [T.ID] → ¬ (P ++ [T.ID]) <+: Q → (s.Insert P T).1.Find Q = s.Find Q) ∧
      (¬ Q <+: P.dropLast ++ [T.ID] → ¬ (P.dropLast ++ [T.ID]) <+: Q →
        (s.Update P T).1.Find Q = s.Find Q) ∧
      (¬ Q <+: P → ¬ P <+: Q → (s.Delete P).1.Find Q = s.Find Q) ∧
      (s.Insert P T).1.lastTaskID = s.lastTaskID ∧
      (s.Update P T).1.lastTaskID = s.lastTaskID ∧
      (s.Delete P).1.lastTaskID = s.lastTaskID :=
  ⟨fun h1 h2 => Find_of_search_eq (Insert_frame s P Q T hkey h1 h2),
    fun h1 h2 => Find_of_search_eq (Update_frame s P Q T hkey h1 h2),
    fun h1 h2 => Find_of_search_eq (Delete_frame s P Q hkey h1 h2),
    storage_lastTaskID s P T⟩

theorem mutation_frame_witness :
    Fixture.store34.KeyedByID ∧
      (Fixture.store34.Insert [4] Fixture.t3).2 = none ∧
      (Fixture.store34.Insert [4] Fixture.t3).1.Find [4, 2] = Fixture.store34.Find [4, 2] ∧
      Fixture.store34.Find [4, 2] = (Fixture.t2, none) ∧
      (Fixture.store34.Delete [4, 1]).2 = none ∧
      (Fixture.store34.Delete [4, 1]).1.Find [3, 2] = Fixture.store34.Find [3, 2] ∧
      (Fixture.store34.Delete [4, 1]).1.lastTaskID = 4 :=
  ⟨by decide, rfl,
    (mutation_frame Fixture.store34 [4] [4, 2] Fixture.t3 (by decide)).1 (by decide) (by decide),
    rfl, rfl,
    (mutation_frame Fixture.store34 [4, 1] [3, 2] Fixture.t3 (by decide)).2.2.1 (by decide)
      (by decide),
    (mutation_frame Fixture.store34 [4, 1] [3, 2] Fixture.t3 (by decide)).2.2.2.2.2⟩

end Tasks
